import Mathlib

/-!
Verification of the circuit analysis engine of the Circuit Builder
(Ohm's Law) application.

The engine lives in `circuit_builder/analysis.py`; the data it consumes is
produced by `circuit_builder/components.py` (`CircuitComponent`) and
`circuit_builder/wires.py` (`CircuitWire`).  The embedding below mirrors the
engine function by function:

* Python floats are modelled as exact rationals (`ℚ`); every arithmetic
  operation the engine performs (sums, divisions, comparisons with `0`) is
  mirrored verbatim on `ℚ`.
* Python object identity is modelled positionally: a component is referred
  to by its index in the input component list, a wire by its index in the
  input wire list.  Dictionaries keyed by objects become association lists
  keyed by indices (or total functions with the dictionary's default).
* The engine's `while` loops are embedded as fuel-indexed recursions; the
  fuel passed at each call site is a bound on the number of iterations the
  source loop can perform there, so the embedded function computes the same
  result as the loop.
* Python `set` iteration order is unspecified; wherever the engine iterates
  over a set, the embedding fixes one concrete order (list order of the
  corresponding insertions).  No theorem below depends on that choice except
  where the source itself fixes the order (e.g. `sorted(...)`).
-/

namespace Circuit

/-- The attributes of `CircuitComponent` (`components.py`) that the analysis
engine reads.  `type` is the component kind tag, `switch_closed` the contact
state used for switch kinds; `resistance_value` and `voltage_value` back
`get_resistance` and `get_voltage`. -/
structure Component where
  id : Nat
  type : String
  resistance_value : ℚ
  voltage_value : ℚ
  switch_closed : Bool
  display_label : String
  code_label : String
deriving DecidableEq, Repr

/-- The per-wire data `analyze_circuit` reads from each wire object: for each
connection point (endpoint `a`/`b` of `CircuitWire`), an optional attached
(component index, terminal side) pair, and a list of links
(wire index, endpoint name) to other wires.  The engine only iterates over
the `.values()` of the two endpoint dictionaries, so the endpoint keys are
dropped and the two values kept as lists. -/
structure Wire where
  attachments : List (Option (Nat × String))
  links : List (List (Nat × String))
deriving DecidableEq, Repr

/-- Default component used to make positional lookup total; pipeline inputs
are constrained (`WFInput`) so that this default is never consulted. -/
def defaultComponent : Component := ⟨0, "", 0, 0, true, "", ""⟩

/-- Positional lookup of a component (object identity is positional). -/
def cAt (comps : List Component) (i : Nat) : Component :=
  comps.getD i defaultComponent

/-- `CircuitComponent.get_resistance`. -/
def get_resistance (c : Component) : ℚ := c.resistance_value

/-- `CircuitComponent.get_voltage`: voltage is nonzero only for batteries. -/
def get_voltage (c : Component) : ℚ :=
  if c.type = "battery" then c.voltage_value else 0

/-- `PASSIVE_LOAD_TYPES` from `analysis.py`. -/
def PASSIVE_LOAD_TYPES : List String :=
  ["resistor", "bulb", "led", "diode", "ammeter", "voltmeter"]

/-- `SWITCH_TYPES` from `analysis.py`. -/
def SWITCH_TYPES : List String := ["switch", "switch_spst", "switch_spdt"]

/-- `expected_connections`: required number of connected terminals,
`TERMINAL_REQUIREMENTS.get(component.type, 2)` with `ground` requiring 1. -/
def expected_connections (c : Component) : Nat :=
  if c.type = "ground" then 1 else 2

/-- `_is_passive_load` from `analysis.py`. -/
def is_passive_load (c : Component) : Bool :=
  if PASSIVE_LOAD_TYPES.contains c.type then decide (0 < get_resistance c)
  else if c.type = "battery" then false
  else decide (0 < get_resistance c)

/-- `_is_switch` from `analysis.py`. -/
def is_switch (c : Component) : Bool := SWITCH_TYPES.contains c.type

/-- `_is_switch_closed` from `analysis.py` (`switch_closed` defaults to
`True` for non-switches). -/
def is_switch_closed (c : Component) : Bool :=
  if is_switch c then c.switch_closed else true

/-- Stable insertion into an ascending list (used to embed Python's stable
`sorted`). -/
def insertLe {α : Type} (le : α → α → Bool) (x : α) : List α → List α
  | [] => [x]
  | y :: ys => if le x y then x :: y :: ys else y :: insertLe le x ys

/-- Stable insertion sort, embedding Python's `sorted` (stable, ascending). -/
def sortLe {α : Type} (le : α → α → Bool) : List α → List α
  | [] => []
  | x :: xs => insertLe le x (sortLe le xs)

/-- All unordered pairs `(l[i], l[j])`, `i < j`, in the nested-loop order of
the source's pairwise iteration. -/
def upairs {α : Type} : List α → List (α × α)
  | [] => []
  | x :: xs => xs.map (fun y => (x, y)) ++ upairs xs

/-! ### Kernel-computable rational arithmetic

`Rat.add`/`Rat.mul`/`Rat.div` normalize through `Nat.gcd`, which is defined
by well-founded recursion and therefore does not reduce inside the kernel.
The wrappers below compute the same rational numbers through a structurally
recursive gcd, so that the embedded engine can be evaluated on concrete
circuits by `decide`; the `_eq` lemmas identify them with the standard
operations for symbolic reasoning. -/

/-- Euclid's algorithm with structural fuel (`fuel > m` suffices). -/
def sgcdGo : Nat → Nat → Nat → Nat
  | 0, _, n => n
  | _ + 1, 0, n => n
  | fuel + 1, m + 1, n => sgcdGo fuel (n % (m + 1)) (m + 1)

/-- Structurally recursive gcd. -/
def sgcd (m n : Nat) : Nat := sgcdGo (m + 1) m n

theorem sgcdGo_eq : ∀ (fuel m n : Nat), m < fuel → sgcdGo fuel m n = Nat.gcd m n
  | _ + 1, 0, n, _ => by simp [sgcdGo, Nat.gcd_zero_left]
  | fuel + 1, m + 1, n, h => by
    rw [sgcdGo, Nat.gcd_succ,
      sgcdGo_eq fuel _ _ (Nat.lt_of_lt_of_le (Nat.mod_lt _ (Nat.succ_pos m))
        (Nat.lt_succ_iff.mp h))]

theorem sgcd_eq (m n : Nat) : sgcd m n = Nat.gcd m n :=
  sgcdGo_eq _ _ _ (Nat.lt_succ_self m)

/-- Kernel-computable `Rat.mkRat`: build the reduced fraction `num / den`. -/
def qmk (num : Int) (den : Nat) : ℚ :=
  if h : den = 0 then 0
  else
    { num := num.tdiv (sgcd num.natAbs den)
      den := den / sgcd num.natAbs den
      den_nz := Rat.normalize.den_nz h (sgcd_eq num.natAbs den)
      reduced := Rat.normalize.reduced h (sgcd_eq num.natAbs den) }

theorem qmk_eq (num : Int) (den : Nat) : qmk num den = mkRat num den := by
  unfold qmk
  rw [Rat.mkRat_def]
  split
  · rfl
  · show _ = Rat.normalize num den _
    rw [Rat.normalize, Rat.maybeNormalize_eq]
    congr 2 <;> rw [sgcd_eq]

/-- Kernel-computable `a + b` on `ℚ`. -/
def qadd (a b : ℚ) : ℚ := qmk (a.num * b.den + b.num * a.den) (a.den * b.den)

theorem qadd_eq (a b : ℚ) : qadd a b = a + b := by
  rw [qadd, qmk_eq, ← Rat.add_def']

/-- Kernel-computable `a * b` on `ℚ`. -/
def qmul (a b : ℚ) : ℚ := qmk (a.num * b.num) (a.den * b.den)

theorem qmul_eq (a b : ℚ) : qmul a b = a * b := by
  rw [qmul, qmk_eq,
    ← Rat.normalize_eq_mkRat (Nat.mul_ne_zero a.den_nz b.den_nz), ← Rat.mul_def]

/-- Kernel-computable `a⁻¹` on `ℚ`. -/
def qinv (a : ℚ) : ℚ :=
  match a.num with
  | Int.ofNat n => qmk a.den n
  | Int.negSucc n => qmk (-(a.den : Int)) (n + 1)

theorem qinv_eq (a : ℚ) : qinv a = a⁻¹ := by
  show qinv a = a.inv
  rw [Rat.inv_def]
  rcases h : a.num with n | n
  · simp only [qinv, h]
    rw [show Rat.divInt (a.den : Int) (Int.ofNat n) = mkRat a.den n from rfl, qmk_eq]
  · simp only [qinv, h]
    rw [show Rat.divInt (a.den : Int) (Int.negSucc n) =
          Rat.normalize (-(a.den : Int)) (n + 1) nofun from rfl,
        Rat.normalize_eq_mkRat, qmk_eq]

/-- Kernel-computable `a / b` on `ℚ`. -/
def qdiv (a b : ℚ) : ℚ := qmul a (qinv b)

theorem qdiv_eq (a b : ℚ) : qdiv a b = a / b := by
  rw [qdiv, qmul_eq, qinv_eq, div_eq_mul_inv]

/-- Kernel-computable `sum(...)` on `ℚ` (Python folds left from `0`). -/
def qsum (l : List ℚ) : ℚ := l.foldl qadd 0

theorem qsum_foldl (l : List ℚ) (a : ℚ) : l.foldl qadd a = a + l.sum := by
  induction l generalizing a with
  | nil => simp
  | cons x xs ih => simp [List.foldl_cons, ih, qadd_eq, add_assoc]

theorem qsum_eq (l : List ℚ) : qsum l = l.sum := by
  rw [qsum, qsum_foldl, zero_add]

/-- The numeric value of `qmk`. -/
theorem qmk_val (n : Int) (d : Nat) : qmk n d = (n : ℚ) / d := by
  rw [qmk_eq, Rat.mkRat_eq_divInt, Rat.divInt_eq_div]
  norm_num

/-- Keep the first occurrence of every string, in order: the effect of the
caller's `list(dict.fromkeys(issues))` in `OhmsLawApp._calculate_circuit`
(`app.py`), the only place the engine's issues are deduplicated. -/
def dedup_issues : List String → List String
  | [] => []
  | x :: xs => x :: (dedup_issues xs).filter (fun y => y ≠ x)

/-- Per-component electrical metrics (`{"current", "voltage", "power"}`). -/
structure Metric where
  current : ℚ
  voltage : ℚ
  power : ℚ
deriving DecidableEq, Repr

/-- The `per_component` dictionary, keyed by component index, with Python
dictionary insertion-order semantics. -/
abbrev MetricsMap := List (Nat × Metric)

/-- Dictionary assignment `per_component[comp] = v` (overwrite). -/
def minsert (m : MetricsMap) (k : Nat) (v : Metric) : MetricsMap :=
  if m.any (fun p => p.1 = k) then
    m.map (fun p => if p.1 = k then (k, v) else p)
  else m ++ [(k, v)]

/-- Dictionary `per_component.setdefault(comp, v)`. -/
def msetdefault (m : MetricsMap) (k : Nat) (v : Metric) : MetricsMap :=
  if m.any (fun p => p.1 = k) then m else m ++ [(k, v)]

/-- Dictionary lookup `per_component.get(comp)`. -/
def mfind (m : MetricsMap) (k : Nat) : Option Metric :=
  (m.find? (fun p => p.1 = k)).map Prod.snd

/-- The `summary` dictionary built by `compute_circuit_metrics`. -/
structure Summary where
  total_voltage : ℚ
  total_resistance : ℚ
  total_current : ℚ
  total_power : ℚ
  status_override : String
  status_detail_override : String
deriving DecidableEq, Repr

/-- `compute_circuit_metrics` from `analysis.py`, translated branch by
branch.  Inputs are the selected group, its batteries and its loads (as
component indices into `comps`) and the classified circuit type. -/
def compute_circuit_metrics (comps : List Component)
    (component_group batteries loads : List Nat) (circuit_type : String) :
    Summary × MetricsMap × List String :=
  let total_voltage : ℚ := qsum (batteries.map (fun i => get_voltage (cAt comps i)))
  let summary : Summary :=
    ⟨total_voltage, 0, 0, 0, "Closed", "✓ Circuit Complete & Powered"⟩
  if total_voltage ≤ 0 then
    ({ summary with status_override := "Alert",
                    status_detail_override := "⚠️ Add an active battery" },
      [], ["No active voltage source detected"])
  else if loads.isEmpty then
    ({ summary with status_override := "Alert",
                    status_detail_override := "⚠️ Add a resistor, bulb, or other load" },
      [], ["No passive load connected to the circuit"])
  else
    let positive_loads := loads.filter (fun i => decide (0 < get_resistance (cAt comps i)))
    let zero_loads := loads.filter (fun i => decide (get_resistance (cAt comps i) ≤ 0))
    if ¬ zero_loads.isEmpty then
      ({ summary with status_override := "Alert",
                      status_detail_override := "⚠️ Short circuit detected" },
        zero_loads.foldl (fun m i => minsert m i ⟨0, 0, 0⟩) [],
        zero_loads.map (fun i =>
          (cAt comps i).display_label ++ " has zero resistance (short path)"))
    else if circuit_type = "Parallel" ∧ 2 ≤ positive_loads.length then
      let inverse_sum : ℚ :=
        qsum ((positive_loads.filter (fun i => decide (0 < get_resistance (cAt comps i)))).map
          (fun i => qdiv 1 (get_resistance (cAt comps i))))
      if inverse_sum ≤ 0 then
        ({ summary with status_override := "Alert",
                        status_detail_override := "⚠️ Calculation error" },
          [], ["Unable to compute equivalent resistance for parallel network"])
      else
        let equivalent_resistance : ℚ := qdiv 1 inverse_sum
        let total_current : ℚ :=
          qsum (positive_loads.map (fun i => qdiv total_voltage (get_resistance (cAt comps i))))
        let total_power : ℚ :=
          qsum (positive_loads.map (fun i =>
            qdiv (qmul total_voltage total_voltage) (get_resistance (cAt comps i))))
        let summary := { summary with total_resistance := equivalent_resistance,
                                      total_current := total_current,
                                      total_power := total_power }
        let per₀ := positive_loads.foldl (fun m i =>
          minsert m i ⟨qdiv total_voltage (get_resistance (cAt comps i)), total_voltage,
            qdiv (qmul total_voltage total_voltage) (get_resistance (cAt comps i))⟩) []
        let per₁ := batteries.foldl (fun m i =>
          minsert m i ⟨summary.total_current, get_voltage (cAt comps i),
            qmul (get_voltage (cAt comps i)) summary.total_current⟩) per₀
        let per₂ := component_group.foldl (fun m i =>
          msetdefault m i ⟨summary.total_current, 0, 0⟩) per₁
        (summary, per₂, [])
    else
      let issues₀ : List String :=
        if circuit_type ≠ "Series" ∧ circuit_type ≠ "Single Load" then
          ["Circuit contains mixed branches; using series approximation"]
        else []
      let equivalent_resistance : ℚ :=
        qsum (positive_loads.map (fun i => get_resistance (cAt comps i)))
      if equivalent_resistance ≤ 0 then
        ({ summary with status_override := "Alert",
                        status_detail_override := "⚠️ Calculation error" },
          [], issues₀ ++ ["Equivalent resistance is zero; cannot compute current"])
      else
        let total_current : ℚ := qdiv total_voltage equivalent_resistance
        let total_power : ℚ := qmul total_voltage total_current
        let summary := { summary with total_resistance := equivalent_resistance,
                                      total_current := total_current,
                                      total_power := total_power }
        let per₀ := positive_loads.foldl (fun m i =>
          minsert m i ⟨total_current, qmul total_current (get_resistance (cAt comps i)),
            qmul (qmul total_current total_current) (get_resistance (cAt comps i))⟩) []
        let per₁ := batteries.foldl (fun m i =>
          minsert m i ⟨summary.total_current, get_voltage (cAt comps i),
            qmul (get_voltage (cAt comps i)) summary.total_current⟩) per₀
        let per₂ := component_group.foldl (fun m i =>
          msetdefault m i ⟨summary.total_current, 0, 0⟩) per₁
        (summary, per₂, issues₀)

/-- Association-list lookup `component_nodes.get(load, [])`. -/
def cnGet (m : List (Nat × List String)) (k : Nat) : List String :=
  ((m.find? (fun p => p.1 = k)).map Prod.snd).getD []

/-- The `sorted({node for node in component_nodes.get(load, []) ...})` step
of `classify_circuit`: distinct node identifiers in ascending string order.
(The `is not None` filter of the source is vacuous here: node identifiers
are strings.) -/
def sortedNodeList (nodes : List String) : List String :=
  sortLe (fun a b => decide (a ≤ b)) nodes.dedup

/-- `classify_circuit` from `analysis.py`. -/
def classify_circuit (component_group : List Nat) (adjacency : Nat → List Nat)
    (loads : List Nat) (component_nodes : List (Nat × List String)) : String :=
  if loads.length ≤ 1 then "Single Load"
  else
    let node_pairs : List (String × String) :=
      if component_nodes.isEmpty then []
      else loads.filterMap (fun ld =>
        match sortedNodeList (cnGet component_nodes ld) with
        | n0 :: n1 :: _ => some (n0, n1)
        | _ => none)
    if node_pairs.any (fun p => 2 ≤ node_pairs.count p) then "Parallel"
    else if ¬ (component_group.filter (fun c => 2 < (adjacency c).length)).isEmpty then
      "Parallel"
    else "Series"

/-- The body of the `while queue:` loop of `describe_active_path`, fuel
indexed.  The queue is popped from the front; neighbour expansion filters to
the group and sorts ascending by component id (`sorted(..., key=comp.id)`),
and skips components already visited. -/
def bfsLoop (comps : List Component) (component_group : List Nat)
    (adjacency : Nat → List Nat) :
    Nat → List Nat → List Nat → List String → List String
  | 0, _, _, ordered => ordered
  | _ + 1, [], _, ordered => ordered
  | fuel + 1, node :: queue, visited, ordered =>
    if visited.contains node then bfsLoop comps component_group adjacency fuel queue visited ordered
    else
      let visited' := node :: visited
      let ordered' := ordered ++ [(cAt comps node).code_label]
      let neighbors :=
        sortLe (fun a b => decide ((cAt comps a).id ≤ (cAt comps b).id))
          ((adjacency node).filter (fun m => component_group.contains m))
      let queue' := queue ++ neighbors.filter (fun m => ¬ visited'.contains m)
      bfsLoop comps component_group adjacency fuel queue' visited' ordered'

/-- `describe_active_path` from `analysis.py`.  The fuel passed to the loop
bounds the number of queue pops: at most one initial push plus one push per
group membership test that succeeds, which is at most the summed degree of
the start node and the group members. -/
def describe_active_path (comps : List Component) (component_group : List Nat)
    (adjacency : Nat → List Nat) (batteries : List Nat) : String :=
  if component_group.isEmpty then "—"
  else
    let start := match batteries with
      | b :: _ => b
      | [] => component_group.headD 0
    let fuel := 2 + (adjacency start).length +
      (component_group.map (fun i => (adjacency i).length)).sum
    let ordered := bfsLoop comps component_group adjacency fuel [start] [] []
    if ordered.isEmpty then "—" else String.intercalate " → " ordered

/-- Keep the first occurrence of every element, in order: the contents of a
Python `dict`/`set` in insertion order. -/
def dedupKeepFirst {α : Type} [DecidableEq α] : List α → List α
  | [] => []
  | x :: xs => x :: (dedupKeepFirst xs).filter (fun y => y ≠ x)

/-- The root chase of `_find_root`/`_find_terminal_root`, fuel indexed.  The
source performs path compression while chasing; compression only rewrites
parent pointers along the path onto the root that is returned, so the root
returned by the source equals this pure chase whenever the fuel covers the
chain length.  `parents.setdefault(node, node)` makes a missing key its own
parent, which the total-function representation gives for free. -/
def uf_find {α : Type} [DecidableEq α] (fuel : Nat) (p : α → α) (x : α) : α :=
  match fuel with
  | 0 => x
  | f + 1 => if p x = x then x else uf_find f p (p x)

/-- `_union_nodes`/`_union_terminals`: point the root of `b` at the root of
`a` when the two differ. -/
def uf_union {α : Type} [DecidableEq α] (fuel : Nat) (p : α → α) (a b : α) : α → α :=
  let root_a := uf_find fuel p a
  let root_b := uf_find fuel p b
  if root_a = root_b then p else Function.update p root_b root_a

/-- Process a list of union operations in order. -/
def uf_unions {α : Type} [DecidableEq α] (fuel : Nat) (pairs : List (α × α))
    (p : α → α) : α → α :=
  pairs.foldl (fun q pr => uf_union fuel q pr.1 pr.2) p

/-- Positional lookup of a wire. -/
def wAt (wires : List Wire) (i : Nat) : Wire := wires.getD i ⟨[], []⟩

/-- The wire-to-wire union operations performed by the first loop of
`analyze_circuit`: for each wire, for each link set, each linked wire that
is present in the input list is unioned with the current wire.  (Membership
of the linked wire object in `wire_indices` becomes a bound check on its
index.) -/
def wireLinkPairs (wires : List Wire) : List (Nat × Nat) :=
  (wires.enum.map (fun iw =>
    (iw.2.links.map (fun link_set =>
      link_set.filterMap (fun lw =>
        if lw.1 < wires.length then some (iw.1, lw.1) else none))).flatten)).flatten

/-- Fuel covering any parent chain over wire indices (chains visit distinct
indices `< wires.length`). -/
def wireFindFuel (wires : List Wire) : Nat := wires.length + 1

/-- The `wire_parents` union-find after all link unions. -/
def wire_parents (wires : List Wire) : Nat → Nat :=
  uf_unions (wireFindFuel wires) (wireLinkPairs wires) id

/-- Cluster representative of a wire (root in `wire_parents`). -/
def wireRoot (wires : List Wire) (i : Nat) : Nat :=
  uf_find (wireFindFuel wires) (wire_parents wires) i

/-- Number of endpoints of the wire holding a component attachment. -/
def wireAttachmentCount (w : Wire) : Nat := (w.attachments.filter Option.isSome).length

/-- Total number of wire-to-wire links of the wire. -/
def wireLinkCount (w : Wire) : Nat := (w.links.map List.length).sum

/-- The connectivity diagnostics of the first wire loop of
`analyze_circuit`, in wire-list order. -/
def wire_issues (wires : List Wire) : List String :=
  (wires.map (fun w =>
    if wireAttachmentCount w + wireLinkCount w = 0 then
      ["Wire with no connections detected"]
    else if wireAttachmentCount w + wireLinkCount w = 1 then
      ["Wire with a floating endpoint detected"]
    else [])).flatten

/-- `endpoint_counts`: how many wire endpoints attach to component `c`. -/
def endpoint_count (wires : List Wire) (c : Nat) : Nat :=
  (wires.map (fun w => (w.attachments.filterMap id).countP (fun a => a.1 = c))).sum

/-- Cluster representatives in first-appearance order (the iteration order
of the `wire_clusters` dictionary). -/
def clusterRootsList (wires : List Wire) : List Nat :=
  dedupKeepFirst ((List.range wires.length).map (wireRoot wires))

/-- The wires of one cluster, in wire-list order. -/
def clusterWires (wires : List Wire) (root : Nat) : List Nat :=
  (List.range wires.length).filter (fun i => wireRoot wires i = root)

/-- `terminal_id = f"{comp.id}:{side}"`. -/
def termId (comps : List Component) (ci : Nat) (side : String) : String :=
  toString (cAt comps ci).id ++ ":" ++ side

/-- The `(terminal id, component)` attachments collected from one cluster,
in wire order then attachment order. -/
def clusterTerms (comps : List Component) (wires : List Wire)
    (cluster : List Nat) : List (String × Nat) :=
  (cluster.map (fun i =>
    ((wAt wires i).attachments.filterMap id).map
      (fun a => (termId comps a.1 a.2, a.1)))).flatten

/-- The star of terminal unions one cluster performs: every terminal after
the first is unioned against `terminals[0]`. -/
def termPairsOfCluster (comps : List Component) (wires : List Wire)
    (cluster : List Nat) : List (String × String) :=
  match (clusterTerms comps wires cluster).map Prod.fst with
  | [] => []
  | t0 :: ts => ts.map (fun t => (t0, t))

/-- All terminal union operations, cluster by cluster. -/
def term_pairs (comps : List Component) (wires : List Wire) :
    List (String × String) :=
  ((clusterRootsList wires).map (fun r =>
    termPairsOfCluster comps wires (clusterWires wires r))).flatten

/-- The raw `(terminal id, component)` assignment sequence into
`terminal_component`, over all clusters. -/
def termRaw (comps : List Component) (wires : List Wire) : List (String × Nat) :=
  ((clusterRootsList wires).map (fun r =>
    clusterTerms comps wires (clusterWires wires r))).flatten

/-- Fuel covering any parent chain over terminal identifiers (chains visit
distinct keys, all of which occur in `termRaw`). -/
def termFindFuel (comps : List Component) (wires : List Wire) : Nat :=
  (termRaw comps wires).length + 1

/-- The `terminal_parents` union-find after all terminal unions. -/
def terminal_parents (comps : List Component) (wires : List Wire) : String → String :=
  uf_unions (termFindFuel comps wires) (term_pairs comps wires) id

/-- Electrical node of a terminal (root in `terminal_parents`). -/
def termRoot (comps : List Component) (wires : List Wire) (t : String) : String :=
  uf_find (termFindFuel comps wires) (terminal_parents comps wires) t

/-- The `terminal_component` dictionary: keys in first-insertion order,
values by last assignment. -/
def term_entries (comps : List Component) (wires : List Wire) : List (String × Nat) :=
  (dedupKeepFirst ((termRaw comps wires).map Prod.fst)).map (fun t =>
    (t, ((((termRaw comps wires).filter (fun p => p.1 = t)).getLast?).map Prod.snd).getD 0))

/-- Node identifiers in the iteration order of `node_members`. -/
def nodeIdsList (comps : List Component) (wires : List Wire) : List String :=
  dedupKeepFirst ((term_entries comps wires).map (fun p => termRoot comps wires p.1))

/-- `node_members[node_id]`: the components having a terminal in the node,
in insertion order. -/
def node_members (comps : List Component) (wires : List Wire) (nid : String) :
    List Nat :=
  dedupKeepFirst (((term_entries comps wires).filter
    (fun p => termRoot comps wires p.1 = nid)).map Prod.snd)

/-- `component_nodes.setdefault(component, []).append(node_id)` guarded by
membership. -/
def cnAppend (m : List (Nat × List String)) (c : Nat) (node : String) :
    List (Nat × List String) :=
  if m.any (fun p => p.1 = c) then
    m.map (fun p =>
      if p.1 = c then (p.1, if p.2.contains node then p.2 else p.2 ++ [node]) else p)
  else m ++ [(c, [node])]

/-- The `component_nodes` dictionary: every component starts with an empty
node list; nodes are appended in `terminal_component` iteration order. -/
def component_nodes (comps : List Component) (wires : List Wire) :
    List (Nat × List String) :=
  (term_entries comps wires).foldl
    (fun m p => cnAppend m p.2 (termRoot comps wires p.1))
    ((List.range comps.length).map (fun i => (i, ([] : List String))))

/-- `adjacency.setdefault(comp_a, set()).add(comp_b)` on the functional
adjacency representation (duplicate-free neighbour lists). -/
def insertNeighbor (adj : Nat → List Nat) (a b : Nat) : Nat → List Nat :=
  Function.update adj a (if (adj a).contains b then adj a else (adj a) ++ [b])

/-- Add the symmetric edges of one electrical node's member pairs. -/
def addEdges (adj : Nat → List Nat) (members : List Nat) : Nat → List Nat :=
  (upairs members).foldl
    (fun m pr => insertNeighbor (insertNeighbor m pr.1 pr.2) pr.2 pr.1) adj

/-- The component adjacency graph derived by node resolution. -/
def adjacencyOf (comps : List Component) (wires : List Wire) : Nat → List Nat :=
  (nodeIdsList comps wires).foldl
    (fun adj nid => addEdges adj (node_members comps wires nid)) (fun _ => [])

/-- The component set of one cluster (`cluster_components`). -/
def clusterComps (comps : List Component) (wires : List Wire)
    (cluster : List Nat) : List Nat :=
  dedupKeepFirst ((clusterTerms comps wires cluster).map Prod.snd)

/-- The per-component connectivity diagnostics (under-connected terminals,
open switches), in component order. -/
def component_issues (comps : List Component) (wires : List Wire) : List String :=
  ((List.range comps.length).map (fun i =>
    let c := cAt comps i
    (if endpoint_count wires i < expected_connections c then
      [c.display_label ++ ": " ++ toString (endpoint_count wires i) ++ "/" ++
        toString (expected_connections c) ++ " terminals connected"]
     else []) ++
    (if is_switch c ∧ ¬ is_switch_closed c then
      [c.display_label ++ " is open; close it to complete the circuit"]
     else []))).flatten

/-- The `while stack:` flood fill of `analyze_circuit`, fuel indexed.  The
stack is LIFO (`stack.pop()` pops the most recently pushed element);
neighbours not yet visited are marked visited and pushed.  Each component is
pushed at most once, so `comps.length + 1` fuel covers the loop whenever
the adjacency graph maps into the component range. -/
def ffStep (st : List Nat × List Nat) (m : Nat) : List Nat × List Nat :=
  if st.2.contains m then st else (m :: st.1, m :: st.2)

/-- The neighbour expansion of one popped node: push every neighbour not yet
visited onto the stack and mark it visited. -/
def ffFold (l : List Nat) (st : List Nat × List Nat) : List Nat × List Nat :=
  l.foldl ffStep st

def floodFill (adjacency : Nat → List Nat) :
    Nat → List Nat → List Nat → List Nat × List Nat
  | 0, _, visited => ([], visited)
  | _ + 1, [], visited => ([], visited)
  | fuel + 1, node :: stack, visited =>
    let expanded := ffFold (adjacency node) (stack, visited)
    let rest := floodFill adjacency fuel expanded.1 expanded.2
    (node :: rest.1, rest.2)

/-- The component scan of `analyze_circuit`: flood-fill each unvisited
component, test the candidate group against the eligibility guards in
source order, and stop at the first group passing all of them. -/
def scanGroups (comps : List Component) (adjacency : Nat → List Nat)
    (ec : Nat → Nat) :
    List Nat → List Nat → Option (List Nat × List Nat × List Nat)
  | [], _ => none
  | i :: rest, visited =>
    if visited.contains i then scanGroups comps adjacency ec rest visited
    else
      let ff := floodFill adjacency (comps.length + 1) [i] (i :: visited)
      let candidate_group := ff.1
      let visited' := ff.2
      if candidate_group.length < 2 then scanGroups comps adjacency ec rest visited'
      else
        let batteries := candidate_group.filter (fun j => (cAt comps j).type = "battery")
        let loads := candidate_group.filter (fun j => is_passive_load (cAt comps j))
        if candidate_group.any (fun j =>
            is_switch (cAt comps j) && ! is_switch_closed (cAt comps j)) then
          scanGroups comps adjacency ec rest visited'
        else if batteries.isEmpty ∨ loads.isEmpty then
          scanGroups comps adjacency ec rest visited'
        else if ¬ candidate_group.all (fun j =>
            expected_connections (cAt comps j) ≤ ec j) then
          scanGroups comps adjacency ec rest visited'
        else some (candidate_group, batteries, loads)

/-- The aggregate analysis record returned by `analyze_circuit`. -/
structure Analysis where
  component_count : Nat
  wire_count : Nat
  active_component_count : Nat
  active_wire_count : Nat
  type : String
  status : String
  status_detail : String
  total_voltage : ℚ
  total_current : ℚ
  total_resistance : ℚ
  total_power : ℚ
  path_description : String
  issues : List String
deriving DecidableEq, Repr

/-- The full return value of `analyze_circuit`: aggregate record, selected
component subset, selected wire subset, per-component metrics map. -/
structure AnalyzeResult where
  analysis : Analysis
  active_group : Option (List Nat)
  active_wires : Option (List Nat)
  component_metrics : MetricsMap
deriving DecidableEq, Repr

/-- `analyze_circuit` from `analysis.py`, assembled from the pieces above in
source order: node resolution, connectivity diagnostics, group scan,
classification, metrics, path description. -/
def analyze_circuit (comps : List Component) (wires : List Wire) : AnalyzeResult :=
  let adjacency := adjacencyOf comps wires
  let ec := endpoint_count wires
  let issues₀ := wire_issues wires ++ component_issues comps wires
  let base : Analysis :=
    { component_count := comps.length, wire_count := wires.length,
      active_component_count := 0, active_wire_count := 0,
      type := "Open", status := "Open", status_detail := "⚫ Open Circuit",
      total_voltage := 0, total_current := 0, total_resistance := 0,
      total_power := 0, path_description := "—", issues := issues₀ }
  match scanGroups comps adjacency ec (List.range comps.length) [] with
  | none => ⟨base, none, none, []⟩
  | some (active_group, group_batteries, group_loads) =>
    let activeClusterRoots := (clusterRootsList wires).filter (fun r =>
      2 ≤ ((clusterComps comps wires (clusterWires wires r)).filter
            (fun c => active_group.contains c)).length)
    let active_wires :=
      if activeClusterRoots.isEmpty then []
      else (List.range wires.length).filter
        (fun i => activeClusterRoots.contains (wireRoot wires i))
    let circuit_type :=
      classify_circuit active_group adjacency group_loads (component_nodes comps wires)
    let cm := compute_circuit_metrics comps active_group group_batteries group_loads circuit_type
    let summary := cm.1
    let analysis : Analysis :=
      { base with
        type := circuit_type,
        status := summary.status_override,
        status_detail := summary.status_detail_override,
        total_voltage := summary.total_voltage,
        total_current := summary.total_current,
        total_resistance := summary.total_resistance,
        total_power := summary.total_power,
        active_component_count := active_group.length,
        active_wire_count := active_wires.length,
        path_description := describe_active_path comps active_group adjacency group_batteries,
        issues := issues₀ ++ cm.2.2 }
    let analysis :=
      if analysis.status = "Closed" ∧
          summary.status_detail_override = "✓ Circuit Complete & Powered" then
        { analysis with status_detail := "✓ " ++ circuit_type ++ " circuit powered" }
      else analysis
    ⟨analysis, some active_group, some active_wires, cm.2.1⟩

/-! ### Claim C1: the wire attribute the engine reads -/

/-- The attribute names `CircuitWire.__init__` (`wires.py`, the class
actually instantiated for every wire of the application) stores on a wire
object. -/
def circuitWireInitAttributes : List String :=
  ["canvas", "on_change", "on_request_remove", "connector_finder", "line_id",
   "endpoints", "positions", "attachments", "active", "linked_endpoints",
   "_dragging_endpoint"]

/-- The attributes `analyze_circuit` (`analysis.py`) reads from every
element of its `wires` argument (`wire.links` at the top of the first wire
loop, `wire.attachments` throughout). -/
def analyzeCircuitWireAttributeReads : List String := ["links", "attachments"]

/-- C1: refuted on the source as shipped.  `analyze_circuit` dereferences
`wire.links` for every wire, but `CircuitWire.__init__` never defines a
`links` attribute (the link sets are stored under `linked_endpoints`), so
the very first wire makes the engine raise `AttributeError` instead of
returning an aggregate record.  The embedding `analyze_circuit` above models
the engine on the wire data it was written against and is total; this
theorem records the attribute mismatch that breaks totality on real
`CircuitWire` inputs. -/
theorem analyze_circuit_reads_absent_wire_attribute :
    "links" ∈ analyzeCircuitWireAttributeReads ∧
    "links" ∉ circuitWireInitAttributes ∧
    "linked_endpoints" ∈ circuitWireInitAttributes ∧
    "linked_endpoints" ∉ analyzeCircuitWireAttributeReads := by decide

/-! ### Claim C2: zero-resistance resistor in an otherwise valid loop -/

/-- A 9 V battery, a 0 Ω resistor and a 100 Ω resistor. -/
def c2comps : List Component :=
  [⟨0, "battery", 0, 9, true, "Battery 1", "B1"⟩,
   ⟨1, "resistor", 0, 0, true, "Resistor 1", "R1"⟩,
   ⟨2, "resistor", 100, 0, true, "Resistor 2", "R2"⟩]

/-- Three wires closing the loop battery → R1 → R2 → battery, every
terminal attached. -/
def c2wires : List Wire :=
  [⟨[some (0, "right"), some (1, "left")], [[], []]⟩,
   ⟨[some (1, "right"), some (2, "left")], [[], []]⟩,
   ⟨[some (2, "right"), some (0, "left")], [[], []]⟩]

/-- C2 counterexample: a snapshot forming an otherwise valid closed loop in
which resistor R1 has resistance 0.  The analysis returns status `Closed`
(not `Alert`), an empty issue list (no "zero resistance (short path)"
entry), and gives the zero-resistance resistor current `9/100` (not 0):
`_is_passive_load` requires positive resistance, so a 0 Ω resistor never
reaches the short-circuit branch of `compute_circuit_metrics`. -/
theorem zero_resistance_loop_closed_not_alert :
    (cAt c2comps 1).type = "resistor" ∧
    get_resistance (cAt c2comps 1) = 0 ∧
    (analyze_circuit c2comps c2wires).analysis.status = "Closed" ∧
    (analyze_circuit c2comps c2wires).analysis.status ≠ "Alert" ∧
    (analyze_circuit c2comps c2wires).analysis.issues = [] ∧
    mfind (analyze_circuit c2comps c2wires).component_metrics 1 =
      some ⟨9 / 100, 0, 0⟩ := by
  have e : (9 : ℚ) / 100 = qmk 9 100 := by rw [qmk_val]; norm_num
  rw [e]
  refine ⟨by decide, by decide, by decide, by decide, by decide, by decide⟩

/-! ### Claim C3: which components count as loads -/

/-- A 9 V battery and a capacitor whose resistance attribute is 5 Ω. -/
def c3comps : List Component :=
  [⟨0, "battery", 0, 9, true, "Battery 1", "B1"⟩,
   ⟨1, "capacitor", 5, 0, true, "Capacitor 1", "C1"⟩]

/-- Two wires closing the loop battery → capacitor → battery. -/
def c3wires : List Wire :=
  [⟨[some (0, "right"), some (1, "left")], [[], []]⟩,
   ⟨[some (1, "right"), some (0, "left")], [[], []]⟩]

/-- C3 counterexample: no component of this snapshot has a kind in
{resistor, bulb, led, diode, ammeter, voltmeter}, so under the claim's load
predicate no subgraph is eligible and the status should be `Open`; the code
accepts the capacitor (any non-battery kind with positive resistance is a
load for `_is_passive_load`) and returns an active group with status
`Closed`. -/
theorem nonstandard_kind_load_selected :
    (∀ c ∈ c3comps, c.type ∉ PASSIVE_LOAD_TYPES) ∧
    (analyze_circuit c3comps c3wires).active_group = some [0, 1] ∧
    (analyze_circuit c3comps c3wires).analysis.status = "Closed" ∧
    (analyze_circuit c3comps c3wires).analysis.status ≠ "Open" := by
  refine ⟨by decide, by decide, by decide, by decide⟩

/-! ### Claim C4: deduplication of the issues list -/

/-- A wire with no attachments and no links. -/
def c4wire : Wire := ⟨[none, none], [[], []]⟩

/-- C4 counterexample: two fully disconnected wires make `analyze_circuit`
return the issue "Wire with no connections detected" twice; the engine does
not deduplicate its issues list. -/
theorem analyze_issues_duplicate :
    (analyze_circuit [] [c4wire, c4wire]).analysis.issues =
      ["Wire with no connections detected", "Wire with no connections detected"] ∧
    ¬ (analyze_circuit [] [c4wire, c4wire]).analysis.issues.Nodup := by
  refine ⟨by decide, by decide⟩

/-- `dedup_issues` keeps membership. -/
theorem dedup_issues_mem (s : String) (l : List String) :
    s ∈ dedup_issues l ↔ s ∈ l := by
  induction l with
  | nil => simp [dedup_issues]
  | cons x xs ih =>
    simp only [dedup_issues, List.mem_cons, List.mem_filter]
    constructor
    · rintro (rfl | ⟨hs, _⟩)
      · exact Or.inl rfl
      · exact Or.inr (ih.mp hs)
    · rintro (rfl | hs)
      · exact Or.inl rfl
      · by_cases hx : s = x
        · exact Or.inl hx
        · exact Or.inr ⟨ih.mpr hs, by simpa using hx⟩

/-- `dedup_issues` produces a duplicate-free list. -/
theorem dedup_issues_nodup (l : List String) : (dedup_issues l).Nodup := by
  induction l with
  | nil => simp [dedup_issues]
  | cons x xs ih =>
    refine List.Nodup.cons ?_ (ih.filter _)
    intro hx
    rcases List.mem_filter.mp hx with ⟨-, hne⟩
    simp at hne

/-- C4 amended: the record returned by `analyze_circuit` may contain equal
issue strings; the deduplication by exact string equality (first occurrence
kept) is performed by the caller, `OhmsLawApp._calculate_circuit`
(`app.py`, `list(dict.fromkeys(issues))`), before the record is stored and
displayed.  After that step the issue list has no two equal strings and
exactly the same members. -/
theorem caller_dedup_issues_nodup (comps : List Component) (wires : List Wire) :
    (dedup_issues (analyze_circuit comps wires).analysis.issues).Nodup ∧
    ∀ s, s ∈ dedup_issues (analyze_circuit comps wires).analysis.issues ↔
      s ∈ (analyze_circuit comps wires).analysis.issues :=
  ⟨dedup_issues_nodup _, fun s => dedup_issues_mem s _⟩

/-! ### Dictionary lemmas for the per-component metrics map -/

theorem find_overwrite (t : MetricsMap) (k k' : Nat) (v : Metric) :
    List.find? (fun p => p.1 = k') (t.map (fun p => if p.1 = k then (k, v) else p)) =
      if k' = k then (if t.any (fun p => p.1 = k) then some (k, v) else none)
      else List.find? (fun p => p.1 = k') t := by
  induction t with
  | nil => by_cases h : k' = k <;> simp [h]
  | cons a t ih =>
    by_cases hk : k' = k
    · subst hk
      by_cases hak : a.1 = k'
      · simp [hak, List.find?_cons, -List.find?_map]
      · simp only [List.map_cons, if_neg hak, List.any_cons]
        rw [List.find?_cons_of_neg _ (by simpa using hak), ih]
        simp only [decide_eq_false hak, Bool.false_or, eq_self_iff_true, if_true]
    · by_cases hak : a.1 = k
      · by_cases ha' : a.1 = k'
        · exact absurd (ha'.symm.trans hak) hk
        · simp [hak, ha', Ne.symm hk, hk, List.find?_cons, ih, -List.find?_map]
      · by_cases ha' : a.1 = k'
        · simp [hak, ha', hk, List.find?_cons, -List.find?_map]
        · simp [hak, ha', hk, List.find?_cons, ih, -List.find?_map]

theorem mfind_minsert (m : MetricsMap) (k k' : Nat) (v : Metric) :
    mfind (minsert m k v) k' = if k' = k then some v else mfind m k' := by
  unfold minsert mfind
  split
  · next hany =>
    rw [find_overwrite]
    by_cases h : k' = k <;> simp [h, hany]
  · next hany =>
    rw [List.find?_append]
    have hnone : List.find? (fun p => p.1 = k) m = none := by
      rw [List.find?_eq_none]
      intro x hx hxk
      exact hany (List.any_eq_true.mpr ⟨x, hx, hxk⟩)
    by_cases h : k' = k
    · subst h
      rw [hnone]
      simp [List.find?]
    · have hkk : (k = k') = False := eq_false (fun hh => h hh.symm)
      rw [show List.find? (fun p => decide (p.1 = k')) [(k, v)] = none from by
        simp [List.find?, hkk]]
      simp [h]


theorem mfind_msetdefault (m : MetricsMap) (k k' : Nat) (v : Metric) :
    mfind (msetdefault m k v) k' =
      if k' = k then some ((mfind m k).getD v) else mfind m k' := by
  unfold msetdefault
  split
  · next hany =>
    rcases List.any_eq_true.mp hany with ⟨p, hp, hpk⟩
    by_cases h : k' = k
    · subst h
      have hex : ∃ q, List.find? (fun p => p.1 = k') m = some q :=
        Option.isSome_iff_exists.mp (List.find?_isSome.mpr ⟨p, hp, hpk⟩)
      rcases hex with ⟨q, hq⟩
      unfold mfind
      simp [hq]
    · simp [h]
  · next hany =>
    have hnone : List.find? (fun p => p.1 = k) m = none := by
      rw [List.find?_eq_none]
      intro x hx hxk
      exact hany (List.any_eq_true.mpr ⟨x, hx, hxk⟩)
    by_cases h : k' = k
    · subst h
      unfold mfind
      rw [List.find?_append, hnone]
      simp [List.find?]
    · unfold mfind
      rw [List.find?_append]
      have hkk : (k = k') = False := eq_false (fun hh => h hh.symm)
      rw [show List.find? (fun p => decide (p.1 = k')) [(k, v)] = none from by
        simp [List.find?, hkk]]
      simp [h]

theorem mfind_foldl_minsert_of_not_mem (f : Nat → Metric) (l : List Nat)
    (m : MetricsMap) (j : Nat) (hj : j ∉ l) :
    mfind (l.foldl (fun acc i => minsert acc i (f i)) m) j = mfind m j := by
  induction l generalizing m with
  | nil => rfl
  | cons x t ih =>
    rw [List.foldl_cons, ih _ (fun h => hj (List.mem_cons_of_mem _ h)),
      mfind_minsert, if_neg (fun h : j = x => hj (h ▸ List.mem_cons_self x t))]

theorem mfind_foldl_minsert_of_mem (f : Nat → Metric) (l : List Nat)
    (m : MetricsMap) (j : Nat) (hj : j ∈ l) :
    mfind (l.foldl (fun acc i => minsert acc i (f i)) m) j = some (f j) := by
  induction l generalizing m with
  | nil => cases hj
  | cons x t ih =>
    rw [List.foldl_cons]
    by_cases hjt : j ∈ t
    · exact ih _ hjt
    · have hjx : j = x := by
        rcases List.mem_cons.mp hj with h | h
        · exact h
        · exact absurd h hjt
      subst hjx
      rw [mfind_foldl_minsert_of_not_mem _ _ _ _ hjt, mfind_minsert, if_pos rfl]

theorem mfind_foldl_msetdefault_of_some (v : Metric) (l : List Nat)
    (m : MetricsMap) (j : Nat) (w : Metric) (h : mfind m j = some w) :
    mfind (l.foldl (fun acc i => msetdefault acc i v) m) j = some w := by
  induction l generalizing m with
  | nil => exact h
  | cons x t ih =>
    rw [List.foldl_cons]
    refine ih _ ?_
    rw [mfind_msetdefault]
    by_cases hx : j = x
    · subst hx
      simp [h]
    · simp [hx, h]

theorem mfind_foldl_msetdefault_of_mem (v : Metric) (l : List Nat)
    (m : MetricsMap) (j : Nat) (hj : j ∈ l) :
    mfind (l.foldl (fun acc i => msetdefault acc i v) m) j =
      some ((mfind m j).getD v) := by
  induction l generalizing m with
  | nil => cases hj
  | cons x t ih =>
    rw [List.foldl_cons]
    by_cases hx : j = x
    · subst hx
      refine mfind_foldl_msetdefault_of_some _ _ _ _ _ ?_
      rw [mfind_msetdefault, if_pos rfl]
    · have hjt : j ∈ t := by
        rcases List.mem_cons.mp hj with h | h
        · exact absurd h hx
        · exact h
      rw [ih _ hjt, mfind_msetdefault, if_neg hx]

/-! ### Claims C6 and C7: the metrics formulas -/

/-- C6: for a group classified `Series` or `Single Load` with positive total
source voltage and positive-resistance loads, `compute_circuit_metrics`
returns the series formulas of the specification: `R_eq = Σ R_i`,
`I = V / R_eq`, `P = V × I`, and per load current `I`, voltage `I × R_i`,
power `I² × R_i`, with status `Closed`.  (The source's `R_eq ≤ 0` Alert
branch cannot fire under these hypotheses, since a sum of positive
resistances is positive; with zero-or-negative-resistance loads the earlier
short-circuit branch would answer instead.) -/
theorem series_metrics_formulas (comps : List Component)
    (component_group batteries loads : List Nat) (circuit_type : String)
    (htype : circuit_type = "Series" ∨ circuit_type = "Single Load")
    (hV : 0 < (batteries.map (fun i => get_voltage (cAt comps i))).sum)
    (hne : loads ≠ [])
    (hpos : ∀ i ∈ loads, 0 < get_resistance (cAt comps i))
    (hdisj : ∀ i ∈ loads, i ∉ batteries) :
    let V := (batteries.map (fun i => get_voltage (cAt comps i))).sum
    let Req := (loads.map (fun i => get_resistance (cAt comps i))).sum
    let r := compute_circuit_metrics comps component_group batteries loads circuit_type
    r.1.total_voltage = V ∧
    r.1.total_resistance = Req ∧
    r.1.total_current = V / Req ∧
    r.1.total_power = V * (V / Req) ∧
    r.1.status_override = "Closed" ∧
    r.2.2 = [] ∧
    ∀ i ∈ loads, mfind r.2.1 i =
      some ⟨V / Req, V / Req * get_resistance (cAt comps i),
        (V / Req) ^ 2 * get_resistance (cAt comps i)⟩ := by
  intro V Req r
  have h0 : qsum (batteries.map (fun i => get_voltage (cAt comps i))) = V := qsum_eq _
  have hc1 : ¬ (qsum (batteries.map (fun i => get_voltage (cAt comps i))) ≤ 0) := by
    rw [h0]; exact not_le.mpr hV
  have hc2 : loads.isEmpty = false := List.isEmpty_eq_false.mpr hne
  have hfp : loads.filter (fun i => decide (0 < get_resistance (cAt comps i))) = loads :=
    List.filter_eq_self.mpr (fun i hi => by simpa using hpos i hi)
  have hfz : loads.filter (fun i => decide (get_resistance (cAt comps i) ≤ 0)) = [] :=
    List.filter_eq_nil_iff.mpr (fun i hi => by simpa using not_le.mpr (hpos i hi))
  have hReq : qsum (loads.map (fun i => get_resistance (cAt comps i))) = Req := qsum_eq _
  have hReqpos : 0 < Req := by
    refine List.sum_pos _ (fun x hx => ?_) (by simpa using hne)
    rcases List.mem_map.mp hx with ⟨i, hi, rfl⟩
    exact hpos i hi
  have hc3 : ¬ (circuit_type = "Parallel" ∧ 2 ≤ loads.length) := by
    rintro ⟨h, -⟩
    rcases htype with ht | ht <;> rw [ht] at h <;> exact absurd h (by decide)
  have hmix : (circuit_type ≠ "Series" ∧ circuit_type ≠ "Single Load") = False := by
    rcases htype with ht | ht <;> simp [ht]
  have hc5 : ¬ (qsum (loads.map (fun i => get_resistance (cAt comps i))) ≤ 0) := by
    rw [hReq]; exact not_le.mpr hReqpos
  have hr : r = compute_circuit_metrics comps component_group batteries loads circuit_type := rfl
  rw [hr]
  simp only [compute_circuit_metrics, hfp, hfz]
  rw [if_neg hc1, if_neg (by simp [hc2] : ¬ (loads.isEmpty = true)),
    if_neg (by simp : ¬ (¬ (List.isEmpty ([] : List Nat) = true))),
    if_neg hc3]
  rw [if_neg hc5]
  simp only [hmix, if_false]
  refine ⟨?_, ?_, ?_, ?_, by trivial, by trivial, ?_⟩
  · exact h0
  · exact hReq
  · rw [qdiv_eq, h0, hReq]
  · rw [qmul_eq, qdiv_eq, h0, hReq]
  · intro i hi
    apply mfind_foldl_msetdefault_of_some
    rw [mfind_foldl_minsert_of_not_mem _ _ _ _ (hdisj i hi),
      mfind_foldl_minsert_of_mem _ _ _ _ hi]
    simp only [qdiv_eq, qmul_eq, qsum_eq, pow_two]

/-- The specification's series example: 9 V battery, 100 Ω and 200 Ω
resistors. -/
def c6comps : List Component :=
  [⟨0, "battery", 0, 9, true, "Battery 1", "B1"⟩,
   ⟨1, "resistor", 100, 0, true, "Resistor 1", "R1"⟩,
   ⟨2, "resistor", 200, 0, true, "Resistor 2", "R2"⟩]

/-- Witness for C6: at the 9 V / 100 Ω / 200 Ω series example the hypotheses
hold and the formulas give `R_eq = 300`, `I = 0.03`, load voltages 3 and 6. -/
theorem series_metrics_formulas_witness :
    ((0:ℚ) < (([0] : List Nat).map (fun i => get_voltage (cAt c6comps i))).sum) ∧
    (∀ i ∈ ([1, 2] : List Nat), 0 < get_resistance (cAt c6comps i)) ∧
    (compute_circuit_metrics c6comps [0, 1, 2] [0] [1, 2] "Series").1.total_resistance =
      (([1, 2] : List Nat).map (fun i => get_resistance (cAt c6comps i))).sum ∧
    (compute_circuit_metrics c6comps [0, 1, 2] [0] [1, 2] "Series").1.total_resistance = 300 ∧
    (compute_circuit_metrics c6comps [0, 1, 2] [0] [1, 2] "Series").1.total_current = 3 / 100 ∧
    mfind (compute_circuit_metrics c6comps [0, 1, 2] [0] [1, 2] "Series").2.1 1 =
      some ⟨3 / 100, 3, 9 / 100⟩ ∧
    mfind (compute_circuit_metrics c6comps [0, 1, 2] [0] [1, 2] "Series").2.1 2 =
      some ⟨3 / 100, 6, 9 / 50⟩ := by
  have hv : (0:ℚ) < (([0] : List Nat).map (fun i => get_voltage (cAt c6comps i))).sum := by
    rw [← qsum_eq]; decide
  have hp : ∀ i ∈ ([1, 2] : List Nat), 0 < get_resistance (cAt c6comps i) := by decide
  have h := series_metrics_formulas c6comps [0, 1, 2] [0] [1, 2] "Series"
    (Or.inl rfl) hv (by decide) hp (by decide)
  refine ⟨hv, hp, h.2.1, ?_, ?_, ?_, ?_⟩
  · have e : (compute_circuit_metrics c6comps [0, 1, 2] [0] [1, 2] "Series").1.total_resistance =
        qmk 300 1 := by decide
    rw [e, qmk_val]; norm_num
  · have e : (compute_circuit_metrics c6comps [0, 1, 2] [0] [1, 2] "Series").1.total_current =
        qmk 3 100 := by decide
    rw [e, qmk_val]; norm_num
  · have e : mfind (compute_circuit_metrics c6comps [0, 1, 2] [0] [1, 2] "Series").2.1 1 =
        some ⟨qmk 3 100, qmk 3 1, qmk 9 100⟩ := by decide
    rw [e]
    norm_num [qmk_val]
  · have e : mfind (compute_circuit_metrics c6comps [0, 1, 2] [0] [1, 2] "Series").2.1 2 =
        some ⟨qmk 3 100, qmk 6 1, qmk 9 50⟩ := by decide
    rw [e]
    norm_num [qmk_val]

/-- C7: for a group classified `Parallel` with positive total source voltage
and at least two positive-resistance loads, `compute_circuit_metrics`
returns the parallel formulas of the specification: `R_eq = 1/(Σ 1/R_i)`,
`I = Σ V/R_i`, `P = Σ V²/R_i`, and per load current `V/R_i`, the full source
voltage `V` across every branch, and power `V²/R_i`, with status `Closed`. -/
theorem parallel_metrics_formulas (comps : List Component)
    (component_group batteries loads : List Nat) (circuit_type : String)
    (htype : circuit_type = "Parallel")
    (hV : 0 < (batteries.map (fun i => get_voltage (cAt comps i))).sum)
    (h2 : 2 ≤ loads.length)
    (hpos : ∀ i ∈ loads, 0 < get_resistance (cAt comps i))
    (hdisj : ∀ i ∈ loads, i ∉ batteries) :
    let V := (batteries.map (fun i => get_voltage (cAt comps i))).sum
    let Inv := (loads.map (fun i => 1 / get_resistance (cAt comps i))).sum
    let r := compute_circuit_metrics comps component_group batteries loads circuit_type
    r.1.total_voltage = V ∧
    r.1.total_resistance = 1 / Inv ∧
    r.1.total_current = (loads.map (fun i => V / get_resistance (cAt comps i))).sum ∧
    r.1.total_power = (loads.map (fun i => V ^ 2 / get_resistance (cAt comps i))).sum ∧
    r.1.status_override = "Closed" ∧
    r.2.2 = [] ∧
    ∀ i ∈ loads, mfind r.2.1 i =
      some ⟨V / get_resistance (cAt comps i), V,
        V ^ 2 / get_resistance (cAt comps i)⟩ := by
  intro V Inv r
  have h0 : qsum (batteries.map (fun i => get_voltage (cAt comps i))) = V := qsum_eq _
  have hc1 : ¬ (qsum (batteries.map (fun i => get_voltage (cAt comps i))) ≤ 0) := by
    rw [h0]; exact not_le.mpr hV
  have hne : loads ≠ [] := by
    intro h; rw [h] at h2; exact absurd h2 (by decide)
  have hc2 : loads.isEmpty = false := List.isEmpty_eq_false.mpr hne
  have hfp : loads.filter (fun i => decide (0 < get_resistance (cAt comps i))) = loads :=
    List.filter_eq_self.mpr (fun i hi => by simpa using hpos i hi)
  have hfz : loads.filter (fun i => decide (get_resistance (cAt comps i) ≤ 0)) = [] :=
    List.filter_eq_nil_iff.mpr (fun i hi => by simpa using not_le.mpr (hpos i hi))
  have hInv : qsum (loads.map (fun i => qdiv 1 (get_resistance (cAt comps i)))) = Inv := by
    rw [qsum_eq]
    congr 1
    exact List.map_congr_left (fun i _ => qdiv_eq 1 _)
  have hInvpos : 0 < Inv := by
    refine List.sum_pos _ (fun x hx => ?_) (by simpa using hne)
    rcases List.mem_map.mp hx with ⟨i, hi, rfl⟩
    exact one_div_pos.mpr (hpos i hi)
  have hc5 : ¬ (qsum (loads.map (fun i => qdiv 1 (get_resistance (cAt comps i)))) ≤ 0) := by
    rw [hInv]; exact not_le.mpr hInvpos
  have hr : r = compute_circuit_metrics comps component_group batteries loads circuit_type := rfl
  rw [hr]
  simp only [compute_circuit_metrics, hfp, hfz]
  rw [if_neg hc1, if_neg (by simp [hc2] : ¬ (loads.isEmpty = true)),
    if_neg (by simp : ¬ (¬ (List.isEmpty ([] : List Nat) = true))),
    if_pos ⟨htype, h2⟩, if_neg hc5]
  dsimp only
  refine ⟨?_, ?_, ?_, ?_, by trivial, by trivial, ?_⟩
  · exact h0
  · rw [qdiv_eq, hInv]
  · rw [qsum_eq]
    refine congrArg List.sum (List.map_congr_left (fun i _ => ?_))
    rw [qdiv_eq, h0]
  · rw [qsum_eq]
    refine congrArg List.sum (List.map_congr_left (fun i _ => ?_))
    rw [qdiv_eq, qmul_eq, h0, pow_two]
  · intro i hi
    apply mfind_foldl_msetdefault_of_some
    rw [mfind_foldl_minsert_of_not_mem _ _ _ _ (hdisj i hi),
      mfind_foldl_minsert_of_mem _ _ _ _ hi]
    simp only [qdiv_eq, qmul_eq, qsum_eq, pow_two]

/-- The specification's parallel example: 9 V battery, two 100 Ω resistors. -/
def c7comps : List Component :=
  [⟨0, "battery", 0, 9, true, "Battery 1", "B1"⟩,
   ⟨1, "resistor", 100, 0, true, "Resistor 1", "R1"⟩,
   ⟨2, "resistor", 100, 0, true, "Resistor 2", "R2"⟩]

/-- Witness for C7: at the 9 V with two parallel 100 Ω resistors example,
the hypotheses hold and the formulas give `R_eq = 50`, `I = 0.18`, branch
current 0.09 and branch voltage 9. -/
theorem parallel_metrics_formulas_witness :
    ((0:ℚ) < (([0] : List Nat).map (fun i => get_voltage (cAt c7comps i))).sum) ∧
    (∀ i ∈ ([1, 2] : List Nat), 0 < get_resistance (cAt c7comps i)) ∧
    (compute_circuit_metrics c7comps [0, 1, 2] [0] [1, 2] "Parallel").1.total_resistance =
      1 / (([1, 2] : List Nat).map (fun i => 1 / get_resistance (cAt c7comps i))).sum ∧
    (compute_circuit_metrics c7comps [0, 1, 2] [0] [1, 2] "Parallel").1.total_resistance = 50 ∧
    (compute_circuit_metrics c7comps [0, 1, 2] [0] [1, 2] "Parallel").1.total_current = 9 / 50 ∧
    mfind (compute_circuit_metrics c7comps [0, 1, 2] [0] [1, 2] "Parallel").2.1 1 =
      some ⟨9 / 100, 9, 81 / 100⟩ ∧
    mfind (compute_circuit_metrics c7comps [0, 1, 2] [0] [1, 2] "Parallel").2.1 2 =
      some ⟨9 / 100, 9, 81 / 100⟩ := by
  have hv : (0:ℚ) < (([0] : List Nat).map (fun i => get_voltage (cAt c7comps i))).sum := by
    rw [← qsum_eq]; decide
  have hp : ∀ i ∈ ([1, 2] : List Nat), 0 < get_resistance (cAt c7comps i) := by decide
  have h := parallel_metrics_formulas c7comps [0, 1, 2] [0] [1, 2] "Parallel"
    rfl hv (by decide) hp (by decide)
  refine ⟨hv, hp, h.2.1, ?_, ?_, ?_, ?_⟩
  · have e : (compute_circuit_metrics c7comps [0, 1, 2] [0] [1, 2] "Parallel").1.total_resistance =
        qmk 50 1 := by decide
    rw [e, qmk_val]; norm_num
  · have e : (compute_circuit_metrics c7comps [0, 1, 2] [0] [1, 2] "Parallel").1.total_current =
        qmk 9 50 := by decide
    rw [e, qmk_val]; norm_num
  · have e : mfind (compute_circuit_metrics c7comps [0, 1, 2] [0] [1, 2] "Parallel").2.1 1 =
        some ⟨qmk 9 100, qmk 9 1, qmk 81 100⟩ := by decide
    rw [e]
    norm_num [qmk_val]
  · have e : mfind (compute_circuit_metrics c7comps [0, 1, 2] [0] [1, 2] "Parallel").2.1 2 =
        some ⟨qmk 9 100, qmk 9 1, qmk 81 100⟩ := by decide
    rw [e]
    norm_num [qmk_val]

/-! ### Claim C8: the topology classifier -/

/-- Spec predicate (C8): some component of the group has adjacency degree
greater than 2 (a branching point). -/
def HasBranchPoint (component_group : List Nat) (adjacency : Nat → List Nat) : Prop :=
  ∃ c ∈ component_group, 2 < (adjacency c).length

/-- Spec predicate (C8): the node-sharing refinement — the same pair of
electrical nodes (the two least node identifiers of a load) is produced by
two or more load positions. -/
def SharedNodePair (component_nodes : List (Nat × List String))
    (loads : List Nat) : Prop :=
  ∃ pr : String × String,
    2 ≤ (loads.filterMap (fun ld =>
      match sortedNodeList (cnGet component_nodes ld) with
      | n0 :: n1 :: _ => some (n0, n1)
      | _ => none)).count pr

/-- An empty `component_nodes` dictionary yields no node pair at all, so the
source's truthiness guard on `component_nodes` does not change the pair
list. -/
theorem node_pairs_guard (component_nodes : List (Nat × List String))
    (loads : List Nat) :
    (if component_nodes.isEmpty then ([] : List (String × String))
     else loads.filterMap (fun ld =>
       match sortedNodeList (cnGet component_nodes ld) with
       | n0 :: n1 :: _ => some (n0, n1)
       | _ => none)) =
    loads.filterMap (fun ld =>
      match sortedNodeList (cnGet component_nodes ld) with
      | n0 :: n1 :: _ => some (n0, n1)
      | _ => none) := by
  split
  · next hemp =>
    have hnil : component_nodes = [] := List.isEmpty_iff.mp hemp
    subst hnil
    symm
    refine List.filterMap_eq_nil_iff.mpr (fun ld _ => rfl)
  · rfl

theorem any_count_iff_shared (component_nodes : List (Nat × List String))
    (loads : List Nat) :
    ((loads.filterMap (fun ld =>
        match sortedNodeList (cnGet component_nodes ld) with
        | n0 :: n1 :: _ => some (n0, n1)
        | _ => none)).any (fun p => 2 ≤ (loads.filterMap (fun ld =>
          match sortedNodeList (cnGet component_nodes ld) with
          | n0 :: n1 :: _ => some (n0, n1)
          | _ => none)).count p) = true) ↔
      SharedNodePair component_nodes loads := by
  rw [List.any_eq_true]
  constructor
  · rintro ⟨pr, -, hpr⟩
    exact ⟨pr, by simpa using hpr⟩
  · rintro ⟨pr, hpr⟩
    refine ⟨pr, ?_, by simpa using hpr⟩
    exact List.count_pos_iff.mp (lt_of_lt_of_le (by norm_num) hpr)

/-- C8 (amended): `classify_circuit` answers `Single Load` exactly when
there is at most one load; with two or more loads it answers `Parallel` or
`Series`, any branching point forces `Parallel`, and `Series` is returned
exactly when the group has no branching point and the node-sharing
refinement finds no shared node pair. -/
theorem classify_circuit_characterization (component_group : List Nat)
    (adjacency : Nat → List Nat) (loads : List Nat)
    (component_nodes : List (Nat × List String)) :
    (classify_circuit component_group adjacency loads component_nodes = "Single Load" ↔
      loads.length ≤ 1) ∧
    (2 ≤ loads.length →
      (HasBranchPoint component_group adjacency →
        classify_circuit component_group adjacency loads component_nodes = "Parallel") ∧
      (classify_circuit component_group adjacency loads component_nodes = "Parallel" ∨
        classify_circuit component_group adjacency loads component_nodes = "Series") ∧
      (classify_circuit component_group adjacency loads component_nodes = "Series" ↔
        ¬ HasBranchPoint component_group adjacency ∧
        ¬ SharedNodePair component_nodes loads)) := by
  by_cases hlen : loads.length ≤ 1
  · constructor
    · rw [classify_circuit, if_pos hlen]
      simpa using hlen
    · intro h2
      exact absurd hlen (by omega)
  · have h2 : 2 ≤ loads.length := by omega
    have hbranch : (¬ (component_group.filter
        (fun c => decide (2 < (adjacency c).length))).isEmpty = true) ↔
        HasBranchPoint component_group adjacency := by
      rw [Bool.not_eq_true, List.isEmpty_eq_false]
      constructor
      · intro hne
        rcases List.exists_mem_of_ne_nil _ hne with ⟨c, hc⟩
        rcases List.mem_filter.mp hc with ⟨hcg, hcd⟩
        exact ⟨c, hcg, by simpa using hcd⟩
      · rintro ⟨c, hcg, hcd⟩
        intro hnil
        have : c ∈ component_group.filter (fun c => decide (2 < (adjacency c).length)) :=
          List.mem_filter.mpr ⟨hcg, by simpa using hcd⟩
        rw [hnil] at this
        cases this
    rw [classify_circuit, if_neg hlen]
    rw [show (if component_nodes.isEmpty then ([] : List (String × String))
        else loads.filterMap (fun ld =>
          match sortedNodeList (cnGet component_nodes ld) with
          | n0 :: n1 :: _ => some (n0, n1)
          | _ => none)) =
        loads.filterMap (fun ld =>
          match sortedNodeList (cnGet component_nodes ld) with
          | n0 :: n1 :: _ => some (n0, n1)
          | _ => none) from node_pairs_guard _ _]
    by_cases hshared : (loads.filterMap (fun ld =>
        match sortedNodeList (cnGet component_nodes ld) with
        | n0 :: n1 :: _ => some (n0, n1)
        | _ => none)).any (fun p => 2 ≤ (loads.filterMap (fun ld =>
          match sortedNodeList (cnGet component_nodes ld) with
          | n0 :: n1 :: _ => some (n0, n1)
          | _ => none)).count p) = true
    · rw [if_pos hshared]
      have hsp : SharedNodePair component_nodes loads :=
        (any_count_iff_shared _ _).mp hshared
      refine ⟨?_, fun _ => ⟨fun _ => rfl, Or.inl rfl, ?_⟩⟩
      · constructor
        · intro h; exact absurd h (by decide)
        · intro hl; exact absurd hl hlen
      · constructor
        · intro h; exact absurd h (by decide)
        · rintro ⟨-, hns⟩
          exact absurd hsp hns
    · rw [if_neg hshared]
      have hnsp : ¬ SharedNodePair component_nodes loads :=
        fun h => hshared ((any_count_iff_shared _ _).mpr h)
      by_cases hbp : HasBranchPoint component_group adjacency
      · rw [if_pos (hbranch.mpr hbp)]
        refine ⟨?_, fun _ => ⟨fun _ => rfl, Or.inl rfl, ?_⟩⟩
        · constructor
          · intro h; exact absurd h (by decide)
          · intro hl; exact absurd hl hlen
        · constructor
          · intro h; exact absurd h (by decide)
          · rintro ⟨hnb, -⟩
            exact absurd hbp hnb
      · rw [if_neg (fun hc => hbp (hbranch.mp hc))]
        refine ⟨?_, fun _ => ⟨fun hb => absurd hb hbp, Or.inr rfl, ?_⟩⟩
        · constructor
          · intro h; exact absurd h (by decide)
          · intro hl; exact absurd hl hlen
        · simp [hbp, hnsp]

/-- Witness for C8 at a concrete two-load group with a degree-3 branching
point. -/
theorem classify_circuit_characterization_witness :
    (2 ≤ ([1, 2] : List Nat).length) ∧
    HasBranchPoint [0, 1, 2] (fun _ => [0, 1, 2]) ∧
    classify_circuit [0, 1, 2] (fun _ => [0, 1, 2]) [1, 2] [] = "Parallel" := by
  have hbp : HasBranchPoint [0, 1, 2] (fun _ => [0, 1, 2]) := ⟨0, by decide, by decide⟩
  exact ⟨by decide,  hbp,
    ((classify_circuit_characterization [0, 1, 2] (fun _ => [0, 1, 2]) [1, 2] []).2
      (by decide)).1 hbp⟩

/-! ### Facts about the group scan and the metrics solver -/

/-- A passive load always has positive resistance and is never a battery. -/
theorem is_passive_load_pos {c : Component} (h : is_passive_load c = true) :
    0 < get_resistance c ∧ c.type ≠ "battery" := by
  unfold is_passive_load at h
  split at h
  · next hmem =>
    refine ⟨by simpa using h, fun hb => ?_⟩
    rw [hb] at hmem
    exact absurd hmem (by decide)
  · split at h
    · cases h
    · next hnb => exact ⟨by simpa using h, hnb⟩

/-- A component with nonpositive resistance is never a passive load. -/
theorem is_passive_load_zero {c : Component} (h : get_resistance c ≤ 0) :
    is_passive_load c = false := by
  unfold is_passive_load
  split
  · exact decide_eq_false (not_lt.mpr h)
  · split
    · rfl
    · exact decide_eq_false (not_lt.mpr h)

/-- Everything the group scan guarantees about a returned group: the
batteries and loads are the battery-kind and passive-load members, the
group has at least two members, at least one battery and one load, no open
switch, and every member meets its terminal requirement. -/
theorem scanGroups_success (comps : List Component) (adjacency : Nat → List Nat)
    (ec : Nat → Nat) :
    ∀ (scan visited g bs ls : List Nat),
    scanGroups comps adjacency ec scan visited = some (g, bs, ls) →
    bs = g.filter (fun j => (cAt comps j).type = "battery") ∧
    ls = g.filter (fun j => is_passive_load (cAt comps j)) ∧
    2 ≤ g.length ∧ bs ≠ [] ∧ ls ≠ [] ∧
    (∀ j ∈ g, is_switch (cAt comps j) = true → is_switch_closed (cAt comps j) = true) ∧
    (∀ j ∈ g, expected_connections (cAt comps j) ≤ ec j)
  | [], visited, g, bs, ls, h => by cases h
  | i :: rest, visited, g, bs, ls, h => by
    rw [scanGroups] at h
    split at h
    · exact scanGroups_success comps adjacency ec rest _ g bs ls h
    · dsimp only at h
      split at h
      · exact scanGroups_success comps adjacency ec rest _ g bs ls h
      · split at h
        · exact scanGroups_success comps adjacency ec rest _ g bs ls h
        · split at h
          · exact scanGroups_success comps adjacency ec rest _ g bs ls h
          · split at h
            · exact scanGroups_success comps adjacency ec rest _ g bs ls h
            · next hlen hsw hempty hterm =>
              rw [Option.some.injEq, Prod.mk.injEq, Prod.mk.injEq] at h
              obtain ⟨rfl, rfl, rfl⟩ := h
              rw [not_or] at hempty
              refine ⟨rfl, rfl, by omega, ?_, ?_, ?_, ?_⟩
              · simpa [List.isEmpty_iff] using hempty.1
              · simpa [List.isEmpty_iff] using hempty.2
              · intro j hj hswj
                by_contra hop
                refine hsw (List.any_eq_true.mpr ⟨j, hj, ?_⟩)
                simp [hswj, Bool.eq_false_iff.mpr hop]
              · intro j hj
                have hall := not_not.mp hterm
                simpa using List.all_eq_true.mp hall j hj

/-- If the metrics solver reports `Closed`, the total source voltage is
positive. -/
theorem compute_total_voltage_pos (comps : List Component) (g bs ls : List Nat)
    (t : String)
    (h : (compute_circuit_metrics comps g bs ls t).1.status_override = "Closed") :
    0 < (bs.map (fun i => get_voltage (cAt comps i))).sum := by
  by_cases hc : qsum (bs.map (fun i => get_voltage (cAt comps i))) ≤ 0
  · exfalso
    simp only [compute_circuit_metrics] at h
    rw [if_pos hc] at h
    exact absurd h (by simp)
  · rw [← qsum_eq]
    exact lt_of_not_le hc

/-- With every load of positive resistance the short-circuit branch of the
metrics solver cannot fire. -/
theorem compute_detail_not_short (comps : List Component) (g bs ls : List Nat)
    (t : String) (hpos : ∀ i ∈ ls, 0 < get_resistance (cAt comps i)) :
    (compute_circuit_metrics comps g bs ls t).1.status_detail_override ≠
      "⚠️ Short circuit detected" := by
  have hfz : ls.filter (fun i => decide (get_resistance (cAt comps i) ≤ 0)) = [] :=
    List.filter_eq_nil_iff.mpr (fun i hi => by simpa using not_le.mpr (hpos i hi))
  simp only [compute_circuit_metrics, hfz]
  split_ifs <;> simp_all

/-- A group member that is neither among the batteries nor among the loads
receives the default metrics `{current = total current, voltage 0, power 0}`
whenever the solver reports `Closed`. -/
theorem compute_metrics_default (comps : List Component) (g bs ls : List Nat)
    (t : String) (i : Nat) (hig : i ∈ g) (hnb : i ∉ bs) (hnl : i ∉ ls)
    (hclosed : (compute_circuit_metrics comps g bs ls t).1.status_override = "Closed") :
    mfind (compute_circuit_metrics comps g bs ls t).2.1 i =
      some ⟨(compute_circuit_metrics comps g bs ls t).1.total_current, 0, 0⟩ := by
  have hnp : i ∉ ls.filter (fun j => decide (0 < get_resistance (cAt comps j))) :=
    fun hmem => hnl (List.mem_of_mem_filter hmem)
  simp only [compute_circuit_metrics] at hclosed ⊢
  by_cases c1 : qsum (bs.map (fun i => get_voltage (cAt comps i))) ≤ 0
  · rw [if_pos c1] at hclosed
    exact absurd hclosed (by simp)
  · rw [if_neg c1] at hclosed ⊢
    by_cases c2 : ls.isEmpty = true
    · rw [if_pos c2] at hclosed
      exact absurd hclosed (by simp)
    · rw [if_neg c2] at hclosed ⊢
      by_cases c3 : ¬ (ls.filter (fun i => decide (get_resistance (cAt comps i) ≤ 0))).isEmpty = true
      · rw [if_pos c3] at hclosed
        exact absurd hclosed (by simp)
      · rw [if_neg c3] at hclosed ⊢
        by_cases c4 : t = "Parallel" ∧
            2 ≤ (ls.filter (fun i => decide (0 < get_resistance (cAt comps i)))).length
        · rw [if_pos c4] at hclosed ⊢
          by_cases c5 : qsum ((ls.filter (fun i => decide (0 < get_resistance (cAt comps i)))).filter
              (fun i => decide (0 < get_resistance (cAt comps i))) |>.map
              (fun i => qdiv 1 (get_resistance (cAt comps i)))) ≤ 0
          · rw [if_pos c5] at hclosed
            exact absurd hclosed (by simp)
          · rw [if_neg c5] at hclosed ⊢
            dsimp only
            rw [mfind_foldl_msetdefault_of_mem _ _ _ _ hig,
              mfind_foldl_minsert_of_not_mem _ _ _ _ hnb,
              mfind_foldl_minsert_of_not_mem _ _ _ _ hnp]
            rfl
        · rw [if_neg c4] at hclosed ⊢
          by_cases c5 : qsum ((ls.filter (fun i => decide (0 < get_resistance (cAt comps i)))).map
              (fun i => get_resistance (cAt comps i))) ≤ 0
          · rw [if_pos c5] at hclosed
            exact absurd hclosed (by simp)
          · rw [if_neg c5] at hclosed ⊢
            dsimp only
            rw [mfind_foldl_msetdefault_of_mem _ _ _ _ hig,
              mfind_foldl_minsert_of_not_mem _ _ _ _ hnb,
              mfind_foldl_minsert_of_not_mem _ _ _ _ hnp]
            rfl

/-- The metrics solver always reports the battery voltage sum as
`total_voltage`. -/
theorem compute_total_voltage_eq (comps : List Component) (g bs ls : List Nat)
    (t : String) :
    (compute_circuit_metrics comps g bs ls t).1.total_voltage =
      (bs.map (fun i => get_voltage (cAt comps i))).sum := by
  rw [← qsum_eq]
  simp only [compute_circuit_metrics]
  split_ifs <;> rfl

/-! ### Claim C5: the `Closed` status invariant -/

/-- C5: if `analyze_circuit` reports status `Closed` then the total voltage
is strictly positive and the selected component subset contains at least one
battery and at least one positive-resistance non-battery load, every member
meets its terminal-count requirement, and no switch in the subset is open. -/
theorem closed_status_invariant (comps : List Component) (wires : List Wire)
    (h : (analyze_circuit comps wires).analysis.status = "Closed") :
    0 < (analyze_circuit comps wires).analysis.total_voltage ∧
    ∃ g, (analyze_circuit comps wires).active_group = some g ∧
      (∃ i ∈ g, (cAt comps i).type = "battery") ∧
      (∃ i ∈ g, 0 < get_resistance (cAt comps i) ∧ (cAt comps i).type ≠ "battery") ∧
      (∀ i ∈ g, expected_connections (cAt comps i) ≤ endpoint_count wires i) ∧
      (∀ i ∈ g, is_switch (cAt comps i) = true → is_switch_closed (cAt comps i) = true) := by
  rcases hscan : scanGroups comps (adjacencyOf comps wires) (endpoint_count wires)
      (List.range comps.length) [] with _ | ⟨⟨g, bs, ls⟩⟩
  · exfalso
    simp only [analyze_circuit, hscan] at h
    exact absurd h (by simp)
  · obtain ⟨hbs, hls, hlen2, hbsne, hlsne, hsw, hterm⟩ :=
      scanGroups_success comps _ _ _ _ _ _ _ hscan
    have hstat : (compute_circuit_metrics comps g bs ls
        (classify_circuit g (adjacencyOf comps wires) ls
          (component_nodes comps wires))).1.status_override = "Closed" := by
      simp only [analyze_circuit, hscan] at h
      split at h
      · exact h
      · exact h
    refine ⟨?_, g, ?_, ?_, ?_, ?_, ?_⟩
    · have hv := compute_total_voltage_pos comps g bs ls _ hstat
      have he : (analyze_circuit comps wires).analysis.total_voltage =
          (compute_circuit_metrics comps g bs ls
            (classify_circuit g (adjacencyOf comps wires) ls
              (component_nodes comps wires))).1.total_voltage := by
        simp only [analyze_circuit, hscan]
        split <;> rfl
      rw [he, compute_total_voltage_eq]
      exact hv
    · simp only [analyze_circuit, hscan]
    · rcases List.exists_mem_of_ne_nil bs hbsne with ⟨i, hi⟩
      rw [hbs] at hi
      rcases List.mem_filter.mp hi with ⟨hig, hib⟩
      exact ⟨i, hig, by simpa using hib⟩
    · rcases List.exists_mem_of_ne_nil ls hlsne with ⟨i, hi⟩
      rw [hls] at hi
      rcases List.mem_filter.mp hi with ⟨hig, hil⟩
      exact ⟨i, hig, is_passive_load_pos hil⟩
    · exact hterm
    · exact hsw

/-- A closed loop for the C5 witness: 9 V battery and 100 Ω resistor. -/
def c5comps : List Component :=
  [⟨0, "battery", 0, 9, true, "Battery 1", "B1"⟩,
   ⟨1, "resistor", 100, 0, true, "Resistor 1", "R1"⟩]

/-- Wires closing the C5 witness loop. -/
def c5wires : List Wire :=
  [⟨[some (0, "right"), some (1, "left")], [[], []]⟩,
   ⟨[some (1, "right"), some (0, "left")], [[], []]⟩]

/-- Witness for C5 at a concrete closed loop. -/
theorem closed_status_invariant_witness :
    0 < (analyze_circuit c5comps c5wires).analysis.total_voltage ∧
    ∃ g, (analyze_circuit c5comps c5wires).active_group = some g ∧
      (∃ i ∈ g, (cAt c5comps i).type = "battery") ∧
      (∃ i ∈ g, 0 < get_resistance (cAt c5comps i) ∧ (cAt c5comps i).type ≠ "battery") ∧
      (∀ i ∈ g, expected_connections (cAt c5comps i) ≤ endpoint_count c5wires i) ∧
      (∀ i ∈ g, is_switch (cAt c5comps i) = true → is_switch_closed (cAt c5comps i) = true) :=
  closed_status_invariant c5comps c5wires (by decide)


/-- C2 (amended): a zero-resistance resistor is never treated as a load, so
`analyze_circuit` never raises the short-circuit Alert; in a loop the
analysis reports `Closed` on, the zero-resistance resistor instead receives
the default metrics: current equal to the loop's total current, voltage 0
and power 0.  (The short-circuit branch of `compute_circuit_metrics` is
reachable only by calling it directly with a zero-resistance load list
entry, which `analyze_circuit` never produces.) -/
theorem zero_resistance_member_default_metrics (comps : List Component)
    (wires : List Wire) :
    (analyze_circuit comps wires).analysis.status_detail ≠ "⚠️ Short circuit detected" ∧
    ∀ g, (analyze_circuit comps wires).active_group = some g →
      (analyze_circuit comps wires).analysis.status = "Closed" →
      ∀ i ∈ g, (cAt comps i).type = "resistor" → get_resistance (cAt comps i) = 0 →
        mfind (analyze_circuit comps wires).component_metrics i =
          some ⟨(analyze_circuit comps wires).analysis.total_current, 0, 0⟩ := by
  rcases hscan : scanGroups comps (adjacencyOf comps wires) (endpoint_count wires)
      (List.range comps.length) [] with _ | ⟨⟨g₀, bs, ls⟩⟩
  · constructor
    · simp only [analyze_circuit, hscan]
      simp
    · intro g hg
      simp only [analyze_circuit, hscan] at hg
      cases hg
  · obtain ⟨hbs, hls, hlen2, hbsne, hlsne, hsw, hterm⟩ :=
      scanGroups_success comps _ _ _ _ _ _ _ hscan
    have hpos : ∀ i ∈ ls, 0 < get_resistance (cAt comps i) := by
      intro i hi
      rw [hls] at hi
      exact (is_passive_load_pos (List.mem_filter.mp hi).2).1
    constructor
    · simp only [analyze_circuit, hscan]
      split
      · intro hcontra
        have hd := congrArg List.head? (congrArg String.data hcontra)
        rw [show (("✓ " ++ (classify_circuit g₀ (adjacencyOf comps wires) ls
            (component_nodes comps wires)) ++ " circuit powered") :
            String).data.head? = some '✓' from rfl] at hd
        exact absurd hd (by decide)
      · exact compute_detail_not_short comps g₀ bs ls _ hpos
    · intro g hg hclosed i hig htype hres
      have hgg : g = g₀ := by
        simp only [analyze_circuit, hscan] at hg
        exact (Option.some.injEq _ _ ▸ hg).symm
      subst hgg
      have hstat : (compute_circuit_metrics comps g bs ls
          (classify_circuit g (adjacencyOf comps wires) ls
            (component_nodes comps wires))).1.status_override = "Closed" := by
        simp only [analyze_circuit, hscan] at hclosed
        split at hclosed
        · exact hclosed
        · exact hclosed
      have hnb : i ∉ bs := by
        rw [hbs]
        intro hmem
        have := (List.mem_filter.mp hmem).2
        rw [htype] at this
        exact absurd this (by decide)
      have hnl : i ∉ ls := by
        rw [hls]
        intro hmem
        have := (List.mem_filter.mp hmem).2
        rw [is_passive_load_zero (le_of_eq hres)] at this
        cases this
      have hdef := compute_metrics_default comps g bs ls
        (classify_circuit g (adjacencyOf comps wires) ls (component_nodes comps wires))
        i hig hnb hnl hstat
      have hm : (analyze_circuit comps wires).component_metrics =
          (compute_circuit_metrics comps g bs ls
            (classify_circuit g (adjacencyOf comps wires) ls
              (component_nodes comps wires))).2.1 := by
        simp only [analyze_circuit, hscan]
      have hcur : (analyze_circuit comps wires).analysis.total_current =
          (compute_circuit_metrics comps g bs ls
            (classify_circuit g (adjacencyOf comps wires) ls
              (component_nodes comps wires))).1.total_current := by
        simp only [analyze_circuit, hscan]
        split <;> rfl
      rw [hm, hcur]
      exact hdef

/-- Witness for the amended C2 at the concrete zero-resistance loop. -/
theorem zero_resistance_member_default_metrics_witness :
    (analyze_circuit c2comps c2wires).analysis.status_detail ≠ "⚠️ Short circuit detected" ∧
    mfind (analyze_circuit c2comps c2wires).component_metrics 1 =
      some ⟨(analyze_circuit c2comps c2wires).analysis.total_current, 0, 0⟩ :=
  ⟨(zero_resistance_member_default_metrics c2comps c2wires).1,
    (zero_resistance_member_default_metrics c2comps c2wires).2 [0, 2, 1] (by decide)
      (by decide) 1 (by decide) (by decide) (by decide)⟩



/-! ### Claim C10: the path describer -/

/-- The start of the described path: the first battery if one exists, else
the first group member. -/
def bfsStart (component_group batteries : List Nat) : Nat :=
  match batteries with
  | b :: _ => b
  | [] => component_group.headD 0

/-- Modelled from the claim's wording (C10): the breadth-first visit order —
pop the queue front, skip already-visited components, visit, and enqueue the
node's in-group neighbours sorted by ascending component id that are not
yet visited. -/
def bfsSpecOrder (comps : List Component) (component_group : List Nat)
    (adjacency : Nat → List Nat) :
    Nat → List Nat → List Nat → List Nat
  | 0, _, _ => []
  | _ + 1, [], _ => []
  | fuel + 1, node :: queue, visited =>
    if node ∈ visited then bfsSpecOrder comps component_group adjacency fuel queue visited
    else
      node :: bfsSpecOrder comps component_group adjacency fuel
        (queue ++ (sortLe (fun a b => decide ((cAt comps a).id ≤ (cAt comps b).id))
            ((adjacency node).filter (fun m => m ∈ component_group))).filter
          (fun m => ¬ (m = node ∨ m ∈ visited)))
        (node :: visited)

/-- Modelled from the claim's wording (C10): start at the first battery if
one exists, else the first group member; join the visited labels with
" → "; return "—" for the empty group. -/
def describe_active_path_spec (comps : List Component) (component_group : List Nat)
    (adjacency : Nat → List Nat) (batteries : List Nat) : String :=
  if component_group = [] then "—"
  else
    let start := bfsStart component_group batteries
    let fuel := 2 + (adjacency start).length +
      (component_group.map (fun i => (adjacency i).length)).sum
    String.intercalate " → "
      ((bfsSpecOrder comps component_group adjacency fuel [start] []).map
        (fun i => (cAt comps i).code_label))

/-- The source's label-accumulating loop computes the labels of the
specification's visit order. -/
theorem bfsLoop_eq_spec (comps : List Component) (component_group : List Nat)
    (adjacency : Nat → List Nat) :
    ∀ (fuel : Nat) (queue visited : List Nat) (ordered : List String),
    bfsLoop comps component_group adjacency fuel queue visited ordered =
      ordered ++ (bfsSpecOrder comps component_group adjacency fuel queue visited).map
        (fun i => (cAt comps i).code_label)
  | 0, queue, visited, ordered => by simp [bfsLoop, bfsSpecOrder]
  | fuel + 1, [], visited, ordered => by simp [bfsLoop, bfsSpecOrder]
  | fuel + 1, node :: queue, visited, ordered => by
    rw [bfsLoop, bfsSpecOrder]
    have hmem : (visited.contains node = true) ↔ node ∈ visited := by
      simp [List.contains]
    by_cases hv : node ∈ visited
    · rw [if_pos (hmem.mpr hv), if_pos hv]
      exact bfsLoop_eq_spec comps component_group adjacency fuel queue visited ordered
    · rw [if_neg (fun hc => hv (hmem.mp hc)), if_neg hv]
      have hfilter :
          (sortLe (fun a b => decide ((cAt comps a).id ≤ (cAt comps b).id))
              ((adjacency node).filter (fun m => component_group.contains m))).filter
            (fun m => ¬ ((node :: visited).contains m = true)) =
          (sortLe (fun a b => decide ((cAt comps a).id ≤ (cAt comps b).id))
              ((adjacency node).filter (fun m => m ∈ component_group))).filter
            (fun m => ¬ (m = node ∨ m ∈ visited)) := by
        have hin : (adjacency node).filter (fun m => component_group.contains m) =
            (adjacency node).filter (fun m => m ∈ component_group) := by
          refine List.filter_congr (fun a _ => ?_)
          simp [List.contains]
        rw [hin]
        refine List.filter_congr (fun a _ => ?_)
        simp only [decide_eq_decide, List.contains, List.mem_cons]
        simp [List.contains]
      rw [bfsLoop_eq_spec comps component_group adjacency fuel _ _ _, hfilter]
      simp [List.append_assoc]

/-- One unfolding of the specification's visit order from a fresh start. -/
theorem bfsSpecOrder_start (comps : List Component) (component_group : List Nat)
    (adjacency : Nat → List Nat) (f s : Nat) :
    bfsSpecOrder comps component_group adjacency (f + 1) [s] [] =
      s :: bfsSpecOrder comps component_group adjacency f
        ((sortLe (fun a b => decide ((cAt comps a).id ≤ (cAt comps b).id))
            ((adjacency s).filter (fun m => m ∈ component_group))).filter
          (fun m => ¬ (m = s ∨ m ∈ ([] : List Nat)))) [s] := by
  rw [bfsSpecOrder, if_neg (List.not_mem_nil s), List.nil_append]

/-- C10: `describe_active_path` is exactly the claim's breadth-first
description — it equals the spec-side definition built from the claim's
wording, returns "—" on the empty group, and on a nonempty group returns
the " → "-joined labels of a visit order starting at the first battery if
one exists, else the first group member. -/
theorem describe_active_path_spec_eq (comps : List Component)
    (component_group : List Nat) (adjacency : Nat → List Nat)
    (batteries : List Nat) :
    describe_active_path comps component_group adjacency batteries =
      describe_active_path_spec comps component_group adjacency batteries ∧
    (component_group = [] →
      describe_active_path comps component_group adjacency batteries = "—") ∧
    (component_group ≠ [] → ∃ rest : List Nat,
      describe_active_path comps component_group adjacency batteries =
        String.intercalate " → "
          ((cAt comps (bfsStart component_group batteries)).code_label ::
            rest.map (fun i => (cAt comps i).code_label))) := by
  have hs : (match batteries with
      | b :: _ => b
      | [] => component_group.headD 0) = bfsStart component_group batteries := rfl
  by_cases hg : component_group = []
  · have h1 : describe_active_path comps component_group adjacency batteries = "—" := by
      unfold describe_active_path
      rw [if_pos (List.isEmpty_iff.mpr hg)]
    have h2 : describe_active_path_spec comps component_group adjacency batteries = "—" := by
      unfold describe_active_path_spec
      rw [if_pos hg]
    exact ⟨h1.trans h2.symm, fun _ => h1, fun hne => absurd hg hne⟩
  · obtain ⟨f, hf⟩ : ∃ f, 2 + (adjacency (bfsStart component_group batteries)).length +
        (component_group.map (fun i => (adjacency i).length)).sum = f + 1 :=
      ⟨1 + (adjacency (bfsStart component_group batteries)).length +
        (component_group.map (fun i => (adjacency i).length)).sum, by omega⟩
    have horder := bfsSpecOrder_start comps component_group adjacency f
      (bfsStart component_group batteries)
    have hmain : describe_active_path comps component_group adjacency batteries =
        describe_active_path_spec comps component_group adjacency batteries := by
      unfold describe_active_path describe_active_path_spec
      rw [if_neg (by simpa [List.isEmpty_iff] using hg), if_neg hg]
      dsimp only
      rw [hs, bfsLoop_eq_spec, List.nil_append, hf, horder]
      simp
    refine ⟨hmain, fun hc => absurd hc hg, fun _ => ?_⟩
    rw [hmain]
    unfold describe_active_path_spec
    rw [if_neg hg]
    dsimp only
    rw [hf, horder]
    exact ⟨_, rfl⟩


/-! ### Claim C3 (amended): the scan selects the first eligible connected
subgraph -/

/-- One step of the component adjacency relation. -/
def AdjStep (adj : Nat → List Nat) (a b : Nat) : Prop := b ∈ adj a

/-- Spec-side (C3): the connected subgraph of component `i` — the closure
of `i` under adjacency steps. -/
def ReachSet (adj : Nat → List Nat) (i : Nat) : Set Nat :=
  {x | Relation.ReflTransGen (AdjStep adj) i x}

/-- Spec-side (C3, with the corrected load predicate): the eligibility
predicates on a candidate connected subgraph — size at least two, at least
one battery, at least one load (non-battery kind with positive resistance),
no open switch, and every member's wired-terminal count at least its
requirement. -/
def eligibleClass (comps : List Component) (ec : Nat → Nat) (S : Set Nat) : Prop :=
  2 ≤ S.ncard ∧
  (∃ j ∈ S, (cAt comps j).type = "battery") ∧
  (∃ j ∈ S, (cAt comps j).type ≠ "battery" ∧ 0 < get_resistance (cAt comps j)) ∧
  (∀ j ∈ S, is_switch (cAt comps j) = true → is_switch_closed (cAt comps j) = true) ∧
  (∀ j ∈ S, expected_connections (cAt comps j) ≤ ec j)

/-- Well-formed wires: every attachment points at a component of the list. -/
def WFWires (comps : List Component) (wires : List Wire) : Prop :=
  ∀ w ∈ wires, ∀ o ∈ w.attachments,
    o.all (fun p => decide (p.1 < comps.length)) = true

theorem ffFold_mem_visited : ∀ (l : List Nat) (st : List Nat × List Nat) (x : Nat),
    x ∈ (ffFold l st).2 ↔ x ∈ st.2 ∨ x ∈ l
  | [], st, x => by simp [ffFold]
  | m :: l, st, x => by
    rw [show ffFold (m :: l) st = ffFold l (ffStep st m) from rfl,
      ffFold_mem_visited l (ffStep st m) x]
    unfold ffStep
    by_cases hm : m ∈ st.2
    · rw [if_pos (by simpa [List.contains] using hm)]
      constructor
      · rintro (h | h)
        · exact Or.inl h
        · exact Or.inr (List.mem_cons_of_mem m h)
      · rintro (h | h)
        · exact Or.inl h
        · rcases List.mem_cons.mp h with rfl | h
          · exact Or.inl hm
          · exact Or.inr h
    · rw [if_neg (by simpa [List.contains] using hm)]
      dsimp only
      constructor
      · rintro (h | h)
        · rcases List.mem_cons.mp h with rfl | h
          · exact Or.inr (List.mem_cons_self _ _)
          · exact Or.inl h
        · exact Or.inr (List.mem_cons_of_mem m h)
      · rintro (h | h)
        · exact Or.inl (List.mem_cons_of_mem m h)
        · rcases List.mem_cons.mp h with rfl | h
          · exact Or.inl (List.mem_cons_self _ _)
          · exact Or.inr h

theorem ffFold_mem_stack : ∀ (l : List Nat) (st : List Nat × List Nat) (x : Nat),
    x ∈ (ffFold l st).1 ↔ x ∈ st.1 ∨ (x ∈ l ∧ x ∉ st.2)
  | [], st, x => by simp [ffFold]
  | m :: l, st, x => by
    rw [show ffFold (m :: l) st = ffFold l (ffStep st m) from rfl,
      ffFold_mem_stack l (ffStep st m) x]
    unfold ffStep
    by_cases hm : m ∈ st.2
    · rw [if_pos (by simpa [List.contains] using hm)]
      constructor
      · rintro (h | ⟨h1, h2⟩)
        · exact Or.inl h
        · exact Or.inr ⟨List.mem_cons_of_mem m h1, h2⟩
      · rintro (h | ⟨h1, h2⟩)
        · exact Or.inl h
        · rcases List.mem_cons.mp h1 with rfl | h1
          · exact absurd hm h2
          · exact Or.inr ⟨h1, h2⟩
    · rw [if_neg (by simpa [List.contains] using hm)]
      dsimp only
      constructor
      · rintro (h | ⟨h1, h2⟩)
        · rcases List.mem_cons.mp h with rfl | h
          · exact Or.inr ⟨List.mem_cons_self _ _, hm⟩
          · exact Or.inl h
        · exact Or.inr ⟨List.mem_cons_of_mem m h1,
            fun hx => h2 (List.mem_cons_of_mem m hx)⟩
      · rintro (h | ⟨h1, h2⟩)
        · exact Or.inl (List.mem_cons_of_mem m h)
        · by_cases hxm : x = m
          · subst hxm
            exact Or.inl (List.mem_cons_self _ _)
          · rcases List.mem_cons.mp h1 with rfl | h1
            · exact absurd rfl hxm
            · refine Or.inr ⟨h1, fun hx => ?_⟩
              rcases List.mem_cons.mp hx with rfl | hx
              · exact hxm rfl
              · exact h2 hx

theorem ffFold_nodup : ∀ (l : List Nat) (st : List Nat × List Nat),
    st.1.Nodup → st.2.Nodup → (∀ x ∈ st.1, x ∈ st.2) →
    (ffFold l st).1.Nodup ∧ (ffFold l st).2.Nodup ∧
      ∀ x ∈ (ffFold l st).1, x ∈ (ffFold l st).2
  | [], st, h1, h2, h12 => ⟨h1, h2, h12⟩
  | m :: l, st, h1, h2, h12 => by
    rw [show ffFold (m :: l) st = ffFold l (ffStep st m) from rfl]
    refine ffFold_nodup l (ffStep st m) ?_ ?_ ?_ <;> unfold ffStep <;>
      by_cases hm : m ∈ st.2
    · rwa [if_pos (by simpa [List.contains] using hm)]
    · rw [if_neg (by simpa [List.contains] using hm)]
      exact List.nodup_cons.mpr ⟨fun hx => hm (h12 m hx), h1⟩
    · rwa [if_pos (by simpa [List.contains] using hm)]
    · rw [if_neg (by simpa [List.contains] using hm)]
      exact List.nodup_cons.mpr ⟨hm, h2⟩
    · rw [if_pos (by simpa [List.contains] using hm)]
      exact h12
    · rw [if_neg (by simpa [List.contains] using hm)]
      intro x hx
      rcases List.mem_cons.mp hx with rfl | hx
      · exact List.mem_cons_self x st.2
      · exact List.mem_cons_of_mem m (h12 x hx)

theorem ffFold_length : ∀ (l : List Nat) (st : List Nat × List Nat),
    (ffFold l st).1.length + st.2.length = st.1.length + (ffFold l st).2.length ∧
    st.2.length ≤ (ffFold l st).2.length
  | [], _ => ⟨rfl, le_refl _⟩
  | m :: l, st => by
    obtain ⟨ha, hb⟩ := ffFold_length l (ffStep st m)
    rw [show ffFold (m :: l) st = ffFold l (ffStep st m) from rfl]
    unfold ffStep at ha hb ⊢
    by_cases hm : m ∈ st.2
    · rw [if_pos (by simpa [List.contains] using hm)] at ha hb ⊢
      exact ⟨ha, hb⟩
    · rw [if_neg (by simpa [List.contains] using hm)] at ha hb ⊢
      dsimp only at ha hb ⊢
      simp only [List.length_cons] at ha hb
      exact ⟨by omega, by omega⟩

/-- A duplicate-free list of naturals below `n` has length at most `n`. -/
theorem nodup_length_le {l : List Nat} {n : Nat} (hnd : l.Nodup)
    (hb : ∀ x ∈ l, x < n) : l.length ≤ n := by
  have h1 : l.toFinset ⊆ Finset.range n := fun x hx =>
    Finset.mem_range.mpr (hb x (List.mem_toFinset.mp hx))
  have h2 := Finset.card_le_card h1
  rwa [List.toFinset_card_of_nodup hnd, Finset.card_range] at h2

/-- A list closed under adjacency contains everything reachable from one of
its members. -/
theorem reach_closed {adj : Nat → List Nat} {V : List Nat}
    (hcl : ∀ v ∈ V, ∀ m ∈ adj v, m ∈ V) {s x : Nat} (hs : s ∈ V)
    (h : Relation.ReflTransGen (AdjStep adj) s x) : x ∈ V := by
  induction h with
  | refl => exact hs
  | tail _ hstep ih => exact hcl _ ih _ hstep

/-- Reachability over a symmetric adjacency is symmetric. -/
theorem reach_symm {adj : Nat → List Nat}
    (hsym : ∀ a b, b ∈ adj a → a ∈ adj b) {i v : Nat}
    (h : Relation.ReflTransGen (AdjStep adj) i v) :
    Relation.ReflTransGen (AdjStep adj) v i := by
  induction h with
  | refl => exact Relation.ReflTransGen.refl
  | tail _ hstep ih =>
    exact Relation.ReflTransGen.trans
      (Relation.ReflTransGen.single (hsym _ _ hstep)) ih

/-- Over a symmetric adjacency the connected subgraph of any member of a
class is the class itself. -/
theorem reachSet_eq_of_mem {adj : Nat → List Nat}
    (hsym : ∀ a b, b ∈ adj a → a ∈ adj b) {i v : Nat}
    (h : Relation.ReflTransGen (AdjStep adj) i v) :
    ReachSet adj v = ReachSet adj i := by
  ext x
  simp only [ReachSet, Set.mem_setOf_eq]
  constructor
  · intro hx
    exact Relation.ReflTransGen.trans h hx
  · intro hx
    exact Relation.ReflTransGen.trans (reach_symm hsym h) hx

/-- A duplicate-free list enumerating a set gives its cardinality. -/
theorem ncard_eq_length {g : List Nat} {S : Set Nat} (hnd : g.Nodup)
    (h : ∀ x, x ∈ g ↔ x ∈ S) : S.ncard = g.length := by
  have hS : S = ↑g.toFinset := by
    ext x
    simp [← h x]
  rw [hS, Set.ncard_coe_Finset, List.toFinset_card_of_nodup hnd]

/-- Correctness of the stack flood fill: with enough fuel the returned
visited list extends the input, stays duplicate-free, bounded and
adjacency-closed, contains only nodes reachable from the stack (or already
visited), and the returned order enumerates the stack plus the newly
visited nodes without repetition. -/
theorem floodFill_spec {adj : Nat → List Nat} {n : Nat}
    (hadj : ∀ a, ∀ b ∈ adj a, b < n) :
    ∀ (fuel : Nat) (stack visited : List Nat),
    (∀ x ∈ stack, x ∈ visited) → stack.Nodup → visited.Nodup →
    (∀ x ∈ visited, x < n) →
    (∀ v ∈ visited, v ∈ stack ∨ ∀ m ∈ adj v, m ∈ visited) →
    stack.length + (n - visited.length) ≤ fuel →
    (∀ x ∈ visited, x ∈ (floodFill adj fuel stack visited).2) ∧
    (floodFill adj fuel stack visited).2.Nodup ∧
    (∀ x ∈ (floodFill adj fuel stack visited).2, x < n) ∧
    (∀ v ∈ (floodFill adj fuel stack visited).2, ∀ m ∈ adj v,
      m ∈ (floodFill adj fuel stack visited).2) ∧
    (∀ x ∈ (floodFill adj fuel stack visited).2,
      x ∈ visited ∨ ∃ s ∈ stack, Relation.ReflTransGen (AdjStep adj) s x) ∧
    (floodFill adj fuel stack visited).1.Nodup ∧
    (∀ x, x ∈ (floodFill adj fuel stack visited).1 ↔
      x ∈ stack ∨ (x ∈ (floodFill adj fuel stack visited).2 ∧ x ∉ visited))
  | 0, stack, visited => by
    intro hsub hnds hndv hbv hcl hfuel
    have hstack : stack = [] := List.length_eq_zero.mp (by omega)
    subst hstack
    rw [show floodFill adj 0 [] visited = ([], visited) from rfl]
    refine ⟨fun x hx => hx, hndv, hbv, ?_, fun x hx => Or.inl hx,
      List.nodup_nil, fun x => by simp⟩
    intro v hv m hm
    rcases hcl v hv with h | h
    · cases h
    · exact h m hm
  | fuel + 1, [], visited => by
    intro hsub hnds hndv hbv hcl hfuel
    rw [show floodFill adj (fuel + 1) [] visited = ([], visited) from rfl]
    refine ⟨fun x hx => hx, hndv, hbv, ?_, fun x hx => Or.inl hx,
      List.nodup_nil, fun x => by simp⟩
    intro v hv m hm
    rcases hcl v hv with h | h
    · cases h
    · exact h m hm
  | fuel + 1, node :: stack, visited => by
    intro hsub hnds hndv hbv hcl hfuel
    have hnode : node ∈ visited := hsub node (List.mem_cons_self node stack)
    have hmem2 : ∀ x, x ∈ (ffFold (adj node) (stack, visited)).2 ↔
        x ∈ visited ∨ x ∈ adj node :=
      fun x => ffFold_mem_visited (adj node) (stack, visited) x
    have hmem1 : ∀ x, x ∈ (ffFold (adj node) (stack, visited)).1 ↔
        x ∈ stack ∨ (x ∈ adj node ∧ x ∉ visited) :=
      fun x => ffFold_mem_stack (adj node) (stack, visited) x
    obtain ⟨hnd1, hnd2, hsub1⟩ := ffFold_nodup (adj node) (stack, visited)
      (List.Nodup.of_cons hnds) hndv
      (fun x hx => hsub x (List.mem_cons_of_mem node hx))
    obtain ⟨hlen, hmono⟩ := ffFold_length (adj node) (stack, visited)
    dsimp only at hlen hmono
    have hbv2 : ∀ x ∈ (ffFold (adj node) (stack, visited)).2, x < n := by
      intro x hx
      rcases (hmem2 x).mp hx with h | h
      · exact hbv x h
      · exact hadj node x h
    have hcl2 : ∀ v ∈ (ffFold (adj node) (stack, visited)).2,
        v ∈ (ffFold (adj node) (stack, visited)).1 ∨
        ∀ m ∈ adj v, m ∈ (ffFold (adj node) (stack, visited)).2 := by
      intro v hv
      by_cases hvv : v ∈ visited
      · rcases hcl v hvv with hvs | hvadj
        · rcases List.mem_cons.mp hvs with rfl | hvs
          · exact Or.inr (fun m hm => (hmem2 m).mpr (Or.inr hm))
          · exact Or.inl ((hmem1 v).mpr (Or.inl hvs))
        · exact Or.inr (fun m hm => (hmem2 m).mpr (Or.inl (hvadj m hm)))
      · have hva : v ∈ adj node := by
          rcases (hmem2 v).mp hv with h | h
          · exact absurd h hvv
          · exact h
        exact Or.inl ((hmem1 v).mpr (Or.inr ⟨hva, hvv⟩))
    have hn2 : (ffFold (adj node) (stack, visited)).2.length ≤ n :=
      nodup_length_le hnd2 hbv2
    have hfuel2 : (ffFold (adj node) (stack, visited)).1.length +
        (n - (ffFold (adj node) (stack, visited)).2.length) ≤ fuel := by
      simp only [List.length_cons] at hfuel
      omega
    obtain ⟨ih1, ih2, ih3, ih4, ih5, ih6, ih7⟩ :=
      floodFill_spec hadj fuel (ffFold (adj node) (stack, visited)).1
        (ffFold (adj node) (stack, visited)).2 hsub1 hnd1 hnd2 hbv2 hcl2 hfuel2
    have hff : floodFill adj (fuel + 1) (node :: stack) visited =
        (node :: (floodFill adj fuel (ffFold (adj node) (stack, visited)).1
            (ffFold (adj node) (stack, visited)).2).1,
          (floodFill adj fuel (ffFold (adj node) (stack, visited)).1
            (ffFold (adj node) (stack, visited)).2).2) := rfl
    rw [hff]
    refine ⟨?_, ih2, ih3, ih4, ?_, ?_, ?_⟩
    · intro x hx
      exact ih1 x ((hmem2 x).mpr (Or.inl hx))
    · intro x hx
      rcases ih5 x hx with hxe | ⟨s, hs, hreach⟩
      · rcases (hmem2 x).mp hxe with h | h
        · exact Or.inl h
        · exact Or.inr ⟨node, List.mem_cons_self node stack,
            Relation.ReflTransGen.single h⟩
      · rcases (hmem1 s).mp hs with hss | ⟨hsa, _⟩
        · exact Or.inr ⟨s, List.mem_cons_of_mem node hss, hreach⟩
        · exact Or.inr ⟨node, List.mem_cons_self node stack,
            Relation.ReflTransGen.trans (Relation.ReflTransGen.single hsa) hreach⟩
    · have hnr : node ∉ (floodFill adj fuel (ffFold (adj node) (stack, visited)).1
          (ffFold (adj node) (stack, visited)).2).1 := by
        intro hcontra
        rcases (ih7 node).mp hcontra with h | ⟨_, h2⟩
        · rcases (hmem1 node).mp h with h | ⟨_, h2⟩
          · exact (List.nodup_cons.mp hnds).1 h
          · exact h2 hnode
        · exact h2 ((hmem2 node).mpr (Or.inl hnode))
      exact List.nodup_cons.mpr ⟨hnr, ih6⟩
    · intro x
      rw [List.mem_cons, List.mem_cons, ih7 x]
      constructor
      · rintro (rfl | h | ⟨h1, h2⟩)
        · exact Or.inl (Or.inl rfl)
        · rcases (hmem1 x).mp h with hs | ⟨ha, hv⟩
          · exact Or.inl (Or.inr hs)
          · exact Or.inr ⟨ih1 x ((hmem2 x).mpr (Or.inr ha)), hv⟩
        · exact Or.inr ⟨h1, fun hv => h2 ((hmem2 x).mpr (Or.inl hv))⟩
      · rintro ((rfl | h) | ⟨h1, h2⟩)
        · exact Or.inl rfl
        · exact Or.inr (Or.inl ((hmem1 x).mpr (Or.inl h)))
        · by_cases he2 : x ∈ (ffFold (adj node) (stack, visited)).2
          · rcases (hmem2 x).mp he2 with hv | ha
            · exact absurd hv h2
            · by_cases hxn : x = node
              · exact Or.inl hxn
              · exact Or.inr (Or.inl ((hmem1 x).mpr (Or.inr ⟨ha, h2⟩)))
          · exact Or.inr (Or.inr ⟨h1, he2⟩)

/-- `_is_passive_load` accepts exactly the non-battery kinds with positive
resistance. -/
theorem is_passive_load_iff (c : Component) :
    is_passive_load c = true ↔ (c.type ≠ "battery" ∧ 0 < get_resistance c) := by
  constructor
  · intro h
    obtain ⟨hp, hb⟩ := is_passive_load_pos h
    exact ⟨hb, hp⟩
  · rintro ⟨hb, hr⟩
    unfold is_passive_load
    by_cases hmem : PASSIVE_LOAD_TYPES.contains c.type = true
    · rw [if_pos hmem]
      exact decide_eq_true hr
    · rw [if_neg hmem, if_neg hb]
      exact decide_eq_true hr

/-- One flood fill from an unvisited component, run against a visited set
that is a union of complete classes, enumerates exactly the component's
connected subgraph. -/
theorem flood_candidate {adj : Nat → List Nat} {n : Nat}
    (hadj : ∀ a, ∀ b ∈ adj a, b < n)
    (hsym : ∀ a b, b ∈ adj a → a ∈ adj b)
    {visited : List Nat} {i : Nat} (hi : i < n) (hiv : i ∉ visited)
    (hbv : ∀ x ∈ visited, x < n) (hndv : visited.Nodup)
    (hclv : ∀ v ∈ visited, ∀ m ∈ adj v, m ∈ visited) :
    (∀ x, x ∈ (floodFill adj (n + 1) [i] (i :: visited)).1 ↔
      x ∈ ReachSet adj i) ∧
    (floodFill adj (n + 1) [i] (i :: visited)).1.Nodup ∧
    (∀ x, x ∈ (floodFill adj (n + 1) [i] (i :: visited)).2 ↔
      x ∈ visited ∨ x ∈ ReachSet adj i) ∧
    (floodFill adj (n + 1) [i] (i :: visited)).2.Nodup ∧
    (∀ v ∈ (floodFill adj (n + 1) [i] (i :: visited)).2, ∀ m ∈ adj v,
      m ∈ (floodFill adj (n + 1) [i] (i :: visited)).2) ∧
    (∀ x ∈ (floodFill adj (n + 1) [i] (i :: visited)).2, x < n) := by
  obtain ⟨h1, h2, h3, h4, h5, h6, h7⟩ := floodFill_spec hadj (n + 1) [i] (i :: visited)
    (fun x hx => by
      rcases List.mem_cons.mp hx with rfl | hx
      · exact List.mem_cons_self x visited
      · cases hx)
    (List.nodup_singleton i)
    (List.nodup_cons.mpr ⟨hiv, hndv⟩)
    (fun x hx => by
      rcases List.mem_cons.mp hx with rfl | hx
      · exact hi
      · exact hbv x hx)
    (fun v hv => by
      rcases List.mem_cons.mp hv with rfl | hv
      · exact Or.inl (List.mem_cons_self v [])
      · exact Or.inr (fun m hm => List.mem_cons_of_mem i (hclv v hv m hm)))
    (by simp only [List.length_cons, List.length_nil]; omega)
  have hreach_sub : ∀ x, x ∈ ReachSet adj i →
      x ∈ (floodFill adj (n + 1) [i] (i :: visited)).2 := by
    intro x hx
    exact reach_closed h4 (h1 i (List.mem_cons_self i visited)) hx
  have hvis_not_reach : ∀ x ∈ visited, x ∉ ReachSet adj i := by
    intro x hx hr
    exact hiv (reach_closed hclv hx (reach_symm hsym hr))
  have hvmem : ∀ x, x ∈ (floodFill adj (n + 1) [i] (i :: visited)).2 ↔
      x ∈ visited ∨ x ∈ ReachSet adj i := by
    intro x
    constructor
    · intro hx
      rcases h5 x hx with hxe | ⟨s, hs, hreach⟩
      · rcases List.mem_cons.mp hxe with rfl | hxe
        · exact Or.inr Relation.ReflTransGen.refl
        · exact Or.inl hxe
      · rcases List.mem_singleton.mp hs with rfl
        exact Or.inr hreach
    · rintro (hx | hx)
      · exact h1 x (List.mem_cons_of_mem i hx)
      · exact hreach_sub x hx
  refine ⟨?_, h6, hvmem, h2, h4, h3⟩
  intro x
  rw [h7 x]
  constructor
  · rintro (hx | ⟨hx2, hxv⟩)
    · rcases List.mem_singleton.mp hx with rfl
      exact Relation.ReflTransGen.refl
    · rcases (hvmem x).mp hx2 with hx | hx
      · exact absurd (List.mem_cons_of_mem i hx) hxv
      · exact hx
  · intro hx
    by_cases hxi : x = i
    · exact Or.inl (List.mem_singleton.mpr hxi)
    · refine Or.inr ⟨hreach_sub x hx, fun hc => ?_⟩
      rcases List.mem_cons.mp hc with rfl | hc
      · exact hxi rfl
      · exact hvis_not_reach x hc hx

/-- The component scan characterized: over a visited set that is a union of
already-rejected complete classes, the scan returns the first scanned
component (in list order) whose connected subgraph passes every eligibility
guard, and `none` when no scanned component's subgraph is eligible. -/
theorem scanGroups_characterize {comps : List Component} {adj : Nat → List Nat}
    {ec : Nat → Nat}
    (hadj : ∀ a, ∀ b ∈ adj a, b < comps.length)
    (hsym : ∀ a b, b ∈ adj a → a ∈ adj b) :
    ∀ (todo visited : List Nat),
    (∀ x ∈ visited, x < comps.length) → visited.Nodup →
    (∀ v ∈ visited, ∀ m ∈ adj v, m ∈ visited) →
    (∀ v ∈ visited, ¬ eligibleClass comps ec (ReachSet adj v)) →
    (∀ i ∈ todo, i < comps.length) →
    (scanGroups comps adj ec todo visited = none →
      ∀ i ∈ todo, ¬ eligibleClass comps ec (ReachSet adj i)) ∧
    (∀ g bs ls, scanGroups comps adj ec todo visited = some (g, bs, ls) →
      ∃ pre i post, todo = pre ++ i :: post ∧
        (∀ j ∈ pre, ¬ eligibleClass comps ec (ReachSet adj j)) ∧
        eligibleClass comps ec (ReachSet adj i) ∧
        g.Nodup ∧ (∀ x, x ∈ g ↔ x ∈ ReachSet adj i))
  | [], visited => by
    intro hbv hndv hclv hrejv htodo
    refine ⟨fun _ i hi => absurd hi (List.not_mem_nil i), fun g bs ls h => ?_⟩
    rw [scanGroups] at h
    cases h
  | i :: rest, visited => by
    intro hbv hndv hclv hrejv htodo
    have hi : i < comps.length := htodo i (List.mem_cons_self i rest)
    have htodo' : ∀ j ∈ rest, j < comps.length :=
      fun j hj => htodo j (List.mem_cons_of_mem i hj)
    by_cases hiv : i ∈ visited
    · have hskip : scanGroups comps adj ec (i :: rest) visited =
          scanGroups comps adj ec rest visited := by
        rw [scanGroups, if_pos (by simpa [List.contains] using hiv)]
      obtain ⟨ihn, ihs⟩ := scanGroups_characterize hadj hsym rest visited
        hbv hndv hclv hrejv htodo'
      constructor
      · intro h j hj
        rcases List.mem_cons.mp hj with rfl | hj
        · exact hrejv j hiv
        · exact ihn (hskip.symm.trans h) j hj
      · intro g bs ls h
        obtain ⟨pre, i', post, hdec, hpre, helig, hnd, hgS⟩ :=
          ihs g bs ls (hskip.symm.trans h)
        refine ⟨i :: pre, i', post, by rw [hdec, List.cons_append], ?_,
          helig, hnd, hgS⟩
        intro j hj
        rcases List.mem_cons.mp hj with rfl | hj
        · exact hrejv j hiv
        · exact hpre j hj
    · obtain ⟨hg1, hg2, hvmem, hvnd, hvcl, hvbd⟩ :=
        flood_candidate hadj hsym hi hiv hbv hndv hclv
      have hncard : (ReachSet adj i).ncard =
          (floodFill adj (comps.length + 1) [i] (i :: visited)).1.length :=
        ncard_eq_length hg2 hg1
      have hrejv2 : ¬ eligibleClass comps ec (ReachSet adj i) →
          ∀ v ∈ (floodFill adj (comps.length + 1) [i] (i :: visited)).2,
          ¬ eligibleClass comps ec (ReachSet adj v) := by
        intro h0 v hv
        rcases (hvmem v).mp hv with hvv | hvr
        · exact hrejv v hvv
        · rw [reachSet_eq_of_mem hsym hvr]
          exact h0
      have hunfold : scanGroups comps adj ec (i :: rest) visited =
          (if (floodFill adj (comps.length + 1) [i] (i :: visited)).1.length < 2 then
            scanGroups comps adj ec rest
              (floodFill adj (comps.length + 1) [i] (i :: visited)).2
          else if (floodFill adj (comps.length + 1) [i] (i :: visited)).1.any
              (fun j => is_switch (cAt comps j) && ! is_switch_closed (cAt comps j)) then
            scanGroups comps adj ec rest
              (floodFill adj (comps.length + 1) [i] (i :: visited)).2
          else if ((floodFill adj (comps.length + 1) [i] (i :: visited)).1.filter
                (fun j => (cAt comps j).type = "battery")).isEmpty ∨
              ((floodFill adj (comps.length + 1) [i] (i :: visited)).1.filter
                (fun j => is_passive_load (cAt comps j))).isEmpty then
            scanGroups comps adj ec rest
              (floodFill adj (comps.length + 1) [i] (i :: visited)).2
          else if ¬ (floodFill adj (comps.length + 1) [i] (i :: visited)).1.all
              (fun j => expected_connections (cAt comps j) ≤ ec j) then
            scanGroups comps adj ec rest
              (floodFill adj (comps.length + 1) [i] (i :: visited)).2
          else some ((floodFill adj (comps.length + 1) [i] (i :: visited)).1,
            (floodFill adj (comps.length + 1) [i] (i :: visited)).1.filter
              (fun j => (cAt comps j).type = "battery"),
            (floodFill adj (comps.length + 1) [i] (i :: visited)).1.filter
              (fun j => is_passive_load (cAt comps j)))) := by
        rw [scanGroups,
          if_neg (show ¬(visited.contains i = true) from
            fun hc => hiv (by simpa [List.contains] using hc))]
      have hreject : ¬ eligibleClass comps ec (ReachSet adj i) →
          scanGroups comps adj ec (i :: rest) visited =
            scanGroups comps adj ec rest
              (floodFill adj (comps.length + 1) [i] (i :: visited)).2 →
          (scanGroups comps adj ec (i :: rest) visited = none →
            ∀ j ∈ i :: rest, ¬ eligibleClass comps ec (ReachSet adj j)) ∧
          (∀ g bs ls, scanGroups comps adj ec (i :: rest) visited =
              some (g, bs, ls) →
            ∃ pre i' post, i :: rest = pre ++ i' :: post ∧
              (∀ j ∈ pre, ¬ eligibleClass comps ec (ReachSet adj j)) ∧
              eligibleClass comps ec (ReachSet adj i') ∧
              g.Nodup ∧ (∀ x, x ∈ g ↔ x ∈ ReachSet adj i')) := by
        intro hrej hstep
        obtain ⟨ihn, ihs⟩ := scanGroups_characterize hadj hsym rest
          (floodFill adj (comps.length + 1) [i] (i :: visited)).2
          hvbd hvnd hvcl (hrejv2 hrej) htodo'
        constructor
        · intro h j hj
          rcases List.mem_cons.mp hj with rfl | hj
          · exact hrej
          · exact ihn (hstep.symm.trans h) j hj
        · intro g bs ls h
          obtain ⟨pre, i', post, hdec, hpre, helig, hnd, hgS⟩ :=
            ihs g bs ls (hstep.symm.trans h)
          refine ⟨i :: pre, i', post, by rw [hdec, List.cons_append], ?_,
            helig, hnd, hgS⟩
          intro j hj
          rcases List.mem_cons.mp hj with rfl | hj
          · exact hrej
          · exact hpre j hj
      by_cases hc1 :
        (floodFill adj (comps.length + 1) [i] (i :: visited)).1.length < 2
      · refine hreject (fun he => absurd he.1 (by rw [hncard]; omega)) ?_
        rw [hunfold, if_pos hc1]
      · by_cases hc2 : (floodFill adj (comps.length + 1) [i] (i :: visited)).1.any
            (fun j => is_switch (cAt comps j) && ! is_switch_closed (cAt comps j)) = true
        · refine hreject ?_ ?_
          · intro he
            obtain ⟨j, hj, hjb⟩ := List.any_eq_true.mp hc2
            rw [Bool.and_eq_true] at hjb
            have hclj := he.2.2.2.1 j ((hg1 j).mp hj) hjb.1
            rw [hclj] at hjb
            exact absurd hjb.2 (by decide)
          · rw [hunfold, if_neg hc1, if_pos hc2]
        · by_cases hc3 :
            ((floodFill adj (comps.length + 1) [i] (i :: visited)).1.filter
              (fun j => (cAt comps j).type = "battery")).isEmpty = true ∨
            ((floodFill adj (comps.length + 1) [i] (i :: visited)).1.filter
              (fun j => is_passive_load (cAt comps j))).isEmpty = true
          · refine hreject ?_ ?_
            · intro he
              rcases hc3 with hc3 | hc3
              · obtain ⟨j, hjS, hjb⟩ := he.2.1
                have hmem : j ∈ (floodFill adj (comps.length + 1) [i]
                    (i :: visited)).1.filter
                      (fun j => (cAt comps j).type = "battery") :=
                  List.mem_filter.mpr ⟨(hg1 j).mpr hjS, decide_eq_true hjb⟩
                rw [List.isEmpty_iff.mp hc3] at hmem
                cases hmem
              · obtain ⟨j, hjS, hjl⟩ := he.2.2.1
                have hmem : j ∈ (floodFill adj (comps.length + 1) [i]
                    (i :: visited)).1.filter
                      (fun j => is_passive_load (cAt comps j)) :=
                  List.mem_filter.mpr ⟨(hg1 j).mpr hjS,
                    (is_passive_load_iff _).mpr hjl⟩
                rw [List.isEmpty_iff.mp hc3] at hmem
                cases hmem
            · rw [hunfold, if_neg hc1, if_neg hc2, if_pos hc3]
          · by_cases hc4 :
              ¬ (floodFill adj (comps.length + 1) [i] (i :: visited)).1.all
                (fun j => expected_connections (cAt comps j) ≤ ec j) = true
            · refine hreject ?_ ?_
              · intro he
                refine hc4 (List.all_eq_true.mpr ?_)
                intro j hj
                exact decide_eq_true (he.2.2.2.2 j ((hg1 j).mp hj))
              · rw [hunfold, if_neg hc1, if_neg hc2, if_neg hc3, if_pos hc4]
            · have hsome : scanGroups comps adj ec (i :: rest) visited =
                  some ((floodFill adj (comps.length + 1) [i] (i :: visited)).1,
                    (floodFill adj (comps.length + 1) [i] (i :: visited)).1.filter
                      (fun j => (cAt comps j).type = "battery"),
                    (floodFill adj (comps.length + 1) [i] (i :: visited)).1.filter
                      (fun j => is_passive_load (cAt comps j))) := by
                rw [hunfold, if_neg hc1, if_neg hc2, if_neg hc3, if_neg hc4]
              have helig : eligibleClass comps ec (ReachSet adj i) := by
                refine ⟨by rw [hncard]; omega, ?_, ?_, ?_, ?_⟩
                · have hne : (floodFill adj (comps.length + 1) [i]
                      (i :: visited)).1.filter
                        (fun j => (cAt comps j).type = "battery") ≠ [] := by
                    intro h0
                    exact hc3 (Or.inl (List.isEmpty_iff.mpr h0))
                  obtain ⟨j, hj⟩ := List.exists_mem_of_ne_nil _ hne
                  obtain ⟨hjg, hjb⟩ := List.mem_filter.mp hj
                  exact ⟨j, (hg1 j).mp hjg, of_decide_eq_true hjb⟩
                · have hne : (floodFill adj (comps.length + 1) [i]
                      (i :: visited)).1.filter
                        (fun j => is_passive_load (cAt comps j)) ≠ [] := by
                    intro h0
                    exact hc3 (Or.inr (List.isEmpty_iff.mpr h0))
                  obtain ⟨j, hj⟩ := List.exists_mem_of_ne_nil _ hne
                  obtain ⟨hjg, hjb⟩ := List.mem_filter.mp hj
                  exact ⟨j, (hg1 j).mp hjg, (is_passive_load_iff _).mp hjb⟩
                · intro j hjS hjsw
                  by_contra hop
                  refine hc2 (List.any_eq_true.mpr ⟨j, (hg1 j).mpr hjS, ?_⟩)
                  simp [hjsw, Bool.eq_false_iff.mpr hop]
                · intro j hjS
                  have hall := not_not.mp hc4
                  simpa using List.all_eq_true.mp hall j ((hg1 j).mpr hjS)
              constructor
              · intro h
                rw [hsome] at h
                cases h
              · intro g bs ls h
                have hinj := hsome.symm.trans h
                rw [Option.some.injEq, Prod.mk.injEq] at hinj
                obtain ⟨hg, _⟩ := hinj
                subst hg
                exact ⟨[], i, rest, rfl,
                  fun j hj => absurd hj (List.not_mem_nil j), helig, hg2, hg1⟩

/-- Membership after one neighbour insertion. -/
theorem insertNeighbor_mem (adj : Nat → List Nat) (a b x y : Nat) :
    y ∈ insertNeighbor adj a b x ↔ y ∈ adj x ∨ (x = a ∧ y = b) := by
  unfold insertNeighbor
  rw [Function.update_apply]
  by_cases hxa : x = a
  · rw [if_pos hxa]
    subst hxa
    by_cases hb : (adj x).contains b
    · rw [if_pos hb]
      have hbm : b ∈ adj x := by simpa [List.contains] using hb
      constructor
      · exact fun h => Or.inl h
      · rintro (h | ⟨-, rfl⟩)
        · exact h
        · exact hbm
    · rw [if_neg hb]
      rw [List.mem_append, List.mem_singleton]
      constructor
      · rintro (h | rfl)
        · exact Or.inl h
        · exact Or.inr ⟨rfl, rfl⟩
      · rintro (h | ⟨-, rfl⟩)
        · exact Or.inl h
        · exact Or.inr rfl
  · rw [if_neg hxa]
    constructor
    · exact fun h => Or.inl h
    · rintro (h | ⟨rfl, rfl⟩)
      · exact h
      · exact absurd rfl hxa

/-- Membership after the symmetric double insertion of one pair. -/
theorem insert2_mem (adj : Nat → List Nat) (p q x y : Nat) :
    y ∈ insertNeighbor (insertNeighbor adj p q) q p x ↔
      y ∈ adj x ∨ (x = p ∧ y = q) ∨ (x = q ∧ y = p) := by
  rw [insertNeighbor_mem, insertNeighbor_mem]
  tauto

/-- Folding symmetric double insertions keeps the adjacency symmetric. -/
theorem insertPairs_symm : ∀ (prs : List (Nat × Nat)) (adj : Nat → List Nat),
    (∀ a b, b ∈ adj a → a ∈ adj b) →
    ∀ a b, b ∈ prs.foldl
        (fun m pr => insertNeighbor (insertNeighbor m pr.1 pr.2) pr.2 pr.1) adj a →
      a ∈ prs.foldl
        (fun m pr => insertNeighbor (insertNeighbor m pr.1 pr.2) pr.2 pr.1) adj b
  | [], adj, hsym => hsym
  | pr :: prs, adj, hsym =>
    insertPairs_symm prs _ (fun a b hab => by
      rw [insert2_mem] at hab ⊢
      tauto)

/-- Folding symmetric double insertions keeps the adjacency bounded. -/
theorem insertPairs_bound : ∀ (prs : List (Nat × Nat)) (adj : Nat → List Nat)
    {n : Nat},
    (∀ a, ∀ b ∈ adj a, b < n) → (∀ pr ∈ prs, pr.1 < n ∧ pr.2 < n) →
    ∀ a, ∀ b ∈ prs.foldl
        (fun m pr => insertNeighbor (insertNeighbor m pr.1 pr.2) pr.2 pr.1) adj a,
      b < n
  | [], adj, n, hb, _ => hb
  | pr :: prs, adj, n, hb, hprs =>
    insertPairs_bound prs _
      (fun a b hab => by
        rw [insert2_mem] at hab
        rcases hab with h | ⟨-, rfl⟩ | ⟨-, rfl⟩
        · exact hb a b h
        · exact (hprs pr (List.mem_cons_self pr prs)).2
        · exact (hprs pr (List.mem_cons_self pr prs)).1)
      (fun pr' h => hprs pr' (List.mem_cons_of_mem pr h))

/-- Both components of an unordered pair come from the list. -/
theorem upairs_mem {α : Type} : ∀ {l : List α} {p : α × α},
    p ∈ upairs l → p.1 ∈ l ∧ p.2 ∈ l
  | [], p, h => absurd h (List.not_mem_nil p)
  | x :: xs, p, h => by
    rw [upairs] at h
    rcases List.mem_append.mp h with h | h
    · obtain ⟨y, hy, rfl⟩ := List.mem_map.mp h
      exact ⟨List.mem_cons_self x xs, List.mem_cons_of_mem x hy⟩
    · obtain ⟨h1, h2⟩ := upairs_mem h
      exact ⟨List.mem_cons_of_mem x h1, List.mem_cons_of_mem x h2⟩

/-- Adding one electrical node's member pairs keeps the adjacency
symmetric. -/
theorem addEdges_symm {adj : Nat → List Nat}
    (hsym : ∀ a b, b ∈ adj a → a ∈ adj b) (members : List Nat) :
    ∀ a b, b ∈ addEdges adj members a → a ∈ addEdges adj members b :=
  insertPairs_symm (upairs members) adj hsym

/-- Adding one electrical node's member pairs keeps the adjacency
bounded. -/
theorem addEdges_bound {adj : Nat → List Nat} {n : Nat} {members : List Nat}
    (hb : ∀ a, ∀ b ∈ adj a, b < n) (hm : ∀ x ∈ members, x < n) :
    ∀ a, ∀ b ∈ addEdges adj members a, b < n :=
  insertPairs_bound (upairs members) adj hb
    (fun pr hpr => ⟨hm _ (upairs_mem hpr).1, hm _ (upairs_mem hpr).2⟩)

/-- Node resolution produces a symmetric component adjacency. -/
theorem adjacencyOf_symm (comps : List Component) (wires : List Wire) :
    ∀ a b, b ∈ adjacencyOf comps wires a → a ∈ adjacencyOf comps wires b := by
  have main : ∀ (nids : List String) (adj : Nat → List Nat),
      (∀ a b, b ∈ adj a → a ∈ adj b) →
      ∀ a b, b ∈ nids.foldl
          (fun adj nid => addEdges adj (node_members comps wires nid)) adj a →
        a ∈ nids.foldl
          (fun adj nid => addEdges adj (node_members comps wires nid)) adj b := by
    intro nids
    induction nids with
    | nil => exact fun adj h => h
    | cons nid nids ih => exact fun adj hsym => ih _ (addEdges_symm hsym _)
  exact main (nodeIdsList comps wires) (fun _ => [])
    (fun a b h => absurd h (List.not_mem_nil b))

/-- Elements of the deduplicated list come from the original. -/
theorem dedupKeepFirst_subset {α : Type} [DecidableEq α] :
    ∀ {l : List α} {x : α}, x ∈ dedupKeepFirst l → x ∈ l
  | y :: ys, x, h => by
    rw [dedupKeepFirst] at h
    rcases List.mem_cons.mp h with rfl | h
    · exact List.mem_cons_self x ys
    · exact List.mem_cons_of_mem y (dedupKeepFirst_subset (List.mem_of_mem_filter h))

/-- A nonempty list has a last element. -/
theorem exists_getLast?_mem {α : Type} : ∀ {l : List α}, l ≠ [] →
    ∃ a ∈ l, l.getLast? = some a
  | [], h => absurd rfl h
  | [x], _ => ⟨x, List.mem_singleton.mpr rfl, rfl⟩
  | x :: y :: t, _ => by
    obtain ⟨a, ha, hl⟩ := exists_getLast?_mem (l := y :: t) (by simp)
    exact ⟨a, List.mem_cons_of_mem x ha,
      by rw [List.getLast?_cons_cons]; exact hl⟩

/-- Every value of `terminal_component` is a raw terminal assignment. -/
theorem term_entries_snd {comps : List Component} {wires : List Wire}
    {p : String × Nat} (hp : p ∈ term_entries comps wires) :
    ∃ q ∈ termRaw comps wires, q.2 = p.2 := by
  unfold term_entries at hp
  obtain ⟨t, ht, rfl⟩ := List.mem_map.mp hp
  obtain ⟨q0, hq0, hq0t⟩ : ∃ q ∈ termRaw comps wires, q.1 = t := by
    obtain ⟨q, hq, rfl⟩ := List.mem_map.mp (dedupKeepFirst_subset ht)
    exact ⟨q, hq, rfl⟩
  have hfne : (termRaw comps wires).filter (fun p => p.1 = t) ≠ [] := by
    intro h0
    have hmem : q0 ∈ (termRaw comps wires).filter (fun p => p.1 = t) :=
      List.mem_filter.mpr ⟨hq0, decide_eq_true hq0t⟩
    rw [h0] at hmem
    cases hmem
  obtain ⟨q, hq, hql⟩ := exists_getLast?_mem hfne
  refine ⟨q, List.mem_of_mem_filter hq, ?_⟩
  dsimp only
  rw [hql]
  rfl

/-- Raw terminal assignments point at attached components, which the
well-formedness hypothesis bounds. -/
theorem termRaw_snd_bound {comps : List Component} {wires : List Wire}
    (hwf : WFWires comps wires) {q : String × Nat}
    (hq : q ∈ termRaw comps wires) : q.2 < comps.length := by
  unfold termRaw at hq
  rw [List.mem_flatten] at hq
  obtain ⟨lc, hlc, hqlc⟩ := hq
  obtain ⟨r, _, rfl⟩ := List.mem_map.mp hlc
  unfold clusterTerms at hqlc
  rw [List.mem_flatten] at hqlc
  obtain ⟨lw, hlw, hqlw⟩ := hqlc
  obtain ⟨wi, _, rfl⟩ := List.mem_map.mp hlw
  obtain ⟨a, ha, rfl⟩ := List.mem_map.mp hqlw
  rw [List.mem_filterMap] at ha
  obtain ⟨o, ho, hoa⟩ := ha
  by_cases hwi2 : wi < wires.length
  · have hw : wAt wires wi ∈ wires := by
      unfold wAt
      rw [List.getD_eq_getElem?_getD, List.getElem?_eq_getElem hwi2]
      exact List.getElem_mem hwi2
    have hall := hwf (wAt wires wi) hw o ho
    rw [show (id o : Option (Nat × String)) = o from rfl] at hoa
    subst hoa
    simpa using hall
  · have hwdef : wAt wires wi = ⟨[], []⟩ := by
      unfold wAt
      rw [List.getD_eq_getElem?_getD, List.getElem?_eq_none (by omega)]
      rfl
    rw [hwdef] at ho
    cases ho

/-- Members of every electrical node are bounded by the component count. -/
theorem node_members_bound {comps : List Component} {wires : List Wire}
    (hwf : WFWires comps wires) (nid : String) :
    ∀ m ∈ node_members comps wires nid, m < comps.length := by
  intro m hm
  unfold node_members at hm
  obtain ⟨p, hp, rfl⟩ := List.mem_map.mp (dedupKeepFirst_subset hm)
  obtain ⟨q, hq, hq2⟩ := term_entries_snd (List.mem_of_mem_filter hp)
  rw [← hq2]
  exact termRaw_snd_bound hwf hq

/-- Node resolution produces a component adjacency bounded by the component
count. -/
theorem adjacencyOf_bound (comps : List Component) (wires : List Wire)
    (hwf : WFWires comps wires) :
    ∀ a, ∀ b ∈ adjacencyOf comps wires a, b < comps.length := by
  have main : ∀ (nids : List String) (adj : Nat → List Nat),
      (∀ a, ∀ b ∈ adj a, b < comps.length) →
      ∀ a, ∀ b ∈ nids.foldl
          (fun adj nid => addEdges adj (node_members comps wires nid)) adj a,
        b < comps.length := by
    intro nids
    induction nids with
    | nil => exact fun adj h => h
    | cons nid nids ih =>
      exact fun adj hb => ih _ (addEdges_bound hb (node_members_bound hwf nid))
  exact main (nodeIdsList comps wires) (fun _ => [])
    (fun a b h => absurd h (List.not_mem_nil b))

theorem getD_append_cons {α : Type} (d : α) :
    ∀ (pre : List α) (i : α) (post : List α),
      (pre ++ i :: post).getD pre.length d = i
  | [], i, post => List.getD_cons_zero
  | x :: pre, i, post => by
    rw [List.cons_append, List.length_cons, List.getD_cons_succ]
    exact getD_append_cons d pre i post

theorem range_getD {n k : Nat} (h : k < n) : (List.range n).getD k 0 = k := by
  rw [List.getD_eq_getElem?_getD, List.getElem?_range h]
  rfl

theorem getD_mem_of_lt {α : Type} {l : List α} {j : Nat} (d : α)
    (h : j < l.length) : l.getD j d ∈ l := by
  rw [List.getD_eq_getElem?_getD, List.getElem?_eq_getElem h]
  exact List.getElem_mem h

/-- Splitting `List.range n` at an element: the element is its own index
and everything smaller sits in the prefix. -/
theorem range_decomp {n : Nat} {pre post : List Nat} {i : Nat}
    (h : List.range n = pre ++ i :: post) :
    i < n ∧ ∀ j < i, j ∈ pre := by
  have hlen : n = pre.length + (post.length + 1) := by
    have hc := congrArg List.length h
    simpa [List.length_append] using hc
  have hpl : pre.length < n := by omega
  have hi : i = pre.length := by
    have h1 := congrArg (fun l => l.getD pre.length 0) h
    dsimp only at h1
    rw [range_getD hpl, getD_append_cons] at h1
    exact h1.symm
  subst hi
  refine ⟨hpl, ?_⟩
  intro j hj
  have hjn : j < n := by omega
  have h2 := congrArg (fun l => l.getD j 0) h
  dsimp only at h2
  rw [range_getD hjn, List.getD_append _ _ _ _ hj] at h2
  rw [h2]
  exact getD_mem_of_lt 0 hj

/-- C3 (amended: the code's load predicate accepts any non-battery kind
with positive resistance, not only the kinds of `PASSIVE_LOAD_TYPES`): over
well-formed wires, node resolution yields a symmetric component adjacency;
`analyze_circuit` scans components in input order, flood-fills each
unvisited component's connected subgraph, and selects exactly the first
subgraph satisfying all eligibility predicates — size at least 2, at least
one battery, at least one load, no open switch, every member's
wired-terminal count at least its requirement — and when no subgraph
qualifies it returns no active group and status `Open`. -/
theorem scan_first_eligible (comps : List Component) (wires : List Wire)
    (hwf : WFWires comps wires) :
    (∀ a b, b ∈ adjacencyOf comps wires a → a ∈ adjacencyOf comps wires b) ∧
    ((analyze_circuit comps wires).active_group = none →
      (analyze_circuit comps wires).analysis.status = "Open" ∧
      ∀ i < comps.length, ¬ eligibleClass comps (endpoint_count wires)
        (ReachSet (adjacencyOf comps wires) i)) ∧
    (∀ g, (analyze_circuit comps wires).active_group = some g →
      ∃ i < comps.length,
        g.Nodup ∧ (∀ x, x ∈ g ↔ x ∈ ReachSet (adjacencyOf comps wires) i) ∧
        eligibleClass comps (endpoint_count wires)
          (ReachSet (adjacencyOf comps wires) i) ∧
        ∀ j < i, ¬ eligibleClass comps (endpoint_count wires)
          (ReachSet (adjacencyOf comps wires) j)) := by
  have hsym := adjacencyOf_symm comps wires
  have hadjb := adjacencyOf_bound comps wires hwf
  obtain ⟨hnone, hsome⟩ := scanGroups_characterize hadjb hsym
    (List.range comps.length) []
    (fun x hx => absurd hx (List.not_mem_nil x)) List.nodup_nil
    (fun v hv => absurd hv (List.not_mem_nil v))
    (fun v hv => absurd hv (List.not_mem_nil v))
    (fun i hi => List.mem_range.mp hi)
  refine ⟨hsym, ?_, ?_⟩
  · intro hag
    rcases hscan : scanGroups comps (adjacencyOf comps wires)
        (endpoint_count wires) (List.range comps.length) []
      with _ | ⟨⟨g₀, bs, ls⟩⟩
    · constructor
      · simp only [analyze_circuit, hscan]
      · intro i hi
        exact hnone hscan i (List.mem_range.mpr hi)
    · exfalso
      simp only [analyze_circuit, hscan] at hag
      cases hag
  · intro g hg
    rcases hscan : scanGroups comps (adjacencyOf comps wires)
        (endpoint_count wires) (List.range comps.length) []
      with _ | ⟨⟨g₀, bs, ls⟩⟩
    · exfalso
      simp only [analyze_circuit, hscan] at hg
      cases hg
    · have hgg : g = g₀ := by
        simp only [analyze_circuit, hscan] at hg
        exact (Option.some.injEq _ _ ▸ hg).symm
      subst hgg
      obtain ⟨pre, i, post, hdec, hpre, helig, hnd, hgS⟩ := hsome g bs ls hscan
      obtain ⟨hin, hjpre⟩ := range_decomp hdec
      exact ⟨i, hin, hnd, hgS, helig, fun j hj => hpre j (hjpre j hj)⟩

/-- Witness for C3's amended scan characterization at the counterexample
snapshot (a battery and a positive-resistance capacitor in a loop). -/
theorem scan_first_eligible_witness :
    WFWires c3comps c3wires ∧
    ((∀ a b, b ∈ adjacencyOf c3comps c3wires a →
        a ∈ adjacencyOf c3comps c3wires b) ∧
    ((analyze_circuit c3comps c3wires).active_group = none →
      (analyze_circuit c3comps c3wires).analysis.status = "Open" ∧
      ∀ i < c3comps.length, ¬ eligibleClass c3comps (endpoint_count c3wires)
        (ReachSet (adjacencyOf c3comps c3wires) i)) ∧
    (∀ g, (analyze_circuit c3comps c3wires).active_group = some g →
      ∃ i < c3comps.length,
        g.Nodup ∧ (∀ x, x ∈ g ↔ x ∈ ReachSet (adjacencyOf c3comps c3wires) i) ∧
        eligibleClass c3comps (endpoint_count c3wires)
          (ReachSet (adjacencyOf c3comps c3wires) i) ∧
        ∀ j < i, ¬ eligibleClass c3comps (endpoint_count c3wires)
          (ReachSet (adjacencyOf c3comps c3wires) j))) :=
  ⟨by unfold WFWires; decide,
    scan_first_eligible c3comps c3wires (by unfold WFWires; decide)⟩

/-! ### Claim C9: union-find theory -/

section UnionFindTheory

variable {α : Type} [DecidableEq α]

/-- One parent-chasing step of a union-find parent map. -/
def UFStep (p : α → α) (x y : α) : Prop := p x ≠ x ∧ y = p x

/-- The parent map is a forest: some rank strictly decreases along parent
edges. -/
def UFAcyclic (p : α → α) : Prop :=
  ∃ rank : α → Nat, ∀ x, p x ≠ x → rank (p x) < rank x

/-- The parent map moves only elements of `S`, and only onto elements of
`S`. -/
def UFSupp (p : α → α) (S : List α) : Prop :=
  (∀ x, x ∉ S → p x = x) ∧ ∀ x, p x = x ∨ p x ∈ S

theorem ufstep_fix {p : α → α} {r x : α} (hr : p r = r)
    (h : Relation.ReflTransGen (UFStep p) r x) : x = r := by
  induction h with
  | refl => rfl
  | tail _ hstep ih =>
    rw [ih] at hstep
    exact absurd hr hstep.1

theorem reach_in_supp {p : α → α} {S : List α} (hs : UFSupp p S) {x r : α}
    (hx : x ∈ S) (h : Relation.ReflTransGen (UFStep p) x r) : r ∈ S := by
  induction h with
  | refl => exact hx
  | @tail b c _ hstep _ =>
    rcases hs.2 b with hfix | hmem
    · exact absurd hfix hstep.1
    · rw [hstep.2]
      exact hmem

theorem uf_root_unique {p : α → α} {r1 : α} :
    ∀ {x r2 : α}, Relation.ReflTransGen (UFStep p) x r1 → p r1 = r1 →
    Relation.ReflTransGen (UFStep p) x r2 → p r2 = r2 → r1 = r2 := by
  intro x r2 h1 hf1
  induction h1 using Relation.ReflTransGen.head_induction_on with
  | refl =>
    intro h2 hf2
    exact (ufstep_fix hf1 h2).symm
  | @head a b hstep _ ih =>
    intro h2 hf2
    rcases Relation.ReflTransGen.cases_head h2 with heq | ⟨b2, hstep2, h2t⟩
    · subst heq
      exact absurd hf2 hstep.1
    · rw [hstep2.2, ← hstep.2] at h2t
      exact ih h2t hf2

theorem uf_find_reaches {p : α → α} {rank : α → Nat}
    (hrank : ∀ x, p x ≠ x → rank (p x) < rank x) :
    ∀ (fuel : Nat) (x : α), rank x < fuel →
      p (uf_find fuel p x) = uf_find fuel p x ∧
      Relation.ReflTransGen (UFStep p) x (uf_find fuel p x)
  | 0, x, h => absurd h (by omega)
  | fuel + 1, x, h => by
    rw [uf_find]
    by_cases hx : p x = x
    · rw [if_pos hx]
      exact ⟨hx, Relation.ReflTransGen.refl⟩
    · rw [if_neg hx]
      obtain ⟨h1, h2⟩ := uf_find_reaches hrank fuel (p x)
        (by have := hrank x hx; omega)
      exact ⟨h1, Relation.ReflTransGen.head ⟨hx, rfl⟩ h2⟩

theorem uf_find_id (fuel : Nat) (x : α) : uf_find fuel (fun z : α => z) x = x := by
  cases fuel with
  | zero => rfl
  | succ f => rw [uf_find, if_pos rfl]

theorem uf_reach_rank_le {p : α → α} {rank : α → Nat}
    (hrank : ∀ x, p x ≠ x → rank (p x) < rank x) {a b : α}
    (h : Relation.ReflTransGen (UFStep p) a b) : rank b ≤ rank a := by
  induction h with
  | refl => exact le_refl _
  | @tail b c _ hstep ih =>
    rw [hstep.2]
    exact le_trans (le_of_lt (hrank b hstep.1)) ih

/-- Over a finite support an acyclic parent map has a rank bounded by the
support size. -/
theorem uf_rank_bounded {p : α → α} {S : List α} (hs : UFSupp p S)
    (ha : UFAcyclic p) :
    ∃ rank : α → Nat, (∀ x, p x ≠ x → rank (p x) < rank x) ∧
      ∀ x, rank x ≤ S.length := by
  classical
  obtain ⟨rank0, hr0⟩ := ha
  refine ⟨fun x => (S.toFinset.filter
    (fun y => Relation.ReflTransGen (UFStep p) x y)).card, ?_, ?_⟩
  · intro x hx
    apply Finset.card_lt_card
    have hsub : S.toFinset.filter
        (fun y => Relation.ReflTransGen (UFStep p) (p x) y) ⊆
        S.toFinset.filter (fun y => Relation.ReflTransGen (UFStep p) x y) := by
      intro y hy
      rw [Finset.mem_filter] at hy ⊢
      exact ⟨hy.1, Relation.ReflTransGen.head ⟨hx, rfl⟩ hy.2⟩
    rw [Finset.ssubset_iff_of_subset hsub]
    refine ⟨x, ?_, ?_⟩
    · rw [Finset.mem_filter]
      refine ⟨List.mem_toFinset.mpr ?_, Relation.ReflTransGen.refl⟩
      by_contra hxS
      exact hx (hs.1 x hxS)
    · intro hmem
      rw [Finset.mem_filter] at hmem
      have hle := uf_reach_rank_le hr0 hmem.2
      have := hr0 x hx
      omega
  · intro x
    calc (S.toFinset.filter
        (fun y => Relation.ReflTransGen (UFStep p) x y)).card
        ≤ S.toFinset.card := Finset.card_le_card (Finset.filter_subset _ _)
      _ ≤ S.length := List.toFinset_card_le S

theorem eqvGen_mono_rel {r s : α → α → Prop}
    (h : ∀ u v, r u v → Relation.EqvGen s u v) :
    ∀ {x y : α}, Relation.EqvGen r x y → Relation.EqvGen s x y := by
  intro x y hxy
  induction hxy with
  | rel _ _ hr => exact h _ _ hr
  | refl z => exact Relation.EqvGen.refl z
  | symm _ _ _ ih => exact Relation.EqvGen.symm _ _ ih
  | trans _ _ _ _ _ ih1 ih2 => exact Relation.EqvGen.trans _ _ _ ih1 ih2

theorem eqvGen_le_equiv {r s : α → α → Prop} (hrefl : ∀ x, s x x)
    (hsymm : ∀ x y, s x y → s y x)
    (htrans : ∀ x y z, s x y → s y z → s x z)
    (hsub : ∀ x y, r x y → s x y) :
    ∀ {x y : α}, Relation.EqvGen r x y → s x y := by
  intro x y h
  induction h with
  | rel _ _ hr => exact hsub _ _ hr
  | refl z => exact hrefl z
  | symm _ _ _ ih => exact hsymm _ _ ih
  | trans _ _ _ _ _ ih1 ih2 => exact htrans _ _ _ ih1 ih2

/-- One union keeps the support and acyclicity invariants and reroots
exactly the class of `b` onto the root of `a`. -/
theorem uf_union_spec {p : α → α} {S : List α} {fuel : Nat} (hs : UFSupp p S)
    (ha : UFAcyclic p) (hfuel : S.length < fuel) {a b : α} (haS : a ∈ S)
    (hbS : b ∈ S) :
    UFSupp (uf_union fuel p a b) S ∧ UFAcyclic (uf_union fuel p a b) ∧
    ∀ x, uf_find fuel (uf_union fuel p a b) x =
      if uf_find fuel p x = uf_find fuel p b then uf_find fuel p a
      else uf_find fuel p x := by
  classical
  obtain ⟨rank, hrank, hbd⟩ := uf_rank_bounded hs ha
  have hroot : ∀ x, p (uf_find fuel p x) = uf_find fuel p x ∧
      Relation.ReflTransGen (UFStep p) x (uf_find fuel p x) :=
    fun x => uf_find_reaches hrank fuel x (lt_of_le_of_lt (hbd x) hfuel)
  have hraS : uf_find fuel p a ∈ S := reach_in_supp hs haS (hroot a).2
  have hrbS : uf_find fuel p b ∈ S := reach_in_supp hs hbS (hroot b).2
  by_cases hab : uf_find fuel p a = uf_find fuel p b
  · have hu : uf_union fuel p a b = p := by
      unfold uf_union
      rw [if_pos hab]
    rw [hu]
    refine ⟨hs, ha, fun x => ?_⟩
    by_cases hxb : uf_find fuel p x = uf_find fuel p b
    · rw [if_pos hxb]
      exact hxb.trans hab.symm
    · rw [if_neg hxb]
  · have hu : uf_union fuel p a b =
        Function.update p (uf_find fuel p b) (uf_find fuel p a) := by
      unfold uf_union
      rw [if_neg hab]
    rw [hu]
    have hpne : ∀ z, z ≠ uf_find fuel p b →
        Function.update p (uf_find fuel p b) (uf_find fuel p a) z = p z := by
      intro z hz
      rw [Function.update_apply, if_neg hz]
    have hprb : Function.update p (uf_find fuel p b) (uf_find fuel p a)
        (uf_find fuel p b) = uf_find fuel p a := by
      rw [Function.update_apply, if_pos rfl]
    have hlift : ∀ {u v : α}, Relation.ReflTransGen (UFStep p) u v →
        Relation.ReflTransGen
          (UFStep (Function.update p (uf_find fuel p b) (uf_find fuel p a))) u v := by
      intro u v h
      induction h with
      | refl => exact Relation.ReflTransGen.refl
      | @tail y c _ hstep ih =>
        have hyb : y ≠ uf_find fuel p b := fun he =>
          hstep.1 (by rw [he]; exact (hroot b).1)
        refine Relation.ReflTransGen.tail ih ⟨?_, ?_⟩
        · rw [hpne y hyb]
          exact hstep.1
        · rw [hpne y hyb]
          exact hstep.2
    have hsupp2 : UFSupp
        (Function.update p (uf_find fuel p b) (uf_find fuel p a)) S := by
      constructor
      · intro z hzS
        have hzb : z ≠ uf_find fuel p b := fun he => hzS (he ▸ hrbS)
        rw [hpne z hzb]
        exact hs.1 z hzS
      · intro z
        by_cases hzb : z = uf_find fuel p b
        · subst hzb
          rw [hprb]
          exact Or.inr hraS
        · rw [hpne z hzb]
          exact hs.2 z
    have hacy2 : UFAcyclic
        (Function.update p (uf_find fuel p b) (uf_find fuel p a)) := by
      refine ⟨fun z => if Relation.ReflTransGen (UFStep p) z (uf_find fuel p b)
        then rank z + rank (uf_find fuel p a) + 1 else rank z, ?_⟩
      intro z hz
      dsimp only
      by_cases hzb : z = uf_find fuel p b
      · subst hzb
        rw [hprb]
        have hnra : ¬ Relation.ReflTransGen (UFStep p) (uf_find fuel p a)
            (uf_find fuel p b) := fun h => hab (ufstep_fix (hroot a).1 h).symm
        rw [if_neg hnra, if_pos Relation.ReflTransGen.refl]
        omega
      · rw [hpne z hzb] at hz ⊢
        by_cases hzr : Relation.ReflTransGen (UFStep p) z (uf_find fuel p b)
        · have hpzr : Relation.ReflTransGen (UFStep p) (p z)
              (uf_find fuel p b) := by
            rcases Relation.ReflTransGen.cases_head hzr with heq | ⟨c, hstep, ht⟩
            · exact absurd heq hzb
            · exact hstep.2 ▸ ht
          rw [if_pos hzr, if_pos hpzr]
          have := hrank z hz
          omega
        · have hpzr : ¬ Relation.ReflTransGen (UFStep p) (p z)
              (uf_find fuel p b) :=
            fun h => hzr (Relation.ReflTransGen.head ⟨hz, rfl⟩ h)
          rw [if_neg hzr, if_neg hpzr]
          exact hrank z hz
    obtain ⟨rank2, hrank2, hbd2⟩ := uf_rank_bounded hsupp2 hacy2
    have hroot2 : ∀ x,
        Function.update p (uf_find fuel p b) (uf_find fuel p a)
          (uf_find fuel
            (Function.update p (uf_find fuel p b) (uf_find fuel p a)) x) =
          uf_find fuel
            (Function.update p (uf_find fuel p b) (uf_find fuel p a)) x ∧
        Relation.ReflTransGen
          (UFStep (Function.update p (uf_find fuel p b) (uf_find fuel p a))) x
          (uf_find fuel
            (Function.update p (uf_find fuel p b) (uf_find fuel p a)) x) :=
      fun x => uf_find_reaches hrank2 fuel x (lt_of_le_of_lt (hbd2 x) hfuel)
    refine ⟨hsupp2, hacy2, fun x => ?_⟩
    by_cases hxb : uf_find fuel p x = uf_find fuel p b
    · rw [if_pos hxb]
      have hreach2 : Relation.ReflTransGen
          (UFStep (Function.update p (uf_find fuel p b) (uf_find fuel p a))) x
          (uf_find fuel p a) := by
        refine Relation.ReflTransGen.tail (hxb ▸ hlift (hroot x).2) ⟨?_, ?_⟩
        · rw [hprb]
          exact fun h => hab h
        · rw [hprb]
      have hfix2 : Function.update p (uf_find fuel p b) (uf_find fuel p a)
          (uf_find fuel p a) = uf_find fuel p a := by
        rw [hpne _ hab]
        exact (hroot a).1
      exact uf_root_unique (hroot2 x).2 (hroot2 x).1 hreach2 hfix2
    · rw [if_neg hxb]
      have hfix2 : Function.update p (uf_find fuel p b) (uf_find fuel p a)
          (uf_find fuel p x) = uf_find fuel p x := by
        rw [hpne _ hxb]
        exact (hroot x).1
      exact uf_root_unique (hroot2 x).2 (hroot2 x).1 (hlift (hroot x).2) hfix2

/-- The partition after one union: two elements share a root exactly when
they already did, or both sat in the classes being merged. -/
theorem uf_union_root_iff {p : α → α} {S : List α} {fuel : Nat} (hs : UFSupp p S)
    (ha : UFAcyclic p) (hfuel : S.length < fuel) {a b : α} (haS : a ∈ S)
    (hbS : b ∈ S) :
    ∀ x y, uf_find fuel (uf_union fuel p a b) x =
        uf_find fuel (uf_union fuel p a b) y ↔
      (uf_find fuel p x = uf_find fuel p y ∨
        ((uf_find fuel p x = uf_find fuel p a ∨
          uf_find fuel p x = uf_find fuel p b) ∧
         (uf_find fuel p y = uf_find fuel p a ∨
          uf_find fuel p y = uf_find fuel p b))) := by
  intro x y
  obtain ⟨-, -, hform⟩ := uf_union_spec hs ha hfuel haS hbS
  rw [hform x, hform y]
  by_cases hxb : uf_find fuel p x = uf_find fuel p b <;>
    by_cases hyb : uf_find fuel p y = uf_find fuel p b
  · rw [if_pos hxb, if_pos hyb]
    constructor
    · intro _
      exact Or.inr ⟨Or.inr hxb, Or.inr hyb⟩
    · intro _
      rfl
  · rw [if_pos hxb, if_neg hyb]
    constructor
    · intro h
      exact Or.inr ⟨Or.inr hxb, Or.inl h.symm⟩
    · rintro (h | ⟨_, hy2⟩)
      · exact absurd (h.symm.trans hxb) hyb
      · rcases hy2 with hy2 | hy2
        · exact hy2.symm
        · exact absurd hy2 hyb
  · rw [if_neg hxb, if_pos hyb]
    constructor
    · intro h
      exact Or.inr ⟨Or.inl h, Or.inr hyb⟩
    · rintro (h | ⟨hx2, _⟩)
      · exact absurd (h.trans hyb) hxb
      · rcases hx2 with hx2 | hx2
        · exact hx2
        · exact absurd hx2 hxb
  · rw [if_neg hxb, if_neg hyb]
    constructor
    · exact fun h => Or.inl h
    · rintro (h | ⟨hx2, hy2⟩)
      · exact h
      · rcases hx2 with hx2 | hx2
        · rcases hy2 with hy2 | hy2
          · exact hx2.trans hy2.symm
          · exact absurd hy2 hyb
        · exact absurd hx2 hxb

/-- Processing a list of unions: the final partition is the equivalence
closure of the initial partition joined with the processed pairs. -/
theorem uf_unions_spec {S : List α} {fuel : Nat} (hfuel : S.length < fuel) :
    ∀ (prs : List (α × α)) (p : α → α), UFSupp p S → UFAcyclic p →
    (∀ pr ∈ prs, pr.1 ∈ S ∧ pr.2 ∈ S) →
    UFSupp (uf_unions fuel prs p) S ∧ UFAcyclic (uf_unions fuel prs p) ∧
    (∀ x y, uf_find fuel (uf_unions fuel prs p) x =
        uf_find fuel (uf_unions fuel prs p) y ↔
      Relation.EqvGen
        (fun u v => uf_find fuel p u = uf_find fuel p v ∨ (u, v) ∈ prs) x y)
  | [], p, hs, ha, _ => by
    refine ⟨hs, ha, fun x y => ?_⟩
    rw [show uf_unions fuel [] p = p from rfl]
    constructor
    · intro h
      exact Relation.EqvGen.rel x y (Or.inl h)
    · intro h
      induction h with
      | rel u v hr =>
        rcases hr with hr | hr
        · exact hr
        · cases hr
      | refl z => rfl
      | symm _ _ _ ih => exact ih.symm
      | trans _ _ _ _ _ ih1 ih2 => exact ih1.trans ih2
  | ⟨a, b⟩ :: prs, p, hs, ha, hprs => by
    obtain ⟨hs1, ha1, hform⟩ := uf_union_spec hs ha hfuel
      (hprs (a, b) (List.mem_cons_self (a, b) prs)).1
      (hprs (a, b) (List.mem_cons_self (a, b) prs)).2
    have hiff := uf_union_root_iff hs ha hfuel
      (hprs (a, b) (List.mem_cons_self (a, b) prs)).1
      (hprs (a, b) (List.mem_cons_self (a, b) prs)).2
    obtain ⟨hs2, ha2, hrec⟩ := uf_unions_spec hfuel prs
      (uf_union fuel p a b) hs1 ha1
      (fun q hq => hprs q (List.mem_cons_of_mem (a, b) hq))
    rw [show uf_unions fuel ((a, b) :: prs) p =
      uf_unions fuel prs (uf_union fuel p a b) from rfl]
    refine ⟨hs2, ha2, fun x y => ?_⟩
    rw [hrec x y]
    constructor
    · refine eqvGen_mono_rel ?_
      rintro u v (h | h)
      · rcases (hiff u v).mp h with h2 | ⟨hu2, hv2⟩
        · exact Relation.EqvGen.rel u v (Or.inl h2)
        · have hua : Relation.EqvGen (fun u v =>
              uf_find fuel p u = uf_find fuel p v ∨ (u, v) ∈ (a, b) :: prs) u a := by
            rcases hu2 with hu2 | hu2
            · exact Relation.EqvGen.rel _ _ (Or.inl hu2)
            · exact Relation.EqvGen.trans _ _ _
                (Relation.EqvGen.rel _ _ (Or.inl hu2))
                (Relation.EqvGen.symm _ _ (Relation.EqvGen.rel _ _
                  (Or.inr (List.mem_cons_self (a, b) prs))))
          have hva : Relation.EqvGen (fun u v =>
              uf_find fuel p u = uf_find fuel p v ∨ (u, v) ∈ (a, b) :: prs) v a := by
            rcases hv2 with hv2 | hv2
            · exact Relation.EqvGen.rel _ _ (Or.inl hv2)
            · exact Relation.EqvGen.trans _ _ _
                (Relation.EqvGen.rel _ _ (Or.inl hv2))
                (Relation.EqvGen.symm _ _ (Relation.EqvGen.rel _ _
                  (Or.inr (List.mem_cons_self (a, b) prs))))
          exact Relation.EqvGen.trans _ _ _ hua (Relation.EqvGen.symm _ _ hva)
      · exact Relation.EqvGen.rel u v (Or.inr (List.mem_cons_of_mem (a, b) h))
    · refine eqvGen_mono_rel ?_
      rintro u v (h | h)
      · exact Relation.EqvGen.rel u v (Or.inl ((hiff u v).mpr (Or.inl h)))
      · rcases List.mem_cons.mp h with heq | h
        · refine Relation.EqvGen.rel u v (Or.inl ((hiff u v).mpr (Or.inr ?_)))
          have h1 : u = a := congrArg Prod.fst heq
          have h2 : v = b := congrArg Prod.snd heq
          subst h1
          subst h2
          exact ⟨Or.inl rfl, Or.inr rfl⟩
        · exact Relation.EqvGen.rel u v (Or.inr h)

/-- The union-find built from the identity by a list of unions realizes
exactly the equivalence closure of the pair list. -/
theorem uf_unions_id_roots {S : List α} {fuel : Nat} (hfuel : S.length < fuel)
    (prs : List (α × α)) (hprs : ∀ pr ∈ prs, pr.1 ∈ S ∧ pr.2 ∈ S) :
    ∀ x y, uf_find fuel (uf_unions fuel prs id) x =
        uf_find fuel (uf_unions fuel prs id) y ↔
      Relation.EqvGen (fun u v => u = v ∨ (u, v) ∈ prs) x y := by
  have hid : (id : α → α) = fun z : α => z := rfl
  obtain ⟨-, -, hiff⟩ := uf_unions_spec hfuel prs (id : α → α)
    ⟨fun _ _ => rfl, fun _ => Or.inl rfl⟩
    ⟨fun _ => 0, fun x h => absurd rfl h⟩ hprs
  intro x y
  rw [hiff x y]
  have hrel : (fun u v : α => uf_find fuel id u = uf_find fuel id v ∨
      (u, v) ∈ prs) = fun u v : α => u = v ∨ (u, v) ∈ prs := by
    funext u v
    rw [hid, uf_find_id, uf_find_id]
  rw [hrel]

end UnionFindTheory

/-! ### Claim C9: the two union-finds of node resolution -/

theorem wireLinkPairs_bound {wires : List Wire} {q : Nat × Nat}
    (hq : q ∈ wireLinkPairs wires) : q.1 < wires.length ∧ q.2 < wires.length := by
  unfold wireLinkPairs at hq
  rw [List.mem_flatten] at hq
  obtain ⟨l1, hl1, hq1⟩ := hq
  obtain ⟨iw, hiw, rfl⟩ := List.mem_map.mp hl1
  rw [List.mem_flatten] at hq1
  obtain ⟨l2, hl2, hq2⟩ := hq1
  obtain ⟨ls, _, rfl⟩ := List.mem_map.mp hl2
  rw [List.mem_filterMap] at hq2
  obtain ⟨lw, _, hlw2⟩ := hq2
  by_cases hb : lw.1 < wires.length
  · rw [if_pos hb] at hlw2
    injection hlw2 with h
    subst h
    exact ⟨(List.mem_enum hiw).1, hb⟩
  · rw [if_neg hb] at hlw2
    cases hlw2

/-- The wire clusters realize the equivalence closure of the link pairs. -/
theorem wireRoot_iff (wires : List Wire) (i j : Nat) :
    wireRoot wires i = wireRoot wires j ↔
      Relation.EqvGen (fun u v => u = v ∨ (u, v) ∈ wireLinkPairs wires) i j := by
  unfold wireRoot wire_parents
  exact uf_unions_id_roots
    (show (List.range wires.length).length < wireFindFuel wires from by
      rw [List.length_range]
      exact Nat.lt_succ_self _)
    (wireLinkPairs wires)
    (fun pr hpr => ⟨List.mem_range.mpr (wireLinkPairs_bound hpr).1,
      List.mem_range.mpr (wireLinkPairs_bound hpr).2⟩) i j

theorem clusterWires_mem {wires : List Wire} {r wi : Nat} :
    wi ∈ clusterWires wires r ↔ wi < wires.length ∧ wireRoot wires wi = r := by
  unfold clusterWires
  rw [List.mem_filter, List.mem_range]
  constructor
  · rintro ⟨h1, h2⟩
    exact ⟨h1, of_decide_eq_true h2⟩
  · rintro ⟨h1, h2⟩
    exact ⟨h1, decide_eq_true h2⟩

/-- The terminal pairs of one cluster come from the raw terminal list. -/
theorem clusterTerms_sub_termRaw {comps : List Component} {wires : List Wire}
    {r : Nat} (hr : r ∈ clusterRootsList wires) {q : String × Nat}
    (hq : q ∈ clusterTerms comps wires (clusterWires wires r)) :
    q ∈ termRaw comps wires := by
  unfold termRaw
  rw [List.mem_flatten]
  exact ⟨_, List.mem_map_of_mem _ hr, hq⟩

theorem term_pairs_bound {comps : List Component} {wires : List Wire}
    {pr : String × String} (hpr : pr ∈ term_pairs comps wires) :
    pr.1 ∈ (termRaw comps wires).map Prod.fst ∧
    pr.2 ∈ (termRaw comps wires).map Prod.fst := by
  unfold term_pairs at hpr
  rw [List.mem_flatten] at hpr
  obtain ⟨l, hl, hprl⟩ := hpr
  obtain ⟨r, hr, rfl⟩ := List.mem_map.mp hl
  unfold termPairsOfCluster at hprl
  rcases hts : (clusterTerms comps wires (clusterWires wires r)).map Prod.fst
    with _ | ⟨t0, ts⟩
  · rw [hts] at hprl
    cases hprl
  · rw [hts] at hprl
    obtain ⟨t, ht, rfl⟩ := List.mem_map.mp hprl
    have hmem : ∀ u ∈ t0 :: ts, u ∈ (termRaw comps wires).map Prod.fst := by
      intro u hu
      rw [← hts] at hu
      obtain ⟨q, hq, rfl⟩ := List.mem_map.mp hu
      exact List.mem_map_of_mem _ (clusterTerms_sub_termRaw hr hq)
    exact ⟨hmem t0 (List.mem_cons_self t0 ts), hmem t (List.mem_cons_of_mem t0 ht)⟩

/-- The electrical nodes realize the equivalence closure of the terminal
pairs. -/
theorem termRoot_iff (comps : List Component) (wires : List Wire)
    (t t' : String) :
    termRoot comps wires t = termRoot comps wires t' ↔
      Relation.EqvGen
        (fun u v => u = v ∨ (u, v) ∈ term_pairs comps wires) t t' := by
  unfold termRoot terminal_parents
  exact uf_unions_id_roots
    (show ((termRaw comps wires).map Prod.fst).length < termFindFuel comps wires
      from by
        rw [List.length_map]
        exact Nat.lt_succ_self _)
    (term_pairs comps wires)
    (fun pr hpr => ⟨(term_pairs_bound hpr).1, (term_pairs_bound hpr).2⟩) t t'

/-- Elements of the deduplicated list are exactly those of the original. -/
theorem dedupKeepFirst_mem {α : Type} [DecidableEq α] : ∀ {l : List α} {x : α},
    x ∈ dedupKeepFirst l ↔ x ∈ l
  | [], x => by rw [dedupKeepFirst]
  | y :: ys, x => by
    rw [dedupKeepFirst]
    constructor
    · intro h
      rcases List.mem_cons.mp h with rfl | h
      · exact List.mem_cons_self _ _
      · exact List.mem_cons_of_mem y
          (dedupKeepFirst_mem.mp (List.mem_of_mem_filter h))
    · intro h
      rcases List.mem_cons.mp h with rfl | h
      · exact List.mem_cons_self _ _
      · by_cases hxy : x = y
        · subst hxy
          exact List.mem_cons_self x _
        · exact List.mem_cons_of_mem y (List.mem_filter.mpr
            ⟨dedupKeepFirst_mem.mpr h, decide_eq_true hxy⟩)

theorem dedupKeepFirst_nodup {α : Type} [DecidableEq α] :
    ∀ (l : List α), (dedupKeepFirst l).Nodup
  | [] => List.nodup_nil
  | x :: xs => by
    rw [dedupKeepFirst]
    refine List.nodup_cons.mpr ⟨?_, List.Nodup.filter _ (dedupKeepFirst_nodup xs)⟩
    intro hx
    have := List.of_mem_filter hx
    simp at this

/-- Spec-side (C9): terminal `t` is collected from wire `wi`. -/
def CanonTermOfWire (comps : List Component) (wires : List Wire) (t : String)
    (wi : Nat) : Prop :=
  wi < wires.length ∧ ∃ p : Nat × String,
    some p ∈ (wAt wires wi).attachments ∧ t = termId comps p.1 p.2

/-- Spec-side (C9): terminal `t` belongs to component `c` on some wire. -/
def CanonTermAssign (comps : List Component) (wires : List Wire) (t : String)
    (c : Nat) : Prop :=
  ∃ wi < wires.length, ∃ p : Nat × String,
    some p ∈ (wAt wires wi).attachments ∧ t = termId comps p.1 p.2 ∧ c = p.1

/-- Spec-side (C9): two terminals are joined directly when they sit on wires
of the same link cluster. -/
def CanonTermLink (comps : List Component) (wires : List Wire)
    (t t' : String) : Prop :=
  ∃ wi wj, CanonTermOfWire comps wires t wi ∧ CanonTermOfWire comps wires t' wj ∧
    Relation.EqvGen (fun u v => u = v ∨ (u, v) ∈ wireLinkPairs wires) wi wj

/-- The raw terminal assignments of the cluster keyed by `r` are exactly the
terminals of its wires. -/
theorem clusterTerms_mem {comps : List Component} {wires : List Wire} {r : Nat}
    {q : String × Nat} :
    q ∈ clusterTerms comps wires (clusterWires wires r) ↔
      ∃ wi, wi < wires.length ∧ wireRoot wires wi = r ∧
        ∃ p : Nat × String, some p ∈ (wAt wires wi).attachments ∧
          q = (termId comps p.1 p.2, p.1) := by
  unfold clusterTerms
  rw [List.mem_flatten]
  constructor
  · rintro ⟨l, hl, hq⟩
    obtain ⟨wi, hwi, rfl⟩ := List.mem_map.mp hl
    obtain ⟨a, ha, rfl⟩ := List.mem_map.mp hq
    rw [List.mem_filterMap] at ha
    obtain ⟨o, ho, hoa⟩ := ha
    rw [show (id o : Option (Nat × String)) = o from rfl] at hoa
    subst hoa
    obtain ⟨h1, h2⟩ := clusterWires_mem.mp hwi
    exact ⟨wi, h1, h2, a, ho, rfl⟩
  · rintro ⟨wi, h1, h2, p, hp, rfl⟩
    refine ⟨((wAt wires wi).attachments.filterMap id).map
      (fun a => (termId comps a.1 a.2, a.1)), ?_, ?_⟩
    · exact List.mem_map_of_mem _ (clusterWires_mem.mpr ⟨h1, h2⟩)
    · refine List.mem_map_of_mem _ ?_
      rw [List.mem_filterMap]
      exact ⟨some p, hp, rfl⟩

/-- The raw terminal assignments are exactly the wire-attachment
terminals. -/
theorem termRaw_iff {comps : List Component} {wires : List Wire}
    {t : String} {c : Nat} :
    (t, c) ∈ termRaw comps wires ↔ CanonTermAssign comps wires t c := by
  unfold termRaw
  rw [List.mem_flatten]
  constructor
  · rintro ⟨l, hl, hq⟩
    obtain ⟨r, _, rfl⟩ := List.mem_map.mp hl
    obtain ⟨wi, h1, _, p, hp, heq⟩ := clusterTerms_mem.mp hq
    refine ⟨wi, h1, p, hp, ?_, ?_⟩
    · exact congrArg Prod.fst heq
    · exact congrArg Prod.snd heq
  · rintro ⟨wi, h1, p, hp, ht, hc⟩
    refine ⟨clusterTerms comps wires (clusterWires wires (wireRoot wires wi)),
      ?_, ?_⟩
    · refine List.mem_map_of_mem _ ?_
      unfold clusterRootsList
      rw [dedupKeepFirst_mem]
      exact List.mem_map_of_mem _ (List.mem_range.mpr h1)
    · refine clusterTerms_mem.mpr ⟨wi, h1, rfl, p, hp, ?_⟩
      rw [ht, hc]

/-- The raw terminal map is functional: equal terminal identifiers always
carry the same component (no two distinct components share a terminal
id). -/
def TermFunctional (comps : List Component) (wires : List Wire) : Prop :=
  ∀ q ∈ termRaw comps wires, ∀ q' ∈ termRaw comps wires, q.1 = q'.1 → q.2 = q'.2

/-- Under a functional raw terminal map, the `terminal_component` dictionary
holds exactly the raw assignments. -/
theorem term_entries_iff_raw {comps : List Component} {wires : List Wire}
    (hfn : TermFunctional comps wires) (t : String) (c : Nat) :
    (t, c) ∈ term_entries comps wires ↔ (t, c) ∈ termRaw comps wires := by
  constructor
  · intro h
    unfold term_entries at h
    obtain ⟨t', ht', heq⟩ := List.mem_map.mp h
    have htt : t' = t := congrArg Prod.fst heq
    subst htt
    have hval := congrArg Prod.snd heq
    dsimp only at hval
    have ht2 : t' ∈ (termRaw comps wires).map Prod.fst :=
      dedupKeepFirst_subset ht'
    obtain ⟨q0, hq0, hq0t⟩ := List.mem_map.mp ht2
    have hfne : (termRaw comps wires).filter (fun p => p.1 = t') ≠ [] := by
      intro h0
      have hmem : q0 ∈ (termRaw comps wires).filter (fun p => p.1 = t') :=
        List.mem_filter.mpr ⟨hq0, decide_eq_true hq0t⟩
      rw [h0] at hmem
      cases hmem
    obtain ⟨q, hq, hql⟩ := exists_getLast?_mem hfne
    rw [hql] at hval
    have hqt : q.1 = t' := of_decide_eq_true (List.mem_filter.mp hq).2
    have hq2 : q.2 = c := hval
    have : q = (t', c) := by
      rw [show q = (q.1, q.2) from rfl, hqt, hq2]
    rw [← this]
    exact List.mem_of_mem_filter hq
  · intro h
    unfold term_entries
    refine List.mem_map.mpr ⟨t, ?_, ?_⟩
    · rw [dedupKeepFirst_mem]
      exact List.mem_map_of_mem Prod.fst h
    · have hfne : (termRaw comps wires).filter (fun p => p.1 = t) ≠ [] := by
        intro h0
        have hmem : (t, c) ∈ (termRaw comps wires).filter (fun p => p.1 = t) :=
          List.mem_filter.mpr ⟨h, decide_eq_true rfl⟩
        rw [h0] at hmem
        cases hmem
      obtain ⟨q, hq, hql⟩ := exists_getLast?_mem hfne
      have hqt : q.1 = t := of_decide_eq_true (List.mem_filter.mp hq).2
      have hq2 : q.2 = c := hfn q (List.mem_of_mem_filter hq) (t, c) h hqt
      rw [hql, Option.map_some', Option.getD_some, hq2]

theorem insertPairs_mem : ∀ (prs : List (Nat × Nat)) (adj : Nat → List Nat)
    (x y : Nat),
    y ∈ prs.foldl
        (fun m pr => insertNeighbor (insertNeighbor m pr.1 pr.2) pr.2 pr.1) adj x ↔
      y ∈ adj x ∨ ∃ pr ∈ prs, (x, y) = pr ∨ (y, x) = pr
  | [], adj, x, y => by simp
  | pr :: prs, adj, x, y => by
    rw [List.foldl_cons, insertPairs_mem prs _ x y, insert2_mem]
    constructor
    · rintro ((h | ⟨h1, h2⟩ | ⟨h1, h2⟩) | ⟨pr', hpr', h⟩)
      · exact Or.inl h
      · exact Or.inr ⟨pr, List.mem_cons_self pr prs, Or.inl (by rw [h1, h2])⟩
      · exact Or.inr ⟨pr, List.mem_cons_self pr prs, Or.inr (by rw [h1, h2])⟩
      · exact Or.inr ⟨pr', List.mem_cons_of_mem pr hpr', h⟩
    · rintro (h | ⟨pr', hpr', h⟩)
      · exact Or.inl (Or.inl h)
      · rcases List.mem_cons.mp hpr' with rfl | hpr'
        · rcases h with h | h
          · exact Or.inl (Or.inr (Or.inl
              ⟨(congrArg Prod.fst h).symm ▸ rfl, (congrArg Prod.snd h).symm ▸ rfl⟩))
          · exact Or.inl (Or.inr (Or.inr
              ⟨(congrArg Prod.snd h).symm ▸ rfl, (congrArg Prod.fst h).symm ▸ rfl⟩))
        · exact Or.inr ⟨pr', hpr', h⟩

theorem adjacencyOf_mem (comps : List Component) (wires : List Wire)
    (x y : Nat) :
    y ∈ adjacencyOf comps wires x ↔
      ∃ nid ∈ nodeIdsList comps wires,
        ∃ pr ∈ upairs (node_members comps wires nid),
          (x, y) = pr ∨ (y, x) = pr := by
  unfold adjacencyOf
  have main : ∀ (nids : List String) (adj : Nat → List Nat),
      y ∈ nids.foldl
          (fun adj nid => addEdges adj (node_members comps wires nid)) adj x ↔
        y ∈ adj x ∨ ∃ nid ∈ nids,
          ∃ pr ∈ upairs (node_members comps wires nid),
            (x, y) = pr ∨ (y, x) = pr := by
    intro nids
    induction nids with
    | nil =>
      intro adj
      simp
    | cons nid nids ih =>
      intro adj
      rw [List.foldl_cons, ih]
      unfold addEdges
      rw [insertPairs_mem]
      constructor
      · rintro ((h | ⟨pr, hpr, h⟩) | ⟨nid', hnid', hrest⟩)
        · exact Or.inl h
        · exact Or.inr ⟨nid, List.mem_cons_self nid nids, pr, hpr, h⟩
        · exact Or.inr ⟨nid', List.mem_cons_of_mem nid hnid', hrest⟩
      · rintro (h | ⟨nid', hnid', pr, hpr, h⟩)
        · exact Or.inl (Or.inl h)
        · rcases List.mem_cons.mp hnid' with rfl | hnid'
          · exact Or.inl (Or.inr ⟨pr, hpr, h⟩)
          · exact Or.inr ⟨nid', hnid', pr, hpr, h⟩
  rw [main (nodeIdsList comps wires) (fun _ => [])]
  constructor
  · rintro (h | h)
    · cases h
    · exact h
  · exact fun h => Or.inr h

theorem upairs_ne {α : Type} : ∀ {l : List α}, l.Nodup → ∀ {a b : α},
    (a, b) ∈ upairs l → a ≠ b
  | [], _, a, b, h => absurd h (List.not_mem_nil _)
  | x :: xs, hnd, a, b, h => by
    rw [upairs] at h
    rcases List.mem_append.mp h with h | h
    · obtain ⟨y, hy, heq⟩ := List.mem_map.mp h
      have hxa : x = a := congrArg Prod.fst heq
      have hyb : y = b := congrArg Prod.snd heq
      intro hab
      apply (List.nodup_cons.mp hnd).1
      rw [hxa, hab, ← hyb]
      exact hy
    · exact upairs_ne (List.Nodup.of_cons hnd) h

theorem upairs_total {α : Type} : ∀ {l : List α} {a b : α}, a ∈ l → b ∈ l →
    a ≠ b → (a, b) ∈ upairs l ∨ (b, a) ∈ upairs l
  | [], a, _, ha, _, _ => absurd ha (List.not_mem_nil a)
  | x :: xs, a, b, ha, hb, hne => by
    rw [upairs]
    rcases List.mem_cons.mp ha with rfl | ha2
    · have hbxs : b ∈ xs := by
        rcases List.mem_cons.mp hb with rfl | hb2
        · exact absurd rfl hne
        · exact hb2
      exact Or.inl (List.mem_append_left _ (List.mem_map_of_mem _ hbxs))
    · rcases List.mem_cons.mp hb with rfl | hb2
      · exact Or.inr (List.mem_append_left _ (List.mem_map_of_mem _ ha2))
      · rcases upairs_total ha2 hb2 hne with h | h
        · exact Or.inl (List.mem_append_right _ h)
        · exact Or.inr (List.mem_append_right _ h)

/-- Adjacency holds exactly between distinct components sharing an
electrical node. -/
theorem adjacencyOf_mem_iff (comps : List Component) (wires : List Wire)
    (x y : Nat) :
    y ∈ adjacencyOf comps wires x ↔
      x ≠ y ∧ ∃ nid ∈ nodeIdsList comps wires,
        x ∈ node_members comps wires nid ∧ y ∈ node_members comps wires nid := by
  rw [adjacencyOf_mem]
  constructor
  · rintro ⟨nid, hnid, pr, hpr, h⟩
    have hnd : (node_members comps wires nid).Nodup := by
      unfold node_members
      exact dedupKeepFirst_nodup _
    obtain ⟨hp1, hp2⟩ := upairs_mem hpr
    rcases h with h | h
    · have hx : x = pr.1 := congrArg Prod.fst h
      have hy : y = pr.2 := congrArg Prod.snd h
      refine ⟨upairs_ne hnd (by rw [h]; exact hpr), nid, hnid, ?_, ?_⟩
      · rw [hx]
        exact hp1
      · rw [hy]
        exact hp2
    · have hx : x = pr.2 := congrArg Prod.snd h
      have hy : y = pr.1 := congrArg Prod.fst h
      refine ⟨(upairs_ne hnd (by rw [h]; exact hpr)).symm, nid, hnid, ?_, ?_⟩
      · rw [hx]
        exact hp2
      · rw [hy]
        exact hp1
  · rintro ⟨hne, nid, hnid, hx, hy⟩
    rcases upairs_total hx hy hne with h | h
    · exact ⟨nid, hnid, (x, y), h, Or.inl rfl⟩
    · exact ⟨nid, hnid, (y, x), h, Or.inr rfl⟩

/-- Sharing an electrical node unfolded to terminal assignments. -/
theorem node_shared_iff (comps : List Component) (wires : List Wire)
    (x y : Nat) :
    (∃ nid ∈ nodeIdsList comps wires,
      x ∈ node_members comps wires nid ∧ y ∈ node_members comps wires nid) ↔
    (∃ ta tb, (ta, x) ∈ term_entries comps wires ∧
      (tb, y) ∈ term_entries comps wires ∧
      termRoot comps wires ta = termRoot comps wires tb) := by
  constructor
  · rintro ⟨nid, _, hx, hy⟩
    unfold node_members at hx hy
    obtain ⟨p, hp, hpx⟩ := List.mem_map.mp (dedupKeepFirst_mem.mp hx)
    obtain ⟨q, hq, hqy⟩ := List.mem_map.mp (dedupKeepFirst_mem.mp hy)
    obtain ⟨hp1, hp2⟩ := List.mem_filter.mp hp
    obtain ⟨hq1, hq2⟩ := List.mem_filter.mp hq
    refine ⟨p.1, q.1, ?_, ?_, ?_⟩
    · rw [show (p.1, x) = p from by rw [← hpx]]
      exact hp1
    · rw [show (q.1, y) = q from by rw [← hqy]]
      exact hq1
    · rw [of_decide_eq_true hp2, of_decide_eq_true hq2]
  · rintro ⟨ta, tb, hta, htb, hroot⟩
    refine ⟨termRoot comps wires ta, ?_, ?_, ?_⟩
    · unfold nodeIdsList
      rw [dedupKeepFirst_mem]
      exact List.mem_map_of_mem _ hta
    · unfold node_members
      rw [dedupKeepFirst_mem]
      refine List.mem_map_of_mem _ (List.mem_filter.mpr ⟨hta, decide_eq_true rfl⟩)
    · unfold node_members
      rw [dedupKeepFirst_mem]
      refine List.mem_map_of_mem _ (List.mem_filter.mpr ⟨htb, decide_eq_true hroot.symm⟩)

theorem clusterTerms_key_mem {comps : List Component} {wires : List Wire}
    {r : Nat} {t : String} :
    t ∈ (clusterTerms comps wires (clusterWires wires r)).map Prod.fst ↔
      ∃ wi, wi < wires.length ∧ wireRoot wires wi = r ∧
        ∃ p : Nat × String, some p ∈ (wAt wires wi).attachments ∧
          t = termId comps p.1 p.2 := by
  constructor
  · intro h
    obtain ⟨q, hq, rfl⟩ := List.mem_map.mp h
    obtain ⟨wi, h1, h2, p, hp, heq⟩ := clusterTerms_mem.mp hq
    exact ⟨wi, h1, h2, p, hp, congrArg Prod.fst heq⟩
  · rintro ⟨wi, h1, h2, p, hp, rfl⟩
    exact List.mem_map_of_mem _
      (clusterTerms_mem.mpr ⟨wi, h1, h2, p, hp, rfl⟩)

/-- All terminals of one link cluster are joined by the star of unions the
cluster performs. -/
theorem cluster_keys_eqv {comps : List Component} {wires : List Wire} {r : Nat}
    (hr : r ∈ clusterRootsList wires) {t1 t2 : String}
    (h1 : t1 ∈ (clusterTerms comps wires (clusterWires wires r)).map Prod.fst)
    (h2 : t2 ∈ (clusterTerms comps wires (clusterWires wires r)).map Prod.fst) :
    Relation.EqvGen
      (fun u v => u = v ∨ (u, v) ∈ term_pairs comps wires) t1 t2 := by
  rcases hts : (clusterTerms comps wires (clusterWires wires r)).map Prod.fst
    with _ | ⟨t0, ts⟩
  · rw [hts] at h1
    cases h1
  · rw [hts] at h1 h2
    have hhead : ∀ t ∈ t0 :: ts, Relation.EqvGen
        (fun u v => u = v ∨ (u, v) ∈ term_pairs comps wires) t t0 := by
      intro t ht
      rcases List.mem_cons.mp ht with rfl | ht
      · exact Relation.EqvGen.refl t
      · refine Relation.EqvGen.symm _ _ (Relation.EqvGen.rel _ _ (Or.inr ?_))
        unfold term_pairs
        rw [List.mem_flatten]
        refine ⟨termPairsOfCluster comps wires (clusterWires wires r),
          List.mem_map_of_mem _ hr, ?_⟩
        unfold termPairsOfCluster
        rw [hts]
        exact List.mem_map_of_mem _ ht
    exact Relation.EqvGen.trans _ _ _ (hhead t1 h1)
      (Relation.EqvGen.symm _ _ (hhead t2 h2))

/-- The generated terminal equivalence is exactly the canonical
same-cluster join. -/
theorem term_pairs_eqv_iff (comps : List Component) (wires : List Wire)
    (t t' : String) :
    Relation.EqvGen
      (fun u v => u = v ∨ (u, v) ∈ term_pairs comps wires) t t' ↔
    Relation.EqvGen
      (fun u v => u = v ∨ CanonTermLink comps wires u v) t t' := by
  constructor
  · refine eqvGen_mono_rel ?_
    rintro u v (rfl | h)
    · exact Relation.EqvGen.refl u
    · refine Relation.EqvGen.rel _ _ (Or.inr ?_)
      unfold term_pairs at h
      rw [List.mem_flatten] at h
      obtain ⟨l, hl, hprl⟩ := h
      obtain ⟨r, hr, rfl⟩ := List.mem_map.mp hl
      unfold termPairsOfCluster at hprl
      rcases hts : (clusterTerms comps wires (clusterWires wires r)).map Prod.fst
        with _ | ⟨t0, ts⟩
      · rw [hts] at hprl
        cases hprl
      · rw [hts] at hprl
        obtain ⟨tv, htv, heq⟩ := List.mem_map.mp hprl
        have hu : u = t0 := (congrArg Prod.fst heq).symm
        have hv : v = tv := (congrArg Prod.snd heq).symm
        have hu2 : u ∈ (clusterTerms comps wires (clusterWires wires r)).map
            Prod.fst := by
          rw [hts, hu]
          exact List.mem_cons_self t0 ts
        have hv2 : v ∈ (clusterTerms comps wires (clusterWires wires r)).map
            Prod.fst := by
          rw [hts, hv]
          exact List.mem_cons_of_mem t0 htv
        obtain ⟨wi, hwi1, hwi2, pu, hpu, hpu2⟩ := clusterTerms_key_mem.mp hu2
        obtain ⟨wj, hwj1, hwj2, pv, hpv, hpv2⟩ := clusterTerms_key_mem.mp hv2
        refine ⟨wi, wj, ⟨hwi1, pu, hpu, hpu2⟩, ⟨hwj1, pv, hpv, hpv2⟩, ?_⟩
        rw [← wireRoot_iff]
        rw [hwi2, hwj2]
  · refine eqvGen_mono_rel ?_
    rintro u v (rfl | ⟨wi, wj, ⟨hwi1, pu, hpu, hpu2⟩, ⟨hwj1, pv, hpv, hpv2⟩, hconn⟩)
    · exact Relation.EqvGen.refl u
    · have hroots : wireRoot wires wi = wireRoot wires wj :=
        (wireRoot_iff wires wi wj).mpr hconn
      have hr : wireRoot wires wi ∈ clusterRootsList wires := by
        unfold clusterRootsList
        rw [dedupKeepFirst_mem]
        exact List.mem_map_of_mem _ (List.mem_range.mpr hwi1)
      refine cluster_keys_eqv hr ?_ ?_
      · exact clusterTerms_key_mem.mpr ⟨wi, hwi1, rfl, pu, hpu, hpu2⟩
      · exact clusterTerms_key_mem.mpr ⟨wj, hwj1, hroots.symm, pv, hpv, hpv2⟩

/-- The adjacency of node resolution, characterized canonically: two
distinct components are adjacent exactly when they own terminals joined
through the link clusters. -/
theorem adjacency_canon (comps : List Component) (wires : List Wire)
    (hfn : TermFunctional comps wires) (x y : Nat) :
    y ∈ adjacencyOf comps wires x ↔
      x ≠ y ∧ ∃ ta tb, CanonTermAssign comps wires ta x ∧
        CanonTermAssign comps wires tb y ∧
        Relation.EqvGen
          (fun u v => u = v ∨ CanonTermLink comps wires u v) ta tb := by
  rw [adjacencyOf_mem_iff]
  constructor
  · rintro ⟨hne, hshared⟩
    obtain ⟨ta, tb, hta, htb, hroot⟩ := (node_shared_iff comps wires x y).mp hshared
    refine ⟨hne, ta, tb, ?_, ?_, ?_⟩
    · exact termRaw_iff.mp ((term_entries_iff_raw hfn ta x).mp hta)
    · exact termRaw_iff.mp ((term_entries_iff_raw hfn tb y).mp htb)
    · rw [← term_pairs_eqv_iff, ← termRoot_iff]
      exact hroot
  · rintro ⟨hne, ta, tb, hta, htb, heqv⟩
    refine ⟨hne, (node_shared_iff comps wires x y).mpr ⟨ta, tb, ?_, ?_, ?_⟩⟩
    · exact (term_entries_iff_raw hfn ta x).mpr (termRaw_iff.mpr hta)
    · exact (term_entries_iff_raw hfn tb y).mpr (termRaw_iff.mpr htb)
    · rw [termRoot_iff, term_pairs_eqv_iff]
      exact heqv

/-- A wire under an index relabeling of the wire list: attachments are
untouched, link targets are relabeled. -/
def relabelWire (σ : Nat → Nat) (w : Wire) : Wire :=
  ⟨w.attachments, w.links.map (fun ls => ls.map (fun lw => (σ lw.1, lw.2)))⟩

theorem wAt_mem {wires : List Wire} {i : Nat} (h : i < wires.length) :
    wAt wires i ∈ wires := by
  unfold wAt
  rw [List.getD_eq_getElem?_getD, List.getElem?_eq_getElem h]
  exact List.getElem_mem h

theorem wireLinkPairs_mem {wires : List Wire} {q : Nat × Nat} :
    q ∈ wireLinkPairs wires ↔
      ∃ i, i < wires.length ∧ ∃ ls ∈ (wAt wires i).links, ∃ lw ∈ ls,
        lw.1 < wires.length ∧ q = (i, lw.1) := by
  unfold wireLinkPairs
  rw [List.mem_flatten]
  constructor
  · rintro ⟨l1, hl1, hq1⟩
    obtain ⟨iw, hiw, rfl⟩ := List.mem_map.mp hl1
    rw [List.mem_flatten] at hq1
    obtain ⟨l2, hl2, hq2⟩ := hq1
    obtain ⟨ls, hls, rfl⟩ := List.mem_map.mp hl2
    rw [List.mem_filterMap] at hq2
    obtain ⟨lw, hlw, hlw2⟩ := hq2
    by_cases hb : lw.1 < wires.length
    · rw [if_pos hb] at hlw2
      injection hlw2 with h
      obtain ⟨hi, hiw2⟩ := List.mem_enum hiw
      refine ⟨iw.1, hi, ls, ?_, lw, hlw, hb, h.symm⟩
      have hwa : wAt wires iw.1 = iw.2 := by
        unfold wAt
        rw [List.getD_eq_getElem?_getD, List.getElem?_eq_getElem hi, hiw2]
        rfl
      rw [hwa]
      exact hls
    · rw [if_neg hb] at hlw2
      cases hlw2
  · rintro ⟨i, hi, ls, hls, lw, hlw, hb, rfl⟩
    refine ⟨_, List.mem_map_of_mem _ (?_ : (i, wAt wires i) ∈ wires.enum), ?_⟩
    · have hie : i < wires.enum.length := by
        rw [List.enum_length]
        exact hi
      have h1 : wires.enum[i] = (i, wires[i]) := List.getElem_enum wires i hie
      have h2 : wAt wires i = wires[i] := by
        unfold wAt
        rw [List.getD_eq_getElem?_getD, List.getElem?_eq_getElem hi]
        rfl
      rw [h2, ← h1]
      exact List.getElem_mem hie
    · rw [List.mem_flatten]
      refine ⟨_, List.mem_map_of_mem _ hls, ?_⟩
      rw [List.mem_filterMap]
      exact ⟨lw, hlw, by rw [if_pos hb]⟩

/-- C9: the component adjacency derived by node resolution is independent
of the order of the wire list — for any relabeling pair `σ`/`τ` carrying a
well-formed wire list onto a permuted list with the same attachments and
relabeled links, the derived adjacency graphs coincide. -/
theorem adjacency_wire_order_invariant (comps : List Component)
    (wires1 wires2 : List Wire) (σ τ : Nat → Nat)
    (hlen : wires2.length = wires1.length)
    (hσ : ∀ i, i < wires1.length → σ i < wires1.length)
    (hτ : ∀ j, j < wires1.length → τ j < wires1.length)
    (hστ : ∀ i, i < wires1.length → τ (σ i) = i)
    (hτσ : ∀ j, j < wires1.length → σ (τ j) = j)
    (hw : ∀ i, i < wires1.length →
      wAt wires2 (σ i) = relabelWire σ (wAt wires1 i))
    (hlk : ∀ w ∈ wires1, ∀ ls ∈ w.links, ∀ lw ∈ ls, lw.1 < wires1.length)
    (hfn : TermFunctional comps wires1) :
    ∀ a b, b ∈ adjacencyOf comps wires2 a ↔ b ∈ adjacencyOf comps wires1 a := by
  have hatt : ∀ i, i < wires1.length →
      (wAt wires2 (σ i)).attachments = (wAt wires1 i).attachments := by
    intro i hi
    rw [hw i hi]
    rfl
  have hlinks : ∀ i, i < wires1.length →
      (wAt wires2 (σ i)).links =
        (wAt wires1 i).links.map (fun ls => ls.map (fun lw => (σ lw.1, lw.2))) := by
    intro i hi
    rw [hw i hi]
    rfl
  have hpairs2 : ∀ u v, (u, v) ∈ wireLinkPairs wires2 ↔
      ∃ i j, i < wires1.length ∧ j < wires1.length ∧ u = σ i ∧ v = σ j ∧
        (i, j) ∈ wireLinkPairs wires1 := by
    intro u v
    rw [wireLinkPairs_mem]
    constructor
    · rintro ⟨i2, hi2, ls, hls, lw, hlw, hb, heq⟩
      rw [hlen] at hi2 hb
      have hmap := hlinks (τ i2) (hτ i2 hi2)
      rw [hτσ i2 hi2] at hmap
      rw [hmap] at hls
      obtain ⟨ls1, hls1, rfl⟩ := List.mem_map.mp hls
      obtain ⟨lw1, hlw1, rfl⟩ := List.mem_map.mp hlw
      have hlw1b : lw1.1 < wires1.length :=
        hlk (wAt wires1 (τ i2)) (wAt_mem (hτ i2 hi2)) ls1 hls1 lw1 hlw1
      have hu : u = i2 := congrArg Prod.fst heq
      have hv : v = σ lw1.1 := congrArg Prod.snd heq
      refine ⟨τ i2, lw1.1, hτ i2 hi2, hlw1b, ?_, hv, ?_⟩
      · exact hu.trans (hτσ i2 hi2).symm
      · exact wireLinkPairs_mem.mpr ⟨τ i2, hτ i2 hi2, ls1, hls1, lw1, hlw1,
          hlw1b, rfl⟩
    · rintro ⟨i, j, hi, hj, rfl, rfl, hij⟩
      obtain ⟨i', hi', ls1, hls1, lw1, hlw1, hb1, heq⟩ := wireLinkPairs_mem.mp hij
      have hii : i = i' := congrArg Prod.fst heq
      have hjj : j = lw1.1 := congrArg Prod.snd heq
      subst hii
      refine ⟨σ i, by rw [hlen]; exact hσ i hi,
        ls1.map (fun lw => (σ lw.1, lw.2)), ?_, (σ lw1.1, lw1.2), ?_, ?_, ?_⟩
      · rw [hlinks i hi]
        exact List.mem_map_of_mem _ hls1
      · exact List.mem_map_of_mem _ hlw1
      · rw [hlen]
        exact hσ lw1.1 hb1
      · rw [hjj]
  have hconn21 : ∀ u v, Relation.EqvGen
        (fun a b => a = b ∨ (a, b) ∈ wireLinkPairs wires2) u v →
      u = v ∨ (u < wires1.length ∧ v < wires1.length ∧
        Relation.EqvGen (fun a b => a = b ∨ (a, b) ∈ wireLinkPairs wires1)
          (τ u) (τ v)) := by
    intro u v h
    induction h with
    | rel a b hab =>
      rcases hab with rfl | hab
      · exact Or.inl rfl
      · obtain ⟨i, j, hi, hj, rfl, rfl, hij⟩ := (hpairs2 a b).mp hab
        refine Or.inr ⟨hσ i hi, hσ j hj, ?_⟩
        rw [hστ i hi, hστ j hj]
        exact Relation.EqvGen.rel _ _ (Or.inr hij)
    | refl a => exact Or.inl rfl
    | symm a b _ ih =>
      rcases ih with rfl | ⟨h1, h2, h3⟩
      · exact Or.inl rfl
      · exact Or.inr ⟨h2, h1, Relation.EqvGen.symm _ _ h3⟩
    | trans a b c _ _ ih1 ih2 =>
      rcases ih1 with rfl | ⟨h1, h2, h3⟩
      · exact ih2
      · rcases ih2 with rfl | ⟨h4, h5, h6⟩
        · exact Or.inr ⟨h1, h2, h3⟩
        · exact Or.inr ⟨h1, h5, Relation.EqvGen.trans _ _ _ h3 h6⟩
  have hconn12 : ∀ i j, Relation.EqvGen
        (fun a b => a = b ∨ (a, b) ∈ wireLinkPairs wires1) i j →
      Relation.EqvGen (fun a b => a = b ∨ (a, b) ∈ wireLinkPairs wires2)
        (σ i) (σ j) := by
    intro i j h
    induction h with
    | rel a b hab =>
      rcases hab with rfl | hab
      · exact Relation.EqvGen.refl _
      · obtain ⟨hb1, hb2⟩ := wireLinkPairs_bound hab
        exact Relation.EqvGen.rel _ _
          (Or.inr ((hpairs2 _ _).mpr ⟨a, b, hb1, hb2, rfl, rfl, hab⟩))
    | refl a => exact Relation.EqvGen.refl _
    | symm _ _ _ ih => exact Relation.EqvGen.symm _ _ ih
    | trans _ _ _ _ _ ih1 ih2 => exact Relation.EqvGen.trans _ _ _ ih1 ih2
  have htow21 : ∀ t wi2, CanonTermOfWire comps wires2 t wi2 →
      CanonTermOfWire comps wires1 t (τ wi2) := by
    rintro t wi2 ⟨hwi2, p, hp, ht⟩
    rw [hlen] at hwi2
    refine ⟨hτ wi2 hwi2, p, ?_, ht⟩
    have := hatt (τ wi2) (hτ wi2 hwi2)
    rw [hτσ wi2 hwi2] at this
    rw [← this]
    exact hp
  have htow12 : ∀ t wi, CanonTermOfWire comps wires1 t wi →
      CanonTermOfWire comps wires2 t (σ wi) := by
    rintro t wi ⟨hwi, p, hp, ht⟩
    refine ⟨by rw [hlen]; exact hσ wi hwi, p, ?_, ht⟩
    rw [hatt wi hwi]
    exact hp
  have hta : ∀ t c, CanonTermAssign comps wires2 t c ↔
      CanonTermAssign comps wires1 t c := by
    intro t c
    constructor
    · rintro ⟨wi2, hwi2, p, hp, ht, hc⟩
      obtain ⟨h1, p', hp', ht'⟩ := htow21 t wi2 ⟨hwi2, p, hp, ht⟩
      rw [hlen] at hwi2
      refine ⟨τ wi2, hτ wi2 hwi2, p, ?_, ht, hc⟩
      have := hatt (τ wi2) (hτ wi2 hwi2)
      rw [hτσ wi2 hwi2] at this
      rw [← this]
      exact hp
    · rintro ⟨wi, hwi, p, hp, ht, hc⟩
      refine ⟨σ wi, by rw [hlen]; exact hσ wi hwi, p, ?_, ht, hc⟩
      rw [hatt wi hwi]
      exact hp
  have htl : ∀ t t', CanonTermLink comps wires2 t t' ↔
      CanonTermLink comps wires1 t t' := by
    intro t t'
    constructor
    · rintro ⟨wi, wj, hti, htj, hcn⟩
      rcases hconn21 _ _ hcn with heq | ⟨_, _, h3⟩
      · exact ⟨τ wi, τ wj, htow21 _ _ hti, htow21 _ _ htj,
          by rw [heq]; exact Relation.EqvGen.refl _⟩
      · exact ⟨τ wi, τ wj, htow21 _ _ hti, htow21 _ _ htj, h3⟩
    · rintro ⟨wi, wj, hti, htj, hcn⟩
      exact ⟨σ wi, σ wj, htow12 _ _ hti, htow12 _ _ htj, hconn12 _ _ hcn⟩
  have heqvtl : ∀ ta tb,
      Relation.EqvGen (fun u v => u = v ∨ CanonTermLink comps wires2 u v) ta tb ↔
      Relation.EqvGen (fun u v => u = v ∨ CanonTermLink comps wires1 u v)
        ta tb := by
    intro ta tb
    constructor
    · refine eqvGen_mono_rel ?_
      rintro u v (rfl | h)
      · exact Relation.EqvGen.refl u
      · exact Relation.EqvGen.rel _ _ (Or.inr ((htl u v).mp h))
    · refine eqvGen_mono_rel ?_
      rintro u v (rfl | h)
      · exact Relation.EqvGen.refl u
      · exact Relation.EqvGen.rel _ _ (Or.inr ((htl u v).mpr h))
  have hfn2 : TermFunctional comps wires2 := by
    intro q hq q' hq' hkey
    have h1 : CanonTermAssign comps wires1 q.1 q.2 :=
      (hta q.1 q.2).mp (termRaw_iff.mp hq)
    have h2 : CanonTermAssign comps wires1 q'.1 q'.2 :=
      (hta q'.1 q'.2).mp (termRaw_iff.mp hq')
    exact hfn (q.1, q.2) (termRaw_iff.mpr h1) (q'.1, q'.2)
      (termRaw_iff.mpr h2) hkey
  intro a b
  rw [adjacency_canon comps wires2 hfn2 a b, adjacency_canon comps wires1 hfn a b]
  constructor
  · rintro ⟨hne, ta, tb, h1, h2, h3⟩
    exact ⟨hne, ta, tb, (hta ta a).mp h1, (hta tb b).mp h2, (heqvtl ta tb).mp h3⟩
  · rintro ⟨hne, ta, tb, h1, h2, h3⟩
    exact ⟨hne, ta, tb, (hta ta a).mpr h1, (hta tb b).mpr h2,
      (heqvtl ta tb).mpr h3⟩

/-- The counterexample snapshot's wires in reversed order (links are empty,
so relabeling them is trivial). -/
def c9wires2 : List Wire :=
  [⟨[some (1, "right"), some (0, "left")], [[], []]⟩,
   ⟨[some (0, "right"), some (1, "left")], [[], []]⟩]

/-- Witness for C9 at a concrete permutation: reversing the two wires of
the two-component loop leaves the derived adjacency unchanged. -/
theorem adjacency_wire_order_invariant_witness :
    (c9wires2.length = c3wires.length ∧
     (∀ i, i < c3wires.length → 1 - i < c3wires.length) ∧
     (∀ i, i < c3wires.length →
       wAt c9wires2 (1 - i) = relabelWire (fun k => 1 - k) (wAt c3wires i)) ∧
     (∀ w ∈ c3wires, ∀ ls ∈ w.links, ∀ lw ∈ ls, lw.1 < c3wires.length) ∧
     TermFunctional c3comps c3wires) ∧
    (∀ a b, b ∈ adjacencyOf c3comps c9wires2 a ↔
      b ∈ adjacencyOf c3comps c3wires a) :=
  ⟨⟨by decide, by decide, by decide, by decide,
    by unfold TermFunctional; decide⟩,
   adjacency_wire_order_invariant c3comps c3wires c9wires2
     (fun k => 1 - k) (fun k => 1 - k) (by decide) (by decide) (by decide)
     (by decide) (by decide) (by decide) (by decide)
     (by unfold TermFunctional; decide)⟩

end Circuit
